import Mathlib

/-!
# Verification of `fluid-recipes/src/apply-structure.js`

A shallow embedding of the structure-template resolver (`applyStructure`) and of the
recursive tree transformer (`parse` with `applyChanges`), together with the JavaScript
built-ins they rely on (`parseInt`, `isNaN`, `String.prototype.includes`,
`String.prototype.split`, `Object.entries`, property assignment, `+`). The value
normaliser (`converters`) and the message compiler (`fluid`), of which the sources hold
only the tests, follow in namespaces of their own.

Modelling conventions.
* JavaScript numbers are modelled by `Int` (pitches, semitone deltas, indices); the
  arithmetic of the source is exact on them below `2^53`.
* `parseInt` reads the string of its argument. For a numeric label that string is
  modelled in full (`numberToString`): the label `1e21` is read as 1.
* `undefined` is `none`; `NaN` returned by `parseInt` is `none`.
* A thrown `TypeError` is `Except.error Error.typeError`.
* In-place mutation is made explicit: `applyChanges` and `parse` return, next to the value
  the source returns, the state of their argument object after the call.
* The source is not strict-mode code: an assignment to a property of a primitive value is
  dropped without an error.
* `parse` recurses; the embedding bounds the recursion by fuel and `parse` supplies fuel
  above the height of its argument, which `parse_eq` shows to be enough.
-/

namespace ApplyStructure

/-! ## Data model -/

/-- A score value: a number, a string, a sequence (JavaScript array) or a mapping (plain
JavaScript object). A mapping is the list of the object's own enumerable properties, in
property order; the keys of an object are pairwise distinct (`Tree.distinctKeys`). A tree
shares no object between two of its positions. -/
inductive Tree where
  | num (n : Int)
  | str (s : String)
  | seq (xs : List Tree)
  | map (kvs : List (String × Tree))

/-- A label of a structure template: a string (`'unique_intro'`, `'unique_outro'`, `'0'`, ...)
or a number written as an integer. -/
inductive Label where
  | str (s : String)
  | num (n : Int)
  deriving DecidableEq

/-- A section template entry `{ key_diff, "drums-delta" }`; both fields hold integers. -/
structure Mods where
  key_diff : Int
  drums_delta : Int

/-- A structure definition: `structure.structure[0].labels` and `structure.sections`. -/
structure Structure where
  labels : List Label
  sections : List (List Mods)

/-- Errors of the embedding: a JavaScript `TypeError`, or exhausted recursion fuel. -/
inductive Error where
  | typeError
  | outOfFuel
  deriving DecidableEq

/-! ## JavaScript built-ins -/

/-- The decimal digit character of `d` (for `d < 10`). -/
def digitChar (d : Nat) : Char := Char.ofNat (48 + d)

/-- Decimal digits of `n`, most significant first; `fuel ≥ n` is enough. -/
def natDigits : Nat → Nat → List Char
  | 0, n => [digitChar (n % 10)]
  | fuel + 1, n =>
    if n < 10 then [digitChar n] else natDigits fuel (n / 10) ++ [digitChar (n % 10)]

/-- JavaScript `String(n)` for a natural number `n` (an array index). -/
def natToString (n : Nat) : String := ⟨natDigits n n⟩

/-- JavaScript `String(n)` for an integer `n`. -/
def intToString : Int → String
  | Int.ofNat n => natToString n
  | Int.negSucc n => "-" ++ natToString (n + 1)

/-- The characters `StrWhiteSpaceChar` of ECMAScript (white space and line terminators). -/
def isStrWhiteSpaceChar (c : Char) : Bool :=
  let n := c.toNat
  n == 9 || n == 10 || n == 11 || n == 12 || n == 13 || n == 32 || n == 160 ||
  n == 0x1680 || (0x2000 ≤ n && n ≤ 0x200A) || n == 0x2028 || n == 0x2029 ||
  n == 0x202F || n == 0x205F || n == 0x3000 || n == 0xFEFF

/-- The value of `c` as a digit in the given radix, if it is one. -/
def digitValue (radix : Nat) (c : Char) : Option Nat :=
  let n := c.toNat
  let v : Option Nat :=
    if 48 ≤ n ∧ n ≤ 57 then some (n - 48)
    else if 97 ≤ n ∧ n ≤ 122 then some (n - 87)
    else if 65 ≤ n ∧ n ≤ 90 then some (n - 55)
    else none
  v.filter (fun d => d < radix)

/-- Reads the longest prefix of digits; `none` when there is no digit at all. -/
def parseDigits (radix : Nat) : List Char → Option Nat → Option Nat
  | [], acc => acc
  | c :: cs, acc =>
    match digitValue radix c with
    | none => acc
    | some d => parseDigits radix cs (some (acc.getD 0 * radix + d))

/-- Removes one leading sign; returns the sign and the rest. -/
def stripSign : List Char → Int × List Char
  | '-' :: r => (-1, r)
  | '+' :: r => (1, r)
  | cs => (1, cs)

/-- Removes a leading `0x` or `0X`; returns the radix and the rest. -/
def stripHexPrefix : List Char → Nat × List Char
  | '0' :: 'x' :: r => (16, r)
  | '0' :: 'X' :: r => (16, r)
  | cs => (10, cs)

/-- JavaScript `parseInt(s)` with no radix argument; `none` is `NaN`. -/
def parseInt (s : String) : Option Int :=
  let (sign, cs) := stripSign (s.data.dropWhile isStrWhiteSpaceChar)
  let (radix, ds) := stripHexPrefix cs
  (parseDigits radix ds none).map (fun n => sign * (n : Int))

/-- Number of binary digits of `n`; `fuel ≥ n` is enough. -/
def bitLength : Nat → Nat → Nat
  | 0, _ => 0
  | fuel + 1, n => if n = 0 then 0 else bitLength fuel (n / 2) + 1

/-- The Number value of the non-negative integer `n`, a double: `n` rounded to 53 binary
digits, to the nearest, a tie to the even one; `none` is `Infinity`, the value of an
integer that rounds to more than 1024 binary digits. An integer below `2^53` is its own
value. -/
def toNumber (n : Nat) : Option Nat :=
  let e := bitLength n n - 53
  let m := n / 2 ^ e
  let r := n % 2 ^ e
  let rounded := if 2 ^ e < 2 * r ∨ (2 * r = 2 ^ e ∧ m % 2 = 1) then m + 1 else m
  if bitLength rounded rounded + e ≤ 1024 then some (rounded * 2 ^ e) else none

/-- The decimal that `Number::toString` writes for the Number value `x`, a positive
integer: the integer with the fewest significant digits whose Number value is `x`. The
candidates with all digits below `10^j` zero are the two multiples of `10^j` around `x`;
`j` runs downwards, and of two candidates that both denote `x` the one closer to `x` is
taken (the even one at equal distance). -/
def shortestDecimal (x : Nat) : Nat → Nat
  | 0 => x
  | j + 1 =>
    let p := 10 ^ (j + 1)
    let lo := x / p * p
    let hi := lo + p
    if toNumber lo = some x then
      if toNumber hi = some x then
        if x - lo < hi - x then lo
        else if hi - x < x - lo then hi
        else if x / p % 2 = 0 then lo else hi
      else lo
    else if toNumber hi = some x then hi
    else shortestDecimal x j

/-- The digits of a decimal without its trailing zeros. -/
def significand (digits : List Char) : List Char :=
  (digits.reverse.dropWhile (fun c => c = '0')).reverse

/-- JavaScript `String(x)` for a Number value `x` that is a non-negative integer
(`Number::toString`, radix 10): below `10^21` the decimal digits, from there on the
exponent form `d.ddde+n` of the significant digits. -/
def unsignedToString (x : Nat) : String :=
  let t := shortestDecimal x ((natDigits x x).length - 1)
  let digits := natDigits t t
  if t < 10 ^ 21 then ⟨digits⟩
  else
    match significand digits with
    | [] => ⟨digits⟩
    | [d] => ⟨d :: 'e' :: '+' :: natDigits digits.length (digits.length - 1)⟩
    | d :: ds =>
      ⟨d :: '.' :: ds ++ 'e' :: '+' :: natDigits digits.length (digits.length - 1)⟩

/-- JavaScript `String(n)` for a number written as the integer `n`: the string of its
Number value. -/
def numberToString (n : Int) : String :=
  match toNumber n.natAbs with
  | none => if n < 0 then "-Infinity" else "Infinity"
  | some x => if n < 0 then "-" ++ unsignedToString x else unsignedToString x

/-- JavaScript `parseInt(label)`: `parseInt` reads the string of its argument, so a number is
read back from `String(label)`; that is the number itself below `2^53`, and the leading
digit of the exponent form from `10^21` on (`parseInt(1e21)` is 1). -/
def Label.parseInt : Label → Option Int
  | .str s => ApplyStructure.parseInt s
  | .num n => ApplyStructure.parseInt (numberToString n)

/-- JavaScript `s.includes(pat)` on character lists. -/
def includesChars (pat : List Char) : List Char → Bool
  | [] => pat.isEmpty
  | c :: cs => pat.isPrefixOf (c :: cs) || includesChars pat cs

/-- JavaScript `s.includes(pat)`. -/
def includes (s pat : String) : Bool := includesChars pat.data s.data

/-- JavaScript `s.split('.')` on character lists. -/
def splitDotChars : List Char → List (List Char)
  | [] => [[]]
  | c :: cs =>
    if c = '.' then [] :: splitDotChars cs
    else
      match splitDotChars cs with
      | [] => [[c]]
      | seg :: rest => (c :: seg) :: rest

/-- JavaScript `s.split('.')`. -/
def splitDot (s : String) : List String := (splitDotChars s.data).map String.mk

/-- JavaScript `xs[i]` for a number `i`: `undefined` (`none`) outside `0 .. xs.length - 1`. -/
def getIndex {α : Type} (xs : List α) (i : Int) : Option α :=
  if i < 0 then none else xs[i.toNat]?

/-! ## `applyStructure` (lines 76-92) -/

/-- The `for` loop of `applyStructure`, with its two variables `newScore` and `offset`. -/
def applyStructureLoop {α : Type} (scoreObject : List α) :
    List Label → List (Option α) → Int → List (Option α)
  | [], newScore, _ => newScore
  | label :: rest, newScore, offset =>
    if label = Label.str "unique_intro" then
      applyStructureLoop scoreObject rest (newScore ++ [getIndex scoreObject 0]) (offset + 1)
    else if label = Label.str "unique_outro" then
      applyStructureLoop scoreObject rest
        (newScore ++ [getIndex scoreObject ((scoreObject.length : Int) - 1)]) offset
    else
      applyStructureLoop scoreObject rest
        (newScore ++ [(label.parseInt).bind (fun l => getIndex scoreObject (l + offset))])
        offset

/-- Source function `applyStructure(scoreObject, labels)`: the selected sections, `none`
where the source pushes `undefined`. The element type is left open, it is never
inspected. -/
def applyStructure {α : Type} (scoreObject : List α) (labels : List Label) :
    List (Option α) :=
  applyStructureLoop scoreObject labels [] 0

/-- The element pushed for `label` when the loop variable `offset` has the given value. -/
def pushed {α : Type} (scoreObject : List α) (label : Label) (offset : Int) : Option α :=
  if label = Label.str "unique_intro" then getIndex scoreObject 0
  else if label = Label.str "unique_outro" then
    getIndex scoreObject ((scoreObject.length : Int) - 1)
  else (label.parseInt).bind (fun l => getIndex scoreObject (l + offset))

/-- Number of `'unique_intro'` labels strictly before position `i`. -/
def introsBefore (labels : List Label) (i : Nat) : Nat :=
  (labels.take i).count (Label.str "unique_intro")

/-! ## Objects: entries, property assignment, string conversion -/

/-- JavaScript `Object.prototype.hasOwnProperty` on a list of own properties. -/
def hasOwn (kvs : List (String × Tree)) (key : String) : Bool :=
  kvs.any (fun e => e.1 == key)

/-- The entries of an array whose first element has index `i`. -/
def indexFrom : Nat → List Tree → List (String × Tree)
  | _, [] => []
  | i, x :: xs => (natToString i, x) :: indexFrom (i + 1) xs

/-- JavaScript `Object.entries(o)`: nothing for a number, the indexed characters of a
string, the indexed elements of an array, the own properties of an object. -/
def entries : Tree → List (String × Tree)
  | .num _ => []
  | .str s => indexFrom 0 (s.data.map (fun c => Tree.str (String.singleton c)))
  | .seq xs => indexFrom 0 xs
  | .map kvs => kvs

/-- Replaces the value of the own property `key`. -/
def replaceOwn : List (String × Tree) → String → Tree → List (String × Tree)
  | [], _, _ => []
  | (k, x) :: rest, key, v =>
    if k = key then (k, v) :: rest else (k, x) :: replaceOwn rest key v

/-- Replaces the array element whose index is written `key`; `i` is the index of the
first element of the list. -/
def replaceIndex : List Tree → Nat → String → Tree → List Tree
  | [], _, _, _ => []
  | x :: xs, i, key, v =>
    if natToString i = key then v :: xs else x :: replaceIndex xs (i + 1) key v

/-- JavaScript `o[key] = v` for a key listed by `Object.entries(o)`. On a primitive (a number or a
string) the assignment has no effect: the source is not strict-mode code. -/
def assignOwn (o : Tree) (key : String) (v : Tree) : Tree :=
  match o with
  | .num n => .num n
  | .str s => .str s
  | .seq xs => .seq (replaceIndex xs 0 key v)
  | .map kvs => .map (replaceOwn kvs key v)

/-- Source assignment `returnValue[key] = v` on an object created by `{}`: an own property is replaced or
appended; assigning to `__proto__` runs the inherited setter and creates no own property. -/
def assignProp (kvs : List (String × Tree)) (key : String) (v : Tree) :
    List (String × Tree) :=
  if hasOwn kvs key then replaceOwn kvs key v
  else if key = "__proto__" then kvs
  else kvs ++ [(key, v)]

mutual
/-- JavaScript `String(v)`: a number in decimal, a string itself, an array its elements joined by
commas, a plain object `[object Object]`. An object whose own property `toString` holds
data (not a function) cannot be converted: `TypeError`. -/
def jsToString : Tree → Except Error String
  | .num n => pure (intToString n)
  | .str s => pure s
  | .seq xs => joinElems xs
  | .map kvs => if hasOwn kvs "toString" then throw Error.typeError
      else pure "[object Object]"
/-- JavaScript `Array.prototype.join` with the separator `,`. -/
def joinElems : List Tree → Except Error String
  | [] => pure ""
  | x :: xs => do
    let a ← jsToString x
    let b ← joinRest xs
    pure (a ++ b)
/-- The elements after the first, each preceded by the separator. -/
def joinRest : List Tree → Except Error String
  | [] => pure ""
  | x :: xs => do
    let a ← jsToString x
    let b ← joinRest xs
    pure ("," ++ a ++ b)
end

/-- Whether all characters are digits of the radix, and there is at least one. -/
def allDigits (radix : Nat) (cs : List Char) : Bool :=
  !cs.isEmpty && cs.all (fun c => (digitValue radix c).isSome)

/-- An optional `ExponentPart`. -/
def isExponentOpt : List Char → Bool
  | [] => true
  | 'e' :: r => allDigits 10 (stripSign r).2
  | 'E' :: r => allDigits 10 (stripSign r).2
  | _ :: _ => false

/-- Grammar symbol `StrUnsignedDecimalLiteral` other than `Infinity`. -/
def isUnsignedDecimal (cs : List Char) : Bool :=
  let isDigit := fun c => (digitValue 10 c).isSome
  let ip := cs.takeWhile isDigit
  match cs.dropWhile isDigit with
  | '.' :: r =>
    let fp := r.takeWhile isDigit
    (!ip.isEmpty || !fp.isEmpty) && isExponentOpt (r.dropWhile isDigit)
  | rest => !ip.isEmpty && isExponentOpt rest

/-- Grammar symbol `NonDecimalIntegerLiteral`: hexadecimal, octal or binary. -/
def isNonDecimal : List Char → Bool
  | '0' :: 'x' :: r => allDigits 16 r
  | '0' :: 'X' :: r => allDigits 16 r
  | '0' :: 'o' :: r => allDigits 8 r
  | '0' :: 'O' :: r => allDigits 8 r
  | '0' :: 'b' :: r => allDigits 2 r
  | '0' :: 'B' :: r => allDigits 2 r
  | _ => false

/-- Whether `Number(s)` is a number, that is `s` is a `StringNumericLiteral`: blank, or
a decimal, `Infinity`, hexadecimal, octal or binary literal between white space. -/
def isNumericLiteral (s : String) : Bool :=
  let cs := ((s.data.dropWhile isStrWhiteSpaceChar).reverse.dropWhile
    isStrWhiteSpaceChar).reverse
  cs.isEmpty || isNonDecimal cs ||
    (stripSign cs).2 = "Infinity".data || isUnsignedDecimal (stripSign cs).2

/-- JavaScript `isNaN(val)`: a number is never `NaN` here; any other value is converted to a string
and then to a number. -/
def isNaN : Tree → Except Error Bool
  | .num _ => pure false
  | v => do
    let s ← jsToString v
    pure (!isNumericLiteral s)

/-- JavaScript `val + diff` for a number `diff`: addition on a number, otherwise concatenation of
`String(val)` and `String(diff)`. -/
def add (val : Tree) (diff : Int) : Except Error Tree :=
  match val with
  | .num n => pure (.num (n + diff))
  | v => do
    let s ← jsToString v
    pure (.str (s ++ intToString diff))

mutual
/-- Nesting depth of a tree; scalars have height 0. -/
def Tree.height : Tree → Nat
  | .num _ => 0
  | .str _ => 0
  | .seq xs => heightElems xs + 1
  | .map kvs => heightProps kvs + 1
/-- Largest height of an element. -/
def heightElems : List Tree → Nat
  | [] => 0
  | x :: xs => max x.height (heightElems xs)
/-- Largest height of a property value. -/
def heightProps : List (String × Tree) → Nat
  | [] => 0
  | (_, v) :: kvs => max v.height (heightProps kvs)
end

/-! ## `applyChanges` (lines 182-205) and `parse` (lines 154-180) -/

/-- Outcome of `applyChanges`: the state of the argument `scoreObject` after the call,
and the new object returned in its place, if any (otherwise the argument itself is
returned). -/
structure Changed where
  argument : Tree
  fresh : Option Tree

/-- The value `applyChanges` returns. -/
def Changed.returned (c : Changed) : Tree := c.fresh.getD c.argument

/-- Source expression `structure.sections[parseInt(tree.split('.')[1])][0]`; reading a property of
`undefined` is a `TypeError`. -/
def lookupMods (struct : Structure) (tree : String) : Except Error Mods :=
  match ((splitDot tree)[1]?).bind parseInt with
  | none => throw Error.typeError
  | some sectionIndex =>
    match getIndex struct.sections sectionIndex with
    | none => throw Error.typeError
    | some entry =>
      match entry[0]? with
      | none => throw Error.typeError
      | some mods => pure mods

/-- The loop of lines 189-193 over the entries taken at its start: every entry whose
value is not `NaN` is overwritten, in `scoreObject` itself, by `val + diff`. -/
def transposeLoop (diff : Int) : List (String × Tree) → Tree → Except Error Tree
  | [], scoreObject => pure scoreObject
  | (key, val) :: rest, scoreObject => do
    if !(← isNaN val) then
      let sum ← add val diff
      transposeLoop diff rest (assignOwn scoreObject key sum)
    else
      transposeLoop diff rest scoreObject

/-- Source function `applyChanges(tree, key, scoreObject, structure)`. -/
def applyChanges (tree : String) (key : Option String) (scoreObject : Tree)
    (struct : Structure) : Except Error Changed :=
  if key = some "nLibrary" || includes tree "nLibrary" then do
    let mods ← lookupMods struct tree
    let diff := mods.key_diff
    let mutated ← transposeLoop diff (entries scoreObject) scoreObject
    pure ⟨mutated, none⟩
  else if key = some "drums" then do
    let mods ← lookupMods struct tree
    let drums := mods.drums_delta
    if drums = 0 then pure ⟨scoreObject, some (.map [])⟩
    else pure ⟨scoreObject, none⟩
  else pure ⟨scoreObject, none⟩

/-- One `for` loop of `parse` over entries: each entry is handed to the recursive call `f`,
in order; an error ends the loop. Every entry yields the value returned for it and the
state of the entry's own object after the call. -/
def parseEntries (f : String → Tree → Except Error (Tree × Tree)) :
    List (String × Tree) → Except Error (List (String × Tree × Tree))
  | [] => pure []
  | (key, o) :: rest => do
    let r ← f key o
    let rs ← parseEntries f rest
    pure ((key, r) :: rs)

/-- Source function `parse(key, scoreObject, structure, tree)`, lines 154-180, with its
recursive calls made through `recur`. Returns the value the source returns and the state
of the argument `scoreObject` after the call: a new object returned by `applyChanges`
leaves the argument as it is, otherwise the entries of the argument end in the states the
recursive calls leave them in. The keys of an array are its indices, for which
`isNaN(key)` is false, so every result is pushed and `arrayObjectsWithKeys` is left alone. -/
def parseStep (recur : Option String → Tree → Structure → String →
      Except Error (Tree × Tree))
    (key : Option String) (scoreObject : Tree) (struct : Structure) (tree : String) :
    Except Error (Tree × Tree) := do
  let c ← applyChanges tree key scoreObject struct
  match c.returned with
  | .seq xs => do
    let rs ← parseEntries
      (fun k o => recur (some k) o struct (tree ++ "." ++ k))
      (entries (.seq xs))
    let returnValue := Tree.seq (rs.map (fun r => r.2.1))
    let after := Tree.seq (rs.map (fun r => r.2.2))
    pure (returnValue, if c.fresh.isSome then c.argument else after)
  | .map kvs => do
    let rs ← parseEntries
      (fun k o => recur (some k) o struct (tree ++ "." ++ k))
      (entries (.map kvs))
    let returnValue := Tree.map (rs.foldl (fun acc r => assignProp acc r.1 r.2.1) [])
    let after := Tree.map (rs.map (fun r => (r.1, r.2.2)))
    pure (returnValue, if c.fresh.isSome then c.argument else after)
  | leaf => pure (leaf, c.argument)

/-- The recursion of `parse`, bounded by fuel: `parseStep` calling itself. -/
def parseFuel : Nat → Option String → Tree → Structure → String →
    Except Error (Tree × Tree)
  | 0, _, _, _, _ => throw Error.outOfFuel
  | fuel + 1, key, scoreObject, struct, tree =>
    parseStep (parseFuel fuel) key scoreObject struct tree

/-- Source function `parse(key, scoreObject, structure, tree)`: the recursion descends
into the entries of the current node, so fuel one above the height of the tree is
enough. -/
def parse (key : Option String) (scoreObject : Tree) (struct : Structure)
    (tree : String) : Except Error (Tree × Tree) :=
  parseFuel (scoreObject.height + 1) key scoreObject struct tree

/-- The call `parse(key, o, structure, tree + '.' + key)` of line 161 that the top-level
call `parse(null, structuredScore, structure, '')` makes for entry `i` of the score. -/
def parseSection (i : Nat) (o : Tree) (struct : Structure) :
    Except Error (Tree × Tree) :=
  parse (some (natToString i)) o struct ("" ++ "." ++ natToString i)

/-! ## Paths into a tree, predicates on keys -/

/-- One step down a tree: into the property `k` of a mapping, or into the element of
index `i` of a sequence. -/
inductive Step where
  | key (k : String)
  | idx (i : Nat)

/-- The child of a tree one step down, if there is one. -/
def Tree.child : Tree → Step → Option Tree
  | .map kvs, .key k => kvs.lookup k
  | .seq xs, .idx i => xs[i]?
  | _, _ => none

/-- The subtree at the end of a path, if the path exists in the tree. -/
def Tree.at? : Tree → List Step → Option Tree
  | t, [] => some t
  | t, s :: p =>
    match t.child s with
    | none => none
    | some c => c.at? p

mutual
/-- Whether every key of every mapping of the tree satisfies `p`. -/
def Tree.allKeys (p : String → Bool) : Tree → Bool
  | .num _ => true
  | .str _ => true
  | .seq xs => allKeysElems p xs
  | .map kvs => allKeysProps p kvs
/-- The elements of a sequence all satisfy `allKeys p`. -/
def allKeysElems (p : String → Bool) : List Tree → Bool
  | [] => true
  | x :: xs => x.allKeys p && allKeysElems p xs
/-- The keys satisfy `p` and the values `allKeys p`. -/
def allKeysProps (p : String → Bool) : List (String × Tree) → Bool
  | [] => true
  | (k, v) :: kvs => p k && v.allKeys p && allKeysProps p kvs
end

mutual
/-- Whether the keys of every mapping of the tree are pairwise distinct, as the keys
of an object are. -/
def Tree.distinctKeys : Tree → Bool
  | .num _ => true
  | .str _ => true
  | .seq xs => distinctKeysElems xs
  | .map kvs => distinctKeysProps kvs
/-- The elements of a sequence all have distinct keys. -/
def distinctKeysElems : List Tree → Bool
  | [] => true
  | x :: xs => x.distinctKeys && distinctKeysElems xs
/-- No key occurs twice, and the values have distinct keys. -/
def distinctKeysProps : List (String × Tree) → Bool
  | [] => true
  | (k, v) :: kvs => !hasOwn kvs k && v.distinctKeys && distinctKeysProps kvs
end

/-- The path `tree`, extended by any keys, names a section whose template entry is
`mods`: every lookup made below `tree` yields `mods`. -/
def Covered (struct : Structure) (mods : Mods) (tree : String) : Prop :=
  ∀ keys : List String,
    lookupMods struct (keys.foldl (fun t k => t ++ "." ++ k) tree) = Except.ok mods

/-- The key with which `parse` is called on the subtree at the end of a path. -/
def endKey : Option String → List Step → Option String
  | key, [] => key
  | _, .key k :: p => endKey (some k) p
  | _, .idx i :: p => endKey (some (natToString i)) p

/-- The `tree` argument with which `parse` is called on the subtree at the end of a path. -/
def endTree : String → List Step → String
  | tree, [] => tree
  | tree, .key k :: p => endTree (tree ++ "." ++ k) p
  | tree, .idx i :: p => endTree (tree ++ "." ++ natToString i) p

/-! ## `getStructuredScore` (lines 94-101) -/

/-- The loop of the top-level call `parse(null, structuredScore, structure, '')` over the
entries of the structured score, from position `j` on. An entry is `undefined` (`none`),
which `parse` returns as it is, or a reference to a section object of `scoreObject`; the
section objects are held in `heap`, and what the call for one position leaves in a section
is what the call for a later position on the same section finds. -/
def parseRefs (struct : Structure) :
    Nat → List (Option Nat) → List Tree → Except Error (List (Option Tree) × List Tree)
  | _, [], heap => pure ([], heap)
  | j, ref :: rest, heap =>
    match ref.bind (fun r => (heap[r]?).map (fun o => (r, o))) with
    | none => do
      let (results, final) ← parseRefs struct (j + 1) rest heap
      pure (none :: results, final)
    | some (r, o) => do
      let (result, after) ← parse (some (natToString j)) o struct ("" ++ "." ++ natToString j)
      let (results, final) ← parseRefs struct (j + 1) rest (heap.set r after)
      pure (some result :: results, final)

/-- Source function `getStructuredScore(scoreObject, config, structure, outfile)` up to
line 101: `updatedScore`, together with the state of the sections of `scoreObject` after
the call. `applyStructure` pushes the section objects themselves, so the structured score
is a list of references into `scoreObject`. The writing of the output file is left out. -/
def getStructuredScore (scoreObject : List Tree) (struct : Structure) :
    Except Error (List (Option Tree) × List Tree) :=
  let labels := struct.labels
  let structuredScore := applyStructure (List.range scoreObject.length) labels
  parseRefs struct 0 structuredScore scoreObject

end ApplyStructure

/-! ## Value normalisation: `converters` (spec section 4.1)

The module `src/converters` is not among the source files; its tests are
(`examples/basics/test/test.js`, lines 11-45). -/

namespace converters

/-- A duration or pitch notation: a number or a string. -/
inductive Value where
  | num (q : Rat)
  | str (s : String)

/-- Errors of the normaliser, each naming the offending value. -/
inductive ConvertError where
  | invalidDuration (value : String)
  | invalidNoteName (value : String)

/-- A decimal digit, the `\d` of the spec's pattern. -/
def isDigit (c : Char) : Bool := 48 ≤ c.toNat && c.toNat ≤ 57

/-- A non-empty run of decimal digits, `\d+`. -/
def isDigitRun (cs : List Char) : Bool := !cs.isEmpty && cs.all isDigit

/-- The number a run of decimal digits denotes. -/
def decimalValue (cs : List Char) : Nat :=
  cs.foldl (fun n c => 10 * n + (c.toNat - 48)) 0

/-- Modelled from the spec: the pattern `^\d+/\d+$` of `valueToWholeNotes` (section 4.1),
returning numerator and denominator. -/
def matchFraction (cs : List Char) : Option (Nat × Nat) :=
  let a := cs.takeWhile isDigit
  match cs.dropWhile isDigit with
  | '/' :: b =>
    if isDigitRun a && isDigitRun b then some (decimalValue a, decimalValue b) else none
  | _ => none

/-- Modelled from the spec: the table of named durations of `valueToWholeNotes` (section
4.1), each name with the `n` of its value `1/2^n`. The spec names seven and ends the list
with an ellipsis; `more` stands for the entries it leaves out. -/
def durationTable (more : List (String × Nat)) : List (String × Nat) :=
  [("whole", 0), ("half", 1), ("quarter", 2), ("eighth", 3), ("sixteenth", 4),
    ("thirtysecond", 5), ("sixty-fourth", 6)] ++ more

/-- Modelled from the spec: `converters.valueToWholeNotes` (section 4.1), whose module is
missing from the sources. A number is returned unchanged; a string matching `^\d+/\d+$`
yields numerator divided by denominator, the division being that of the rationals; a named
duration yields its table value; anything else fails with `InvalidDurationError`. -/
def valueToWholeNotes (more : List (String × Nat)) : Value → Except ConvertError Rat
  | .num q => pure q
  | .str s =>
    match matchFraction s.data with
    | some (a, b) => pure ((a : Rat) / (b : Rat))
    | none =>
      match (durationTable more).lookup s with
      | some n => pure (1 / 2 ^ n)
      | none => throw (ConvertError.invalidDuration s)

/-- Modelled from the spec: the letter table of `valueToMidiNoteNumber` (section 4.1),
case-insensitive. The spec names the table, not its values; these are the semitones of
the natural notes above c, of which the spec's example `c4 = 60` fixes `c = 0`. -/
def baseSemitone (letter : Char) : Option Int :=
  if letter = 'c' ∨ letter = 'C' then some 0
  else if letter = 'd' ∨ letter = 'D' then some 2
  else if letter = 'e' ∨ letter = 'E' then some 4
  else if letter = 'f' ∨ letter = 'F' then some 5
  else if letter = 'g' ∨ letter = 'G' then some 7
  else if letter = 'a' ∨ letter = 'A' then some 9
  else if letter = 'b' ∨ letter = 'B' then some 11
  else none

/-- An accidental: `#` or `b`. -/
def isAccidental (c : Char) : Bool := c = '#' || c = 'b'

/-- Modelled from the spec: the octave of `valueToMidiNoteNumber` (section 4.1), a signed
integer: an optional sign and a non-empty run of decimal digits, nothing else. -/
def parseOctave : List Char → Option Int
  | [] => none
  | c :: r =>
    if c = '-' then (if isDigitRun r then some (-(decimalValue r : Int)) else none)
    else if c = '+' then (if isDigitRun r then some (decimalValue r : Int) else none)
    else if isDigitRun (c :: r) then some (decimalValue (c :: r) : Int)
    else none

/-- Modelled from the spec: `converters.valueToMidiNoteNumber` (section 4.1), whose module
is missing from the sources. A number is returned unchanged; in a string the first
character must be a letter of the table, the accidentals that follow are consumed, and
the rest must be a signed integer octave; the result is
`letterBase + (+1 per #, -1 per b) + (octave + 1) * 12`. Anything else fails with
`InvalidNoteNameError`. -/
def valueToMidiNoteNumber : Value → Except ConvertError Rat
  | .num q => pure q
  | .str s =>
    match s.data with
    | [] => throw (ConvertError.invalidNoteName s)
    | letter :: rest =>
      match baseSemitone letter with
      | none => throw (ConvertError.invalidNoteName s)
      | some base =>
        let accidentals := rest.takeWhile isAccidental
        match parseOctave (rest.dropWhile isAccidental) with
        | none => throw (ConvertError.invalidNoteName s)
        | some octave =>
          pure (((base + (accidentals.count '#' : Int) - (accidentals.count 'b' : Int)
            + (octave + 1) * 12 : Int) : Rat))

end converters

/-! ## Message compilation: `fluidOsc` (spec section 4.4)

The module `src/fluidOsc` is not among the source files; its tests are
(`examples/basics/test/test.js`, lines 47-139), and they fix the addresses. -/

namespace fluid

/-- A typed argument of a message: `{ type, value }`. -/
inductive Arg where
  | string (value : String)
  | integer (value : Int)
  | float (value : Rat)

/-- A message: an address and its ordered arguments. -/
structure Message where
  address : String
  args : List Arg

/-- A note of the data model: pitch `n`, start `s` and length `l` in whole notes, and an
optional velocity `v`. -/
structure Note where
  n : Int
  s : Rat
  l : Rat
  v : Option Int

/-- A note as it is handed in: any field may be missing. -/
structure RawNote where
  n : Option Int
  s : Option Rat
  l : Option Rat
  v : Option Int

/-- A note of the data model as it is handed in. -/
def Note.raw (note : Note) : RawNote := ⟨some note.n, some note.s, some note.l, note.v⟩

/-- The error of the compiler: a malformed note, with its position in the input list. -/
inductive CompileError where
  | malformedNote (position : Nat)

/-- Modelled from the spec: `fluid.audiotrack.select`, the `selectTrack` of section 4.4,
whose module is missing from the sources: one message, args `[string name]`. -/
def audiotrack.select (name : String) : Message :=
  ⟨"/audiotrack/select", [Arg.string name]⟩

/-- Modelled from the spec: `fluid.midiclip.select`, the `selectClip` of section 4.4,
whose module is missing from the sources: args `[string name, float start, float end]`. -/
def midiclip.select (name : String) (startBeats endBeats : Rat) : Message :=
  ⟨"/midiclip/select", [Arg.string name, Arg.float startBeats, Arg.float endBeats]⟩

/-- Modelled from the spec: `fluid.midiclip.clear`, the `clearClip` of section 4.4, whose
module is missing from the sources: one message, no args. -/
def midiclip.clear : Message := ⟨"/midiclip/clear", []⟩

/-- Modelled from the spec: `fluid.midiclip.note`, the `addNote` of section 4.4, whose
module is missing from the sources: args `[integer pitch, float start * 4,
float length * 4]`, followed by `integer velocity` only if a velocity was supplied. -/
def midiclip.note (pitch : Int) (startWhole lengthWhole : Rat) (velocity : Option Int) :
    Message :=
  ⟨"/midiclip/n",
    [Arg.integer pitch, Arg.float (startWhole * 4), Arg.float (lengthWhole * 4)] ++
      (match velocity with
       | some v => [Arg.integer v]
       | none => [])⟩

/-- Modelled from the spec: the notes of `createClip` (section 4.4), compiled in the order
given, from position `position` on; a note without pitch, start or length fails with
`MalformedNoteError` and nothing is emitted. -/
def noteMessages : Nat → List RawNote → Except CompileError (List Message)
  | _, [] => pure []
  | position, note :: rest =>
    match note.n, note.s, note.l with
    | some n, some s, some l => do
      let messages ← noteMessages (position + 1) rest
      pure (midiclip.note n s l note.v :: messages)
    | _, _, _ => throw (CompileError.malformedNote position)

/-- Modelled from the spec: `fluid.midiclip.create`, the `createClip` of section 4.4,
whose module is missing from the sources: the batch
`[selectTrack, selectClip, clearClip, addNote(note_1), ..., addNote(note_n)]`. -/
def midiclip.create (trackName clipName : String) (startBeats endBeats : Rat)
    (notes : List RawNote) : Except CompileError (List Message) := do
  let messages ← noteMessages 0 notes
  pure (audiotrack.select trackName :: midiclip.select clipName startBeats endBeats ::
    midiclip.clear :: messages)

end fluid

namespace ApplyStructure

/-! # Lemmas and theorems

Every definition of the embedding stands above this line. -/

/-! ## Properties of `applyStructure` -/

theorem applyStructureLoop_length {α : Type} (scoreObject : List α) :
    ∀ (labels : List Label) (newScore : List (Option α)) (offset : Int),
      (applyStructureLoop scoreObject labels newScore offset).length
        = newScore.length + labels.length := by
  intro labels
  induction labels with
  | nil => intro newScore offset; simp [applyStructureLoop]
  | cons label rest ih =>
    intro newScore offset
    unfold applyStructureLoop
    split
    · rw [ih]; simp; omega
    · split
      · rw [ih]; simp; omega
      · rw [ih]; simp; omega

theorem applyStructureLoop_keeps {α : Type} (scoreObject : List α) :
    ∀ (labels : List Label) (newScore : List (Option α)) (offset : Int) (j : Nat),
      j < newScore.length →
      (applyStructureLoop scoreObject labels newScore offset)[j]? = newScore[j]? := by
  intro labels
  induction labels with
  | nil => intro newScore offset j _; simp [applyStructureLoop]
  | cons label rest ih =>
    intro newScore offset j hj
    have hj2 : ∀ e : Option α, j < (newScore ++ [e]).length := by
      intro e; simp; omega
    unfold applyStructureLoop
    split
    · rw [ih _ _ _ (hj2 _), List.getElem?_append_left hj]
    · split
      · rw [ih _ _ _ (hj2 _), List.getElem?_append_left hj]
      · rw [ih _ _ _ (hj2 _), List.getElem?_append_left hj]

theorem applyStructureLoop_getElem {α : Type} (scoreObject : List α) :
    ∀ (labels : List Label) (newScore : List (Option α)) (offset : Int) (i : Nat)
      (label : Label), labels[i]? = some label →
      (applyStructureLoop scoreObject labels newScore offset)[newScore.length + i]?
        = some (pushed scoreObject label (offset + (introsBefore labels i : Nat))) := by
  intro labels
  induction labels with
  | nil => intro newScore offset i label h; simp at h
  | cons l rest ih =>
    intro newScore offset i label h
    cases i with
    | zero =>
      simp at h
      subst h
      have hlen : ∀ e : Option α, newScore.length < (newScore ++ [e]).length := by
        intro e; simp
      unfold applyStructureLoop
      simp only [introsBefore, List.take_zero, List.count_nil, Nat.cast_zero, add_zero,
        pushed]
      split
      · rw [applyStructureLoop_keeps _ _ _ _ _ (hlen _)]; simp
      · split
        · rw [applyStructureLoop_keeps _ _ _ _ _ (hlen _)]; simp
        · rw [applyStructureLoop_keeps _ _ _ _ _ (hlen _)]; simp
    | succ j =>
      simp at h
      have hidx : ∀ e : Option α, newScore.length + (j + 1) = (newScore ++ [e]).length + j := by
        intro e; simp; omega
      unfold applyStructureLoop
      by_cases h1 : l = Label.str "unique_intro"
      · rw [if_pos h1, hidx, ih _ _ _ _ h]
        simp [introsBefore, List.take_succ_cons, List.count_cons, h1]
        congr 1; omega
      · rw [if_neg h1]
        have hc : introsBefore (l :: rest) (j + 1) = introsBefore rest j := by
          simp [introsBefore, List.take_succ_cons, List.count_cons]
          intro h2; exact absurd h2 h1
        split
        · rw [hidx, ih _ _ _ _ h, hc]
        · rw [hidx, ih _ _ _ _ h, hc]

theorem applyStructure_getElem {α : Type} (scoreObject : List α) (labels : List Label)
    (i : Nat) (label : Label) (h : labels[i]? = some label) :
    (applyStructure scoreObject labels)[i]?
      = some (pushed scoreObject label (introsBefore labels i)) := by
  have := applyStructureLoop_getElem scoreObject labels [] 0 i label h
  simpa [applyStructure] using this

theorem getIndex_natCast {α : Type} (xs : List α) (n : Nat) :
    getIndex xs (n : Int) = xs[n]? := by
  unfold getIndex
  have h : ¬ ((n : Int) < 0) := by omega
  rw [if_neg h]
  simp

theorem getIndex_eq_none {α : Type} (xs : List α) (i : Int)
    (h : i < 0 ∨ (xs.length : Int) ≤ i) : getIndex xs i = none := by
  unfold getIndex
  split
  · rfl
  · rename_i hneg
    rw [List.getElem?_eq_none]
    omega

/-- C1: element `i` of `applyStructure(sections, labels)` is `sections[0]` for the label
`'unique_intro'`, `sections[sections.length - 1]` for `'unique_outro'`, and otherwise
`sections[L + k]`, where `L` is the integer value of the label and `k` the number of
`'unique_intro'` labels strictly before position `i` (whenever that selection is in range);
in particular the labels `['unique_intro', '0', '1', 'unique_outro']` select the four
elements of a four-element array in order. -/
theorem applyStructure_selects {α : Type} (sections : List α) (labels : List Label)
    (i : Nat) (hi : i < labels.length) :
    (labels[i] = Label.str "unique_intro" → ∀ x : α, sections[0]? = some x →
        (applyStructure sections labels)[i]? = some (some x)) ∧
    (labels[i] = Label.str "unique_outro" → ∀ x : α,
        sections[sections.length - 1]? = some x →
        (applyStructure sections labels)[i]? = some (some x)) ∧
    (labels[i] ≠ Label.str "unique_intro" → labels[i] ≠ Label.str "unique_outro" →
        ∀ (L : Int) (x : α), labels[i].parseInt = some L →
        0 ≤ L + (introsBefore labels i : Nat) →
        sections[(L + (introsBefore labels i : Nat)).toNat]? = some x →
        (applyStructure sections labels)[i]? = some (some x)) ∧
    (∀ a b c d : α,
        applyStructure [a, b, c, d]
          [Label.str "unique_intro", Label.str "0", Label.str "1", Label.str "unique_outro"]
          = [some a, some b, some c, some d]) := by
  have hget : labels[i]? = some labels[i] := List.getElem?_eq_getElem hi
  have key := applyStructure_getElem sections labels i labels[i] hget
  refine ⟨?_, ?_, ?_, ?_⟩
  · intro hl x hx
    rw [key, pushed, if_pos hl]
    have := getIndex_natCast sections 0
    simp only [Nat.cast_zero] at this
    rw [this, hx]
  · intro hl x hx
    have hne : labels[i] ≠ Label.str "unique_intro" := by rw [hl]; decide
    rw [key, pushed, if_neg hne, if_pos hl]
    have hpos : 0 < sections.length := by
      rcases Nat.eq_zero_or_pos sections.length with h0 | h0
      · rw [List.length_eq_zero] at h0
        subst h0
        simp at hx
      · exact h0
    have hcast : ((sections.length : Int) - 1) = ((sections.length - 1 : Nat) : Int) := by
      omega
    rw [hcast, getIndex_natCast, hx]
  · intro h1 h2 L x hL h0 hx
    rw [key, pushed, if_neg h1, if_neg h2, hL]
    simp only [Option.bind]
    have hcast : L + (introsBefore labels i : Nat)
        = (((L + (introsBefore labels i : Nat)).toNat : Nat) : Int) := by
      omega
    rw [hcast, getIndex_natCast, hx]
  · intro a b c d
    rfl

/-- Witness for C1: with labels `['unique_intro', '0', '1', 'unique_outro']` on four
sections, position 2 (label `'1'`, one intro before it) selects `sections[2]`. -/
theorem applyStructure_selects_witness :
    (applyStructure [Tree.num 10, Tree.num 11, Tree.num 12, Tree.num 13]
      [Label.str "unique_intro", Label.str "0", Label.str "1",
        Label.str "unique_outro"])[2]? = some (some (Tree.num 12)) :=
  (applyStructure_selects [Tree.num 10, Tree.num 11, Tree.num 12, Tree.num 13]
    [Label.str "unique_intro", Label.str "0", Label.str "1", Label.str "unique_outro"]
    2 (by decide)).2.2.1 (by decide) (by decide) 1 (Tree.num 12) (by decide) (by decide)
    (by rfl)

/-- C8: the list returned by `applyStructure` has exactly `labels.length` elements, for
every sections array (the empty one included) and every labels list. -/
theorem applyStructure_length {α : Type} (sections : List α) (labels : List Label) :
    (applyStructure sections labels).length = labels.length := by
  unfold applyStructure
  rw [applyStructureLoop_length]
  simp

/-- C9, as stated, fails: with one section, the labels `['unique_intro', '0']` select
index `0 + 1`, past the end, and `applyStructure` returns a list whose second element is
`undefined`, it raises no error. -/
theorem applyStructure_out_of_range_returns :
    applyStructure [Tree.num 60] [Label.str "unique_intro", Label.str "0"]
      = [some (Tree.num 60), none] := by
  rfl

/-- C9, amended: when the label at position `i` selects an index outside
`0 .. sections.length - 1` (the integer `parseInt` reads from the label plus the intro
offset, or an intro or outro label on an empty array), `applyStructure` still returns a
list of `labels.length` elements, and its element `i` is `undefined`. -/
theorem applyStructure_out_of_range {α : Type} (sections : List α) (labels : List Label)
    (i : Nat) (hi : i < labels.length)
    (hout : (labels[i] = Label.str "unique_intro" ∧ sections = []) ∨
      (labels[i] = Label.str "unique_outro" ∧ sections = []) ∨
      (labels[i] ≠ Label.str "unique_intro" ∧ labels[i] ≠ Label.str "unique_outro" ∧
        ∃ L : Int, labels[i].parseInt = some L ∧
          (L + (introsBefore labels i : Nat) < 0 ∨
            (sections.length : Int) ≤ L + (introsBefore labels i : Nat)))) :
    (applyStructure sections labels).length = labels.length ∧
    (applyStructure sections labels)[i]? = some none := by
  have hget : labels[i]? = some labels[i] := List.getElem?_eq_getElem hi
  have key := applyStructure_getElem sections labels i labels[i] hget
  refine ⟨?_, ?_⟩
  · unfold applyStructure
    rw [applyStructureLoop_length]
    simp
  · rw [key]
    rcases hout with ⟨hl, hs⟩ | ⟨hl, hs⟩ | ⟨h1, h2, L, hL, hr⟩
    · rw [pushed, if_pos hl]
      subst hs
      rfl
    · have hne : labels[i] ≠ Label.str "unique_intro" := by rw [hl]; decide
      rw [pushed, if_neg hne, if_pos hl]
      subst hs
      rfl
    · rw [pushed, if_neg h1, if_neg h2, hL]
      simp only [Option.bind]
      rw [getIndex_eq_none _ _ hr]

/-- Witness for the amended C9: one section, labels `['unique_intro', '0']`, position 1. -/
theorem applyStructure_out_of_range_witness :
    (applyStructure [Tree.num 60] [Label.str "unique_intro", Label.str "0"]).length = 2 ∧
    (applyStructure [Tree.num 60] [Label.str "unique_intro", Label.str "0"])[1]?
      = some none :=
  applyStructure_out_of_range [Tree.num 60] [Label.str "unique_intro", Label.str "0"] 1
    (by decide)
    (Or.inr (Or.inr ⟨by decide, by decide, 0, by decide, Or.inr (by decide)⟩))

/-! ## Strings: `includes`, `split`, decimal indices -/

theorem includesChars_iff (pat : List Char) :
    ∀ s : List Char, includesChars pat s = true ↔ pat <:+: s := by
  intro s
  induction s with
  | nil => simp [includesChars]
  | cons c cs ih =>
    rw [includesChars, Bool.or_eq_true, ih, List.infix_cons_iff, List.isPrefixOf_iff_prefix]

theorem includes_iff (s pat : String) : includes s pat = true ↔ pat.data <:+: s.data :=
  includesChars_iff pat.data s.data

theorem infix_sep {pat a b : List Char} {c : Char} (hc : c ∉ pat)
    (h : pat <:+: a ++ c :: b) : pat <:+: a ∨ pat <:+: b := by
  induction a with
  | nil =>
    rw [List.nil_append, List.infix_cons_iff] at h
    rcases h with h | h
    · rw [List.prefix_cons_iff] at h
      rcases h with h | ⟨t, ht, _⟩
      · left; subst h; exact List.nil_infix
      · exact absurd (by rw [ht]; exact List.mem_cons_self _ _) hc
    · right; exact h
  | cons x a ih =>
    rw [List.cons_append, List.infix_cons_iff] at h
    rcases h with h | h
    · have hxa : (x :: a) <+: x :: (a ++ c :: b) := by
        rw [← List.cons_append]; exact List.prefix_append _ _
      rcases List.prefix_or_prefix_of_prefix h hxa with h2 | h2
      · left; exact h2.isInfix
      · obtain ⟨r, hr⟩ := h2
        obtain ⟨u, hu⟩ := h
        rw [← hr, List.append_assoc, ← List.cons_append] at hu
        have hu2 := List.append_cancel_left hu
        cases r with
        | nil =>
          left
          rw [List.append_nil] at hr
          rw [← hr]
        | cons y r =>
          rw [List.cons_append] at hu2
          injection hu2 with hy _
          exact absurd (by rw [← hr, hy]; simp) hc
    · rcases ih h with h2 | h2
      · left; exact List.infix_cons h2
      · right; exact h2

/-- A path that does not include `nLibrary`, extended by a key that does not include it,
still does not include it. -/
theorem includes_extend_false {tree key : String}
    (ht : includes tree "nLibrary" = false) (hk : includes key "nLibrary" = false) :
    includes (tree ++ "." ++ key) "nLibrary" = false := by
  have ht2 : ¬ ("nLibrary" : String).data <:+: tree.data := by
    intro h; rw [← includes_iff, ht] at h; exact Bool.noConfusion h
  have hk2 : ¬ ("nLibrary" : String).data <:+: key.data := by
    intro h; rw [← includes_iff, hk] at h; exact Bool.noConfusion h
  rw [Bool.eq_false_iff]
  intro h
  rw [includes_iff] at h
  have hd : (tree ++ "." ++ key).data = tree.data ++ '.' :: key.data := by
    simp [String.data_append]
  rw [hd] at h
  have hc : '.' ∉ ("nLibrary" : String).data := by decide
  rcases infix_sep hc h with h2 | h2
  · exact ht2 h2
  · exact hk2 h2

/-- Once a path includes `nLibrary`, every extension of it does. -/
theorem includes_extend_true {tree : String} (suffix : String)
    (ht : includes tree "nLibrary" = true) :
    includes (tree ++ suffix) "nLibrary" = true := by
  rw [includes_iff] at ht ⊢
  rw [String.data_append]
  obtain ⟨a, b, hab⟩ := ht
  exact ⟨a, b ++ suffix.data, by rw [← hab]; simp⟩

theorem digitChar_toNat {d : Nat} (h : d < 10) : (digitChar d).toNat = 48 + d := by
  interval_cases d <;> rfl

theorem natDigits_digit : ∀ (fuel n : Nat) (c : Char), c ∈ natDigits fuel n →
    ∃ d, d < 10 ∧ c = digitChar d := by
  intro fuel
  induction fuel with
  | zero =>
    intro n c hc
    simp only [natDigits, List.mem_singleton] at hc
    exact ⟨n % 10, Nat.mod_lt _ (by decide), hc⟩
  | succ f ih =>
    intro n c hc
    unfold natDigits at hc
    split at hc
    · rename_i hlt
      simp only [List.mem_singleton] at hc
      exact ⟨n, hlt, hc⟩
    · rw [List.mem_append] at hc
      rcases hc with hc | hc
      · exact ih _ _ hc
      · simp only [List.mem_singleton] at hc
        exact ⟨n % 10, Nat.mod_lt _ (by decide), hc⟩

theorem natDigits_ne_nil : ∀ (fuel n : Nat), natDigits fuel n ≠ [] := by
  intro fuel n
  cases fuel with
  | zero => simp [natDigits]
  | succ f =>
    unfold natDigits
    split <;> simp

theorem digitChar_not_mem {d : Nat} (h : d < 10) (pat : List Char)
    (hp : ∀ e, e < 10 → digitChar e ∉ pat) : digitChar d ∉ pat := hp d h

theorem natToString_not_mem (i : Nat) (c : Char)
    (hc : ∀ e, e < 10 → c ≠ digitChar e) : c ∉ (natToString i).data := by
  intro h
  obtain ⟨d, hd, he⟩ := natDigits_digit i i c h
  exact hc d hd he

theorem natToString_includes (i : Nat) : includes (natToString i) "nLibrary" = false := by
  rw [Bool.eq_false_iff]
  intro h
  rw [includes_iff] at h
  have hn : 'n' ∈ (natToString i).data := h.subset (by decide)
  refine natToString_not_mem i 'n' ?_ hn
  intro e he
  interval_cases e <;> decide

theorem natToString_ne (i : Nat) (s : String) (c : Char) (hc : c ∈ s.data)
    (hd : ∀ e, e < 10 → c ≠ digitChar e) : natToString i ≠ s := by
  intro h
  rw [← h] at hc
  exact natToString_not_mem i c hd hc

theorem natToString_ne_drums (i : Nat) : natToString i ≠ "drums" :=
  natToString_ne i "drums" 'd' (by decide) (by intro e he; interval_cases e <;> decide)

theorem natToString_ne_nLibrary (i : Nat) : natToString i ≠ "nLibrary" :=
  natToString_ne i "nLibrary" 'n' (by decide) (by intro e he; interval_cases e <;> decide)

theorem digitValue_digitChar {d : Nat} (h : d < 10) :
    digitValue 10 (digitChar d) = some d := by
  interval_cases d <;> rfl

theorem parseDigits_natDigits : ∀ (fuel n : Nat), n ≤ fuel →
    ∀ (rest : List Char) (acc : Option Nat),
      parseDigits 10 (natDigits fuel n ++ rest) acc
        = parseDigits 10 rest
            (some (acc.getD 0 * 10 ^ (natDigits fuel n).length + n)) := by
  intro fuel
  induction fuel with
  | zero =>
    intro n hn rest acc
    have h0 : n = 0 := by omega
    subst h0
    simp [natDigits, parseDigits, digitValue_digitChar]
  | succ f ih =>
    intro n hn rest acc
    unfold natDigits
    split
    · rename_i hlt
      simp [parseDigits, digitValue_digitChar hlt]
    · rename_i hge
      have hdiv : n / 10 ≤ f := by omega
      rw [List.append_assoc, ih _ hdiv]
      have hmod : n % 10 < 10 := Nat.mod_lt _ (by decide)
      simp only [List.singleton_append, parseDigits, digitValue_digitChar hmod,
        Option.getD_some, List.length_append, List.length_singleton]
      congr 2
      have hn2 : 10 * (n / 10) + n % 10 = n := Nat.div_add_mod n 10
      rw [pow_succ]
      generalize acc.getD 0 = a
      generalize 10 ^ (natDigits f (n / 10)).length = b
      have hr : (a * b + n / 10) * 10 + n % 10
          = a * (b * 10) + (10 * (n / 10) + n % 10) := by ring
      rw [hr, hn2]

theorem parseInt_natToString (i : Nat) : parseInt (natToString i) = some (i : Int) := by
  have hne := natDigits_ne_nil i i
  have hdig := natDigits_digit i i
  have hval := parseDigits_natDigits i i (le_refl _) [] none
  unfold parseInt natToString
  simp only
  generalize natDigits i i = ds at hne hdig hval
  cases ds with
  | nil => exact absurd rfl hne
  | cons c cs =>
    obtain ⟨d, hd, hcd⟩ := hdig c (List.mem_cons_self _ _)
    have hws : isStrWhiteSpaceChar c = false := by
      rw [hcd]; interval_cases d <;> rfl
    have hdrop : List.dropWhile isStrWhiteSpaceChar (c :: cs) = c :: cs := by
      rw [List.dropWhile_cons, hws]; rfl
    have hsign : stripSign (c :: cs) = (1, c :: cs) := by
      rw [hcd]
      interval_cases d <;> rfl
    have hhex : stripHexPrefix (c :: cs) = (10, c :: cs) := by
      cases cs with
      | nil => rw [hcd]; interval_cases d <;> rfl
      | cons c2 cs2 =>
        obtain ⟨d2, hd2, hcd2⟩ := hdig c2 (by simp)
        rw [hcd, hcd2]
        interval_cases d <;> interval_cases d2 <;> rfl
    rw [hdrop, hsign]
    simp only
    rw [hhex]
    simp only
    rw [List.append_nil] at hval
    rw [hval]
    simp [parseDigits]

theorem splitDotChars_head : ∀ (ds suffix : List Char), (∀ c ∈ ds, c ≠ '.') →
    (suffix = [] ∨ ∃ t, suffix = '.' :: t) →
    ∃ rest, splitDotChars (ds ++ suffix) = ds :: rest := by
  intro ds
  induction ds with
  | nil =>
    intro suffix _ hs
    rcases hs with hs | ⟨t, hs⟩
    · subst hs; exact ⟨[], rfl⟩
    · subst hs; exact ⟨splitDotChars t, by simp [splitDotChars]⟩
  | cons c ds ih =>
    intro suffix hd hs
    have hc : c ≠ '.' := hd c (List.mem_cons_self _ _)
    obtain ⟨rest, hr⟩ := ih suffix (fun x hx => hd x (List.mem_cons_of_mem _ hx)) hs
    refine ⟨rest, ?_⟩
    rw [List.cons_append, splitDotChars, if_neg hc, hr]

/-- The path of section `i`, extended by any keys, still names section `i`:
`tree.split('.')[1]` is the decimal form of `i`. -/
theorem splitDot_section (i : Nat) (suffix : String)
    (hs : suffix.data = [] ∨ ∃ t, suffix.data = '.' :: t) :
    (splitDot ("" ++ "." ++ natToString i ++ suffix))[1]? = some (natToString i) := by
  have hdot : ∀ c ∈ (natToString i).data, c ≠ '.' := by
    intro c hc hcd
    subst hcd
    refine natToString_not_mem i '.' ?_ hc
    intro e he
    interval_cases e <;> decide
  obtain ⟨rest, hr⟩ := splitDotChars_head (natToString i).data suffix.data hdot hs
  have hd : ("" ++ "." ++ natToString i ++ suffix).data
      = '.' :: ((natToString i).data ++ suffix.data) := by
    simp [String.data_append]
  unfold splitDot
  rw [hd, splitDotChars, if_pos rfl, hr]
  simp

/-! ## Heights, fuel -/

theorem height_le_heightElems {x : Tree} : ∀ {xs : List Tree}, x ∈ xs →
    x.height ≤ heightElems xs := by
  intro xs
  induction xs with
  | nil => intro h; simp at h
  | cons y ys ih =>
    intro h
    rw [heightElems]
    rcases List.mem_cons.1 h with h | h
    · subst h; exact le_max_left _ _
    · exact le_trans (ih h) (le_max_right _ _)

theorem height_le_heightProps {e : String × Tree} : ∀ {kvs : List (String × Tree)},
    e ∈ kvs → e.2.height ≤ heightProps kvs := by
  intro kvs
  induction kvs with
  | nil => intro h; simp at h
  | cons y ys ih =>
    intro h
    obtain ⟨k, v⟩ := y
    rw [heightProps]
    rcases List.mem_cons.1 h with h | h
    · subst h; exact le_max_left _ _
    · exact le_trans (ih h) (le_max_right _ _)

theorem indexFrom_mem {e : String × Tree} : ∀ {xs : List Tree} {i : Nat},
    e ∈ indexFrom i xs → e.2 ∈ xs := by
  intro xs
  induction xs with
  | nil => intro i h; simp [indexFrom] at h
  | cons y ys ih =>
    intro i h
    rw [indexFrom] at h
    rcases List.mem_cons.1 h with h | h
    · subst h; exact List.mem_cons_self _ _
    · exact List.mem_cons_of_mem _ (ih h)

theorem heightElems_replaceIndex {v : Tree} (hv : v.height = 0) :
    ∀ (xs : List Tree) (i : Nat) (key : String),
      heightElems (replaceIndex xs i key v) ≤ heightElems xs := by
  intro xs
  induction xs with
  | nil => intro i key; simp [replaceIndex]
  | cons y ys ih =>
    intro i key
    rw [replaceIndex]
    split
    · simp only [heightElems, hv]; omega
    · have := ih (i + 1) key
      simp only [heightElems]; omega

theorem heightProps_replaceOwn {v : Tree} (hv : v.height = 0) :
    ∀ (kvs : List (String × Tree)) (key : String),
      heightProps (replaceOwn kvs key v) ≤ heightProps kvs := by
  intro kvs
  induction kvs with
  | nil => intro key; simp [replaceOwn]
  | cons y ys ih =>
    intro key
    obtain ⟨k, x⟩ := y
    rw [replaceOwn]
    split
    · simp only [heightProps, hv]; omega
    · have := ih key
      simp only [heightProps]; omega

theorem assignOwn_height {v : Tree} (hv : v.height = 0) (o : Tree) (key : String) :
    (assignOwn o key v).height ≤ o.height := by
  cases o with
  | num n => simp [assignOwn]
  | str s => simp [assignOwn]
  | seq xs =>
    have := heightElems_replaceIndex hv xs 0 key
    simp only [assignOwn, Tree.height]; omega
  | map kvs =>
    have := heightProps_replaceOwn hv kvs key
    simp only [assignOwn, Tree.height]; omega

theorem add_height {val : Tree} {diff : Int} {sum : Tree}
    (h : add val diff = Except.ok sum) : sum.height = 0 := by
  cases val with
  | num n =>
    simp only [add, pure, Except.pure, Except.ok.injEq] at h
    subst h; rfl
  | str s =>
    simp only [add, jsToString, pure, Except.pure, bind, Except.bind, Except.ok.injEq] at h
    subst h; rfl
  | seq xs =>
    simp only [add, bind, Except.bind] at h
    split at h
    · exact Except.noConfusion h
    · simp only [pure, Except.pure, Except.ok.injEq] at h
      subst h; rfl
  | map kvs =>
    simp only [add, bind, Except.bind] at h
    split at h
    · exact Except.noConfusion h
    · simp only [pure, Except.pure, Except.ok.injEq] at h
      subst h; rfl

theorem transposeLoop_height (diff : Int) : ∀ (es : List (String × Tree)) (o o2 : Tree),
    transposeLoop diff es o = Except.ok o2 → o2.height ≤ o.height := by
  intro es
  induction es with
  | nil =>
    intro o o2 h
    simp only [transposeLoop, pure, Except.pure, Except.ok.injEq] at h
    subst h; exact le_refl _
  | cons e es ih =>
    intro o o2 h
    obtain ⟨key, val⟩ := e
    simp only [transposeLoop, bind, Except.bind] at h
    cases hn : isNaN val with
    | error err => rw [hn] at h; exact Except.noConfusion h
    | ok b =>
      rw [hn] at h
      cases b with
      | true => exact ih _ _ h
      | false =>
        simp only [Bool.not_false, if_true] at h
        cases hs : add val diff with
        | error err => rw [hs] at h; exact Except.noConfusion h
        | ok sum =>
          rw [hs] at h
          exact le_trans (ih _ _ h) (assignOwn_height (add_height hs) o key)

/-- The value `applyChanges` returns is no higher than its argument, or it is the new
empty mapping. -/
theorem applyChanges_returned {tree : String} {key : Option String} {o : Tree}
    {struct : Structure} {c : Changed} (h : applyChanges tree key o struct = Except.ok c) :
    c.returned.height ≤ o.height ∨ c.returned = Tree.map [] := by
  unfold applyChanges at h
  split at h
  · simp only [bind, Except.bind] at h
    split at h
    · exact Except.noConfusion h
    · split at h
      · exact Except.noConfusion h
      · rename_i mutated hm
        simp only [pure, Except.pure, Except.ok.injEq] at h
        subst h
        left
        exact transposeLoop_height _ _ _ _ hm
  · split at h
    · simp only [bind, Except.bind] at h
      split at h
      · exact Except.noConfusion h
      · split at h
        · simp only [pure, Except.pure, Except.ok.injEq] at h
          subst h; right; rfl
        · simp only [pure, Except.pure, Except.ok.injEq] at h
          subst h; left; exact le_refl _
    · simp only [pure, Except.pure, Except.ok.injEq] at h
      subst h; left; exact le_refl _

theorem parseEntries_congr {f g : String → Tree → Except Error (Tree × Tree)} :
    ∀ (es : List (String × Tree)), (∀ e ∈ es, f e.1 e.2 = g e.1 e.2) →
      parseEntries f es = parseEntries g es := by
  intro es
  induction es with
  | nil => intro _; rfl
  | cons e es ih =>
    intro h
    obtain ⟨k, v⟩ := e
    have h1 : f k v = g k v := h (k, v) (List.mem_cons_self _ _)
    have h2 := ih (fun e he => h e (List.mem_cons_of_mem _ he))
    simp only [parseEntries, h1, h2]

theorem parseStep_congr
    {r1 r2 : Option String → Tree → Structure → String → Except Error (Tree × Tree)}
    (key : Option String) (o : Tree) (struct : Structure) (tree : String)
    (h : ∀ (k : Option String) (c : Tree) (t : String), c.height < o.height →
      r1 k c struct t = r2 k c struct t) :
    parseStep r1 key o struct tree = parseStep r2 key o struct tree := by
  unfold parseStep
  cases hc : applyChanges tree key o struct with
  | error err => rfl
  | ok c =>
    simp only [bind, Except.bind]
    have hret := applyChanges_returned hc
    cases hr : c.returned with
    | num n => rfl
    | str s => rfl
    | seq xs =>
      simp only
      have hcong : parseEntries (fun k o => r1 (some k) o struct (tree ++ "." ++ k))
          (entries (Tree.seq xs))
          = parseEntries (fun k o => r2 (some k) o struct (tree ++ "." ++ k))
          (entries (Tree.seq xs)) := by
        apply parseEntries_congr
        intro e he
        apply h
        rw [hr] at hret
        rcases hret with hret | hret
        · have := height_le_heightElems (indexFrom_mem he)
          simp only [Tree.height] at hret
          omega
        · exact Tree.noConfusion hret
      rw [hcong]
    | map kvs =>
      simp only
      have hcong : parseEntries (fun k o => r1 (some k) o struct (tree ++ "." ++ k))
          (entries (Tree.map kvs))
          = parseEntries (fun k o => r2 (some k) o struct (tree ++ "." ++ k))
          (entries (Tree.map kvs)) := by
        apply parseEntries_congr
        intro e he
        simp only [entries] at he
        rw [hr] at hret
        rcases hret with hret | hret
        · apply h
          have := height_le_heightProps he
          simp only [Tree.height] at hret
          omega
        · injection hret with hnil
          rw [hnil] at he
          simp at he
      rw [hcong]

theorem parseFuel_succ (fuel : Nat) (key : Option String) (o : Tree) (struct : Structure)
    (tree : String) :
    parseFuel (fuel + 1) key o struct tree = parseStep (parseFuel fuel) key o struct tree :=
  rfl

/-- The result of `parseFuel` does not depend on the fuel once it exceeds the height. -/
theorem parseFuel_fuel (struct : Structure) : ∀ (f1 f2 : Nat) (key : Option String)
    (o : Tree) (tree : String), o.height < f1 → o.height < f2 →
    parseFuel f1 key o struct tree = parseFuel f2 key o struct tree := by
  intro f1
  induction f1 with
  | zero => intro f2 key o tree h; omega
  | succ n ih =>
    intro f2 key o tree h1 h2
    cases f2 with
    | zero => omega
    | succ m =>
      rw [parseFuel_succ, parseFuel_succ]
      apply parseStep_congr
      intro k c t hc
      exact ih m k c t (by omega) (by omega)

/-- The defining equation of `parse`: its body, with recursive calls to `parse`. -/
theorem parse_eq (key : Option String) (o : Tree) (struct : Structure) (tree : String) :
    parse key o struct tree = parseStep parse key o struct tree := by
  unfold parse
  rw [parseFuel_succ]
  apply parseStep_congr
  intro k c t hc
  exact parseFuel_fuel struct _ _ k c t hc (by omega)

/-! ## Keys of a tree -/

theorem allKeysElems_mem {p : String → Bool} {x : Tree} : ∀ {xs : List Tree},
    allKeysElems p xs = true → x ∈ xs → x.allKeys p = true := by
  intro xs
  induction xs with
  | nil => intro _ h; simp at h
  | cons y ys ih =>
    intro hall h
    simp only [allKeysElems, Bool.and_eq_true] at hall
    rcases List.mem_cons.1 h with h | h
    · subst h; exact hall.1
    · exact ih hall.2 h

theorem allKeysProps_mem {p : String → Bool} {e : String × Tree} :
    ∀ {kvs : List (String × Tree)}, allKeysProps p kvs = true → e ∈ kvs →
      p e.1 = true ∧ e.2.allKeys p = true := by
  intro kvs
  induction kvs with
  | nil => intro _ h; simp at h
  | cons y ys ih =>
    intro hall h
    obtain ⟨k, v⟩ := y
    simp only [allKeysProps, Bool.and_eq_true] at hall
    rcases List.mem_cons.1 h with h | h
    · subst h; exact ⟨hall.1.1, hall.1.2⟩
    · exact ih hall.2 h

theorem distinctKeysElems_mem {x : Tree} : ∀ {xs : List Tree},
    distinctKeysElems xs = true → x ∈ xs → x.distinctKeys = true := by
  intro xs
  induction xs with
  | nil => intro _ h; simp at h
  | cons y ys ih =>
    intro hall h
    simp only [distinctKeysElems, Bool.and_eq_true] at hall
    rcases List.mem_cons.1 h with h | h
    · subst h; exact hall.1
    · exact ih hall.2 h

theorem distinctKeysProps_mem {e : String × Tree} :
    ∀ {kvs : List (String × Tree)}, distinctKeysProps kvs = true → e ∈ kvs →
      e.2.distinctKeys = true := by
  intro kvs
  induction kvs with
  | nil => intro _ h; simp at h
  | cons y ys ih =>
    intro hall h
    obtain ⟨k, v⟩ := y
    simp only [distinctKeysProps, Bool.and_eq_true] at hall
    rcases List.mem_cons.1 h with h | h
    · subst h; exact hall.1.2
    · exact ih hall.2 h

theorem hasOwn_eq_false_iff {kvs : List (String × Tree)} {key : String} :
    hasOwn kvs key = false ↔ key ∉ kvs.map Prod.fst := by
  unfold hasOwn
  rw [Bool.eq_false_iff, Ne, List.any_eq_true]
  constructor
  · intro h hmem
    obtain ⟨e, he, hk⟩ := List.mem_map.1 hmem
    exact h ⟨e, he, by simp [hk]⟩
  · rintro h ⟨e, he, hk⟩
    apply h
    have : e.1 = key := by simpa using hk
    exact List.mem_map.2 ⟨e, he, this⟩

theorem distinctKeysProps_nodup : ∀ {kvs : List (String × Tree)},
    distinctKeysProps kvs = true → (kvs.map Prod.fst).Nodup := by
  intro kvs
  induction kvs with
  | nil => intro _; simp
  | cons y ys ih =>
    intro hall
    obtain ⟨k, v⟩ := y
    simp only [distinctKeysProps, Bool.and_eq_true, Bool.not_eq_true'] at hall
    rw [List.map_cons, List.nodup_cons]
    exact ⟨hasOwn_eq_false_iff.1 hall.1.1, ih hall.2⟩

theorem lookup_mem {k : String} {c : Tree} : ∀ {kvs : List (String × Tree)},
    kvs.lookup k = some c → (k, c) ∈ kvs := by
  intro kvs
  induction kvs with
  | nil => intro h; simp at h
  | cons y ys ih =>
    intro h
    obtain ⟨k2, v⟩ := y
    rw [List.lookup_cons] at h
    split at h
    · rename_i heq
      have hk : k = k2 := by simpa using heq
      injection h with hv
      subst hk; subst hv
      exact List.mem_cons_self _ _
    · exact List.mem_cons_of_mem _ (ih h)

/-! ## The loops of `parse` -/

theorem indexFrom_map_snd : ∀ (xs : List Tree) (i : Nat),
    (indexFrom i xs).map Prod.snd = xs := by
  intro xs
  induction xs with
  | nil => intro i; rfl
  | cons y ys ih => intro i; simp [indexFrom, ih]

theorem indexFrom_key {e : String × Tree} : ∀ {xs : List Tree} {i : Nat},
    e ∈ indexFrom i xs → ∃ j, e.1 = natToString j := by
  intro xs
  induction xs with
  | nil => intro i h; simp [indexFrom] at h
  | cons y ys ih =>
    intro i h
    rw [indexFrom] at h
    rcases List.mem_cons.1 h with h | h
    · subst h; exact ⟨i, rfl⟩
    · exact ih h

theorem indexFrom_getElem : ∀ (xs : List Tree) (i j : Nat) (c : Tree),
    xs[j]? = some c → (indexFrom i xs)[j]? = some (natToString (i + j), c) := by
  intro xs
  induction xs with
  | nil => intro i j c h; simp at h
  | cons y ys ih =>
    intro i j c h
    cases j with
    | zero =>
      simp at h
      subst h
      simp [indexFrom]
    | succ j =>
      simp at h
      have := ih (i + 1) j c h
      simp only [indexFrom, List.getElem?_cons_succ]
      rw [this]
      congr 3
      omega

theorem parseEntries_forall {f : String → Tree → Except Error (Tree × Tree)} :
    ∀ (es : List (String × Tree)) (rs : List (String × Tree × Tree)),
      parseEntries f es = Except.ok rs →
      List.Forall₂ (fun e r => r.1 = e.1 ∧ f e.1 e.2 = Except.ok r.2) es rs := by
  intro es
  induction es with
  | nil =>
    intro rs h
    simp only [parseEntries, pure, Except.pure, Except.ok.injEq] at h
    subst h
    exact List.Forall₂.nil
  | cons e es ih =>
    intro rs h
    obtain ⟨k, v⟩ := e
    simp only [parseEntries, bind, Except.bind] at h
    cases hf : f k v with
    | error err => rw [hf] at h; exact Except.noConfusion h
    | ok r =>
      rw [hf] at h
      simp only at h
      cases hrest : parseEntries f es with
      | error err => rw [hrest] at h; exact Except.noConfusion h
      | ok rs2 =>
        rw [hrest] at h
        simp only [pure, Except.pure, Except.ok.injEq] at h
        subst h
        exact List.Forall₂.cons ⟨rfl, hf⟩ (ih rs2 hrest)

theorem parseEntries_total {f : String → Tree → Except Error (Tree × Tree)} :
    ∀ (es : List (String × Tree)), (∀ e ∈ es, ∃ r, f e.1 e.2 = Except.ok r) →
      ∃ rs, parseEntries f es = Except.ok rs := by
  intro es
  induction es with
  | nil => intro _; exact ⟨[], rfl⟩
  | cons e es ih =>
    intro h
    obtain ⟨k, v⟩ := e
    obtain ⟨r, hr⟩ := h (k, v) (List.mem_cons_self _ _)
    obtain ⟨rs, hrs⟩ := ih (fun e he => h e (List.mem_cons_of_mem _ he))
    refine ⟨(k, r) :: rs, ?_⟩
    simp only at hr
    simp only [parseEntries, bind, Except.bind, hr, hrs, pure, Except.pure]

theorem parseEntries_id {f : String → Tree → Except Error (Tree × Tree)} :
    ∀ (es : List (String × Tree)), (∀ e ∈ es, f e.1 e.2 = Except.ok (e.2, e.2)) →
      parseEntries f es = Except.ok (es.map (fun e => (e.1, e.2, e.2))) := by
  intro es
  induction es with
  | nil => intro _; rfl
  | cons e es ih =>
    intro h
    obtain ⟨k, v⟩ := e
    have hr := h (k, v) (List.mem_cons_self _ _)
    have hrs := ih (fun e he => h e (List.mem_cons_of_mem _ he))
    simp only at hr
    simp only [parseEntries, bind, Except.bind, hr, hrs, pure, Except.pure, List.map_cons]

/-- Building the returned object by assignment, one property after the other, yields
the properties in order when the keys are distinct and none is `__proto__`. -/
theorem foldl_assignProp : ∀ (rs : List (String × Tree × Tree))
    (acc : List (String × Tree)),
    (acc.map Prod.fst ++ rs.map Prod.fst).Nodup →
    (∀ r ∈ rs, r.1 ≠ "__proto__") →
    rs.foldl (fun acc r => assignProp acc r.1 r.2.1) acc
      = acc ++ rs.map (fun r => (r.1, r.2.1)) := by
  intro rs
  induction rs with
  | nil => intro acc _ _; simp
  | cons r rs ih =>
    intro acc hnd hp
    have hk : r.1 ∉ acc.map Prod.fst := by
      intro hmem
      rw [List.nodup_append] at hnd
      exact hnd.2.2 hmem (by simp)
    have hown : hasOwn acc r.1 = false := hasOwn_eq_false_iff.2 hk
    have hproto : r.1 ≠ "__proto__" := hp r (List.mem_cons_self _ _)
    have hassign : assignProp acc r.1 r.2.1 = acc ++ [(r.1, r.2.1)] := by
      unfold assignProp
      rw [hown]
      simp [hproto]
    rw [List.foldl_cons, hassign, ih]
    · simp
    · simpa [List.append_assoc] using hnd
    · intro r2 hr2
      exact hp r2 (List.mem_cons_of_mem _ hr2)

theorem forall2_keys {f : String → Tree → Except Error (Tree × Tree)}
    {es : List (String × Tree)} {rs : List (String × Tree × Tree)}
    (h : List.Forall₂ (fun e r => r.1 = e.1 ∧ f e.1 e.2 = Except.ok r.2) es rs) :
    rs.map Prod.fst = es.map Prod.fst := by
  induction h with
  | nil => rfl
  | cons hab _ ih => simp [hab.1, ih]

theorem forall2_lookup {f : String → Tree → Except Error (Tree × Tree)}
    {es : List (String × Tree)} {rs : List (String × Tree × Tree)}
    (h : List.Forall₂ (fun e r => r.1 = e.1 ∧ f e.1 e.2 = Except.ok r.2) es rs)
    {k : String} {c : Tree} (hc : es.lookup k = some c) :
    ∃ r, f k c = Except.ok r ∧ (rs.map (fun r => (r.1, r.2.1))).lookup k = some r.1 := by
  induction h with
  | nil => simp at hc
  | @cons e r es rs hab _ ih =>
    obtain ⟨k2, v⟩ := e
    obtain ⟨k3, r3⟩ := r
    obtain ⟨hk, hf⟩ := hab
    simp only at hk hf
    subst hk
    rw [List.lookup_cons] at hc
    rw [List.map_cons, List.lookup_cons]
    cases heq : (k == k3) with
    | true =>
      rw [heq] at hc
      simp only at hc
      injection hc with hv
      subst hv
      have hkk : k = k3 := by simpa using heq
      subst hkk
      exact ⟨r3, hf, rfl⟩
    | false =>
      rw [heq] at hc
      exact ih hc

theorem forall2_getElem {f : String → Tree → Except Error (Tree × Tree)}
    {es : List (String × Tree)} {rs : List (String × Tree × Tree)}
    (h : List.Forall₂ (fun e r => r.1 = e.1 ∧ f e.1 e.2 = Except.ok r.2) es rs) :
    ∀ {j : Nat} {k : String} {c : Tree}, es[j]? = some (k, c) →
    ∃ r, f k c = Except.ok r ∧ (rs.map (fun r => r.2.1))[j]? = some r.1 := by
  induction h with
  | nil => intro j k c hc; simp at hc
  | @cons e r es rs hab _ ih =>
    intro j k c hc
    cases j with
    | zero =>
      simp at hc
      subst hc
      exact ⟨r.2, hab.2, by simp⟩
    | succ j =>
      simp at hc
      obtain ⟨r2, h1, h2⟩ := ih hc
      exact ⟨r2, h1, by simpa using h2⟩

/-! ## `applyChanges` away from the markers, and the identity of `parse` -/

theorem includes_nLibrary_self : includes "nLibrary" "nLibrary" = true := by decide

theorem ne_nLibrary_of_includes {k : String} (h : includes k "nLibrary" = false) :
    k ≠ "nLibrary" := by
  intro hk
  rw [hk, includes_nLibrary_self] at h
  exact Bool.noConfusion h

theorem applyChanges_other {tree : String} {key : Option String} (o : Tree)
    (struct : Structure) (ht : includes tree "nLibrary" = false)
    (hn : key ≠ some "nLibrary") (hd : key ≠ some "drums") :
    applyChanges tree key o struct = Except.ok ⟨o, none⟩ := by
  unfold applyChanges
  simp [ht, hn, hd]
  rfl

theorem applyChanges_drums {tree : String} (o : Tree) {struct : Structure} {mods : Mods}
    (ht : includes tree "nLibrary" = false)
    (hl : lookupMods struct tree = Except.ok mods) :
    applyChanges tree (some "drums") o struct
      = Except.ok ⟨o, if mods.drums_delta = 0 then some (Tree.map []) else none⟩ := by
  unfold applyChanges
  have hne : (some "drums" : Option String) ≠ some "nLibrary" := by decide
  simp only [ht, hl, Bool.or_false, decide_eq_true_eq, if_neg hne, bind, Except.bind]
  by_cases hz : mods.drums_delta = 0
  · simp [hz, pure, Except.pure]
  · simp [hz, pure, Except.pure]

theorem covered_lookup {struct : Structure} {mods : Mods} {tree : String}
    (h : Covered struct mods tree) : lookupMods struct tree = Except.ok mods :=
  h []

theorem covered_extend {struct : Structure} {mods : Mods} {tree : String}
    (h : Covered struct mods tree) (k : String) :
    Covered struct mods (tree ++ "." ++ k) :=
  fun keys => h (k :: keys)

/-- Away from the markers `applyChanges` returns its argument, untouched: the path does
not include `nLibrary`, and the key is not `drums` or the drums delta is not 0. -/
theorem applyChanges_quiet {tree : String} {key : Option String} (o : Tree)
    {struct : Structure} (ht : includes tree "nLibrary" = false)
    (hn : key ≠ some "nLibrary")
    (hq : key ≠ some "drums" ∨
      ∃ mods, Covered struct mods tree ∧ mods.drums_delta ≠ 0) :
    applyChanges tree key o struct = Except.ok ⟨o, none⟩ := by
  by_cases hd : key = some "drums"
  · rcases hq with hq | ⟨mods, hcov, hdelta⟩
    · exact absurd hd hq
    · rw [hd, applyChanges_drums o ht (covered_lookup hcov), if_neg hdelta]
  · exact applyChanges_other o struct ht hn hd

theorem parseStep_quiet
    (recur : Option String → Tree → Structure → String → Except Error (Tree × Tree))
    {tree : String} {key : Option String} {o : Tree} {struct : Structure}
    (hc : applyChanges tree key o struct = Except.ok ⟨o, none⟩) :
    parseStep recur key o struct tree =
      match o with
      | Tree.seq xs =>
        (parseEntries (fun k c => recur (some k) c struct (tree ++ "." ++ k))
          (indexFrom 0 xs)).map
          (fun rs => (Tree.seq (rs.map (fun r => r.2.1)), Tree.seq (rs.map (fun r => r.2.2))))
      | Tree.map kvs =>
        (parseEntries (fun k c => recur (some k) c struct (tree ++ "." ++ k)) kvs).map
          (fun rs => (Tree.map (rs.foldl (fun acc r => assignProp acc r.1 r.2.1) []),
            Tree.map (rs.map (fun r => (r.1, r.2.2)))))
      | leaf => Except.ok (leaf, leaf) := by
  unfold parseStep
  rw [hc]
  simp only [bind, Except.bind, Changed.returned, Option.getD_none]
  cases o with
  | num n => rfl
  | str s => rfl
  | seq xs =>
    simp only [entries]
    cases parseEntries (fun k c => recur (some k) c struct (tree ++ "." ++ k))
      (indexFrom 0 xs) <;> rfl
  | map kvs =>
    simp only [entries]
    cases parseEntries (fun k c => recur (some k) c struct (tree ++ "." ++ k)) kvs <;> rfl

/-- A tree none of whose keys includes `nLibrary` or is `__proto__`, parsed on a path
that does not include `nLibrary`, is returned as it is and left as it is, provided no
drums subtree is deleted: no key is `drums`, or the drums delta is not 0. -/
theorem parse_identity (struct : Structure) : ∀ (n : Nat) (o : Tree)
    (key : Option String) (tree : String), o.height < n →
    includes tree "nLibrary" = false → key ≠ some "nLibrary" →
    o.distinctKeys = true →
    o.allKeys (fun k => !includes k "nLibrary" && k != "__proto__") = true →
    ((key ≠ some "drums" ∧ o.allKeys (fun k => k != "drums") = true) ∨
      ∃ mods, Covered struct mods tree ∧ mods.drums_delta ≠ 0) →
    parse key o struct tree = Except.ok (o, o) := by
  intro n
  induction n with
  | zero => intro o key tree h; omega
  | succ n ih =>
    intro o key tree hh ht hn hdist hkeys hq
    have hc : applyChanges tree key o struct = Except.ok ⟨o, none⟩ := by
      apply applyChanges_quiet o ht hn
      rcases hq with hq | hq
      · exact Or.inl hq.1
      · exact Or.inr hq
    rw [parse_eq, parseStep_quiet parse hc]
    -- what the recursive call yields on a child reached with key `k`
    have child : ∀ (k : String) (c : Tree), c.height < n →
        includes k "nLibrary" = false → c.distinctKeys = true →
        c.allKeys (fun k => !includes k "nLibrary" && k != "__proto__") = true →
        ((k ≠ "drums" ∧ c.allKeys (fun k => k != "drums") = true) ∨
          ∃ mods, Covered struct mods tree ∧ mods.drums_delta ≠ 0) →
        parse (some k) c struct (tree ++ "." ++ k) = Except.ok (c, c) := by
      intro k c hch hk hcd hck hcq
      apply ih c (some k) (tree ++ "." ++ k) hch (includes_extend_false ht hk)
        (by intro h; injection h with h; exact ne_nLibrary_of_includes hk h) hcd hck
      rcases hcq with hcq | ⟨mods, hcov, hdelta⟩
      · left
        exact ⟨by intro h; injection h with h; exact hcq.1 h, hcq.2⟩
      · right
        exact ⟨mods, covered_extend hcov k, hdelta⟩
    cases o with
    | num v => rfl
    | str s => rfl
    | seq xs =>
      simp only
      simp only [Tree.height] at hh
      simp only [Tree.distinctKeys] at hdist
      simp only [Tree.allKeys] at hkeys
      rw [parseEntries_id]
      · simp only [Except.map, List.map_map]
        have h1 : (List.map ((fun r : String × Tree × Tree => r.2.1) ∘
            fun e : String × Tree => (e.1, e.2, e.2)) (indexFrom 0 xs)) = xs := by
          have := indexFrom_map_snd xs 0
          simpa [Function.comp] using this
        have h2 : (List.map ((fun r : String × Tree × Tree => r.2.2) ∘
            fun e : String × Tree => (e.1, e.2, e.2)) (indexFrom 0 xs)) = xs := by
          have := indexFrom_map_snd xs 0
          simpa [Function.comp] using this
        rw [h1, h2]
      · intro e he
        have hmem := indexFrom_mem he
        obtain ⟨j, hj⟩ := indexFrom_key he
        have hle := height_le_heightElems hmem
        apply child e.1 e.2 (by omega) (by rw [hj]; exact natToString_includes j)
          (distinctKeysElems_mem hdist hmem) (allKeysElems_mem hkeys hmem)
        rcases hq with hq | hq
        · left
          refine ⟨by rw [hj]; exact natToString_ne_drums j, ?_⟩
          have := hq.2
          simp only [Tree.allKeys] at this
          exact allKeysElems_mem this hmem
        · exact Or.inr hq
    | map kvs =>
      simp only
      simp only [Tree.height] at hh
      simp only [Tree.distinctKeys] at hdist
      simp only [Tree.allKeys] at hkeys
      rw [parseEntries_id]
      · simp only [Except.map]
        have hnd : (([] : List (String × Tree)).map Prod.fst ++
            (kvs.map (fun e => (e.1, e.2, e.2))).map Prod.fst).Nodup := by
          have := distinctKeysProps_nodup hdist
          simpa [Function.comp] using this
        have hproto : ∀ r ∈ kvs.map (fun e : String × Tree => (e.1, e.2, e.2)),
            r.1 ≠ "__proto__" := by
          intro r hr
          obtain ⟨e, he, hre⟩ := List.mem_map.1 hr
          have := (allKeysProps_mem hkeys he).1
          simp only [Bool.and_eq_true, bne_iff_ne] at this
          rw [← hre]
          exact this.2
        rw [foldl_assignProp _ _ hnd hproto]
        have hid1 : List.map ((fun r : String × Tree × Tree => (r.1, r.2.1)) ∘
            fun e : String × Tree => (e.1, e.2, e.2)) kvs = kvs := by
          conv_rhs => rw [← List.map_id kvs]
          exact List.map_congr_left (fun e _ => rfl)
        have hid2 : List.map ((fun r : String × Tree × Tree => (r.1, r.2.2)) ∘
            fun e : String × Tree => (e.1, e.2, e.2)) kvs = kvs := by
          conv_rhs => rw [← List.map_id kvs]
          exact List.map_congr_left (fun e _ => rfl)
        simp only [List.nil_append, List.map_map, hid1, hid2]
      · intro e he
        have hle := height_le_heightProps he
        have hk := (allKeysProps_mem hkeys he)
        have hk1 := hk.1
        simp only [Bool.and_eq_true, Bool.not_eq_true'] at hk1
        apply child e.1 e.2 (by omega) hk1.1 (distinctKeysProps_mem hdist he) hk.2
        rcases hq with hq | hq
        · left
          have := hq.2
          simp only [Tree.allKeys] at this
          have h2 := allKeysProps_mem this he
          exact ⟨by simpa using h2.1, h2.2⟩
        · exact Or.inr hq

mutual
theorem allKeys_mono {p q : String → Bool} (h : ∀ k, p k = true → q k = true) :
    ∀ (o : Tree), o.allKeys p = true → o.allKeys q = true
  | .num _, _ => rfl
  | .str _, _ => rfl
  | .seq xs, ho => by
    simp only [Tree.allKeys] at ho ⊢
    exact allKeysElems_mono h xs ho
  | .map kvs, ho => by
    simp only [Tree.allKeys] at ho ⊢
    exact allKeysProps_mono h kvs ho
theorem allKeysElems_mono {p q : String → Bool} (h : ∀ k, p k = true → q k = true) :
    ∀ (xs : List Tree), allKeysElems p xs = true → allKeysElems q xs = true
  | [], _ => rfl
  | x :: xs, ho => by
    simp only [allKeysElems, Bool.and_eq_true] at ho ⊢
    exact ⟨allKeys_mono h x ho.1, allKeysElems_mono h xs ho.2⟩
theorem allKeysProps_mono {p q : String → Bool} (h : ∀ k, p k = true → q k = true) :
    ∀ (kvs : List (String × Tree)), allKeysProps p kvs = true → allKeysProps q kvs = true
  | [], _ => rfl
  | (k, v) :: kvs, ho => by
    simp only [allKeysProps, Bool.and_eq_true] at ho ⊢
    exact ⟨⟨h k ho.1.1, allKeys_mono h v ho.1.2⟩, allKeysProps_mono h kvs ho.2⟩
end

theorem section_path_quiet (i : Nat) :
    includes ("" ++ "." ++ natToString i) "nLibrary" = false :=
  includes_extend_false (by decide) (natToString_includes i)

/-! ## Keys that are not markers (C10) -/

/-- C10 at its failing input: the only keys of this section are `nLibraryOld` and `a`,
none is equal to `nLibrary` or `drums`, yet with `key_diff = 2` the number under
`nLibraryOld` is transposed, in the result and in the input, where the claim has the tree
returned as it is. The test `tree.includes('nLibrary')`, which is there to find an
ancestor `nLibrary` on the path, finds the text inside the key `nLibraryOld` of the path
`.0.nLibraryOld`; the keys themselves are compared with `==`. -/
theorem parse_key_containing_marker :
    (Tree.map [("nLibraryOld", Tree.map [("a", Tree.num 60)])]).allKeys
        (fun k => k != "nLibrary" && k != "drums") = true ∧
    parseSection 0 (Tree.map [("nLibraryOld", Tree.map [("a", Tree.num 60)])])
        ⟨[], [[⟨2, 1⟩]]⟩
      = Except.ok (Tree.map [("nLibraryOld", Tree.map [("a", Tree.num 62)])],
          Tree.map [("nLibraryOld", Tree.map [("a", Tree.num 62)])]) ∧
    Tree.map [("nLibraryOld", Tree.map [("a", Tree.num 62)])]
      ≠ Tree.map [("nLibraryOld", Tree.map [("a", Tree.num 60)])] := by
  refine ⟨by rfl, by rfl, ?_⟩
  simp

/-- Where no key contains the text `nLibrary`, keys other than the markers are no-ops:
for every tree with distinct keys in which no mapping key contains that text, is equal to
`drums` or is `__proto__`, and for every structure, `parse` returns a tree equal to its
input and leaves the input as it is: both the call made for section `i` of a score, and
the top-level call `parse(null, o, structure, '')`. -/
theorem parse_no_marker_identity (struct : Structure) (o : Tree)
    (hdist : o.distinctKeys = true)
    (hkeys : o.allKeys
      (fun k => !includes k "nLibrary" && k != "drums" && k != "__proto__") = true) :
    (∀ i : Nat, parseSection i o struct = Except.ok (o, o)) ∧
    parse none o struct "" = Except.ok (o, o) := by
  have h1 : o.allKeys (fun k => !includes k "nLibrary" && k != "__proto__") = true := by
    refine allKeys_mono ?_ o hkeys
    intro k hk
    simp only [Bool.and_eq_true] at hk ⊢
    exact ⟨hk.1.1, hk.2⟩
  have h2 : o.allKeys (fun k => k != "drums") = true := by
    refine allKeys_mono ?_ o hkeys
    intro k hk
    simp only [Bool.and_eq_true] at hk
    exact hk.1.2
  refine ⟨?_, ?_⟩
  · intro i
    unfold parseSection
    apply parse_identity struct (o.height + 1) o _ _ (Nat.lt_succ_self _)
      (section_path_quiet i) _ hdist h1
    · left
      exact ⟨by intro h; injection h with h; exact natToString_ne_drums i h, h2⟩
    · intro h; injection h with h; exact natToString_ne_nLibrary i h
  · apply parse_identity struct (o.height + 1) o _ _ (Nat.lt_succ_self _)
      (by decide) (by decide) hdist h1
    left
    exact ⟨by decide, h2⟩

/-- An instance of `parse_no_marker_identity`: a section with keys `tracks`, `bass` and
`r`, parsed with a structure that has no template entry at all. -/
theorem parse_no_marker_identity_witness :
    (∀ i : Nat,
      parseSection i
        (Tree.map [("tracks", Tree.map [("bass", Tree.seq [Tree.num 36, Tree.str "1"])]),
          ("r", Tree.str "1234")]) ⟨[], []⟩
        = Except.ok
          (Tree.map [("tracks", Tree.map [("bass", Tree.seq [Tree.num 36, Tree.str "1"])]),
            ("r", Tree.str "1234")],
           Tree.map [("tracks", Tree.map [("bass", Tree.seq [Tree.num 36, Tree.str "1"])]),
            ("r", Tree.str "1234")])) ∧
    parse none
        (Tree.map [("tracks", Tree.map [("bass", Tree.seq [Tree.num 36, Tree.str "1"])]),
          ("r", Tree.str "1234")]) ⟨[], []⟩ ""
      = Except.ok
          (Tree.map [("tracks", Tree.map [("bass", Tree.seq [Tree.num 36, Tree.str "1"])]),
            ("r", Tree.str "1234")],
           Tree.map [("tracks", Tree.map [("bass", Tree.seq [Tree.num 36, Tree.str "1"])]),
            ("r", Tree.str "1234")]) :=
  parse_no_marker_identity ⟨[], []⟩
    (Tree.map [("tracks", Tree.map [("bass", Tree.seq [Tree.num 36, Tree.str "1"])]),
      ("r", Tree.str "1234")]) (by rfl) (by rfl)

/-! ## `parse` returns a result -/

theorem hasOwn_toString {kvs : List (String × Tree)}
    (h : allKeysProps (fun k => k != "toString") kvs = true) :
    hasOwn kvs "toString" = false := by
  rw [hasOwn_eq_false_iff]
  intro hmem
  obtain ⟨e, he, hk⟩ := List.mem_map.1 hmem
  have := (allKeysProps_mem h he).1
  simp only [bne_iff_ne] at this
  exact this hk

mutual
theorem jsToString_total : ∀ (v : Tree), v.allKeys (fun k => k != "toString") = true →
    ∃ s, jsToString v = Except.ok s
  | .num _, _ => ⟨_, rfl⟩
  | .str _, _ => ⟨_, rfl⟩
  | .seq xs, h => by
    simp only [Tree.allKeys] at h
    simp only [jsToString]
    exact joinElems_total xs h
  | .map kvs, h => by
    simp only [Tree.allKeys] at h
    simp only [jsToString, hasOwn_toString h]
    exact ⟨_, rfl⟩
theorem joinElems_total : ∀ (xs : List Tree),
    allKeysElems (fun k => k != "toString") xs = true → ∃ s, joinElems xs = Except.ok s
  | [], _ => ⟨_, rfl⟩
  | x :: xs, h => by
    simp only [allKeysElems, Bool.and_eq_true] at h
    obtain ⟨a, ha⟩ := jsToString_total x h.1
    obtain ⟨b, hb⟩ := joinRest_total xs h.2
    exact ⟨a ++ b, by simp only [joinElems, ha, hb, bind, Except.bind, pure, Except.pure]⟩
theorem joinRest_total : ∀ (xs : List Tree),
    allKeysElems (fun k => k != "toString") xs = true → ∃ s, joinRest xs = Except.ok s
  | [], _ => ⟨_, rfl⟩
  | x :: xs, h => by
    simp only [allKeysElems, Bool.and_eq_true] at h
    obtain ⟨a, ha⟩ := jsToString_total x h.1
    obtain ⟨b, hb⟩ := joinRest_total xs h.2
    exact ⟨"," ++ a ++ b,
      by simp only [joinRest, ha, hb, bind, Except.bind, pure, Except.pure]⟩
end

theorem isNaN_total (v : Tree) (h : v.allKeys (fun k => k != "toString") = true) :
    ∃ b, isNaN v = Except.ok b := by
  obtain ⟨s, hs⟩ := jsToString_total v h
  cases v with
  | num n => exact ⟨_, rfl⟩
  | str t =>
    refine ⟨!isNumericLiteral s, ?_⟩
    simp only [isNaN, hs, bind, Except.bind, pure, Except.pure]
  | seq xs =>
    refine ⟨!isNumericLiteral s, ?_⟩
    simp only [isNaN, hs, bind, Except.bind, pure, Except.pure]
  | map kvs =>
    refine ⟨!isNumericLiteral s, ?_⟩
    simp only [isNaN, hs, bind, Except.bind, pure, Except.pure]

theorem add_total (v : Tree) (diff : Int)
    (h : v.allKeys (fun k => k != "toString") = true) :
    ∃ sum, add v diff = Except.ok sum := by
  obtain ⟨s, hs⟩ := jsToString_total v h
  cases v with
  | num n => exact ⟨_, rfl⟩
  | str t =>
    refine ⟨Tree.str (s ++ intToString diff), ?_⟩
    simp only [add, hs, bind, Except.bind, pure, Except.pure]
  | seq xs =>
    refine ⟨Tree.str (s ++ intToString diff), ?_⟩
    simp only [add, hs, bind, Except.bind, pure, Except.pure]
  | map kvs =>
    refine ⟨Tree.str (s ++ intToString diff), ?_⟩
    simp only [add, hs, bind, Except.bind, pure, Except.pure]

theorem add_allKeys {val : Tree} {diff : Int} {sum : Tree} (p : String → Bool)
    (h : add val diff = Except.ok sum) : sum.allKeys p = true := by
  cases val with
  | num n =>
    simp only [add, pure, Except.pure, Except.ok.injEq] at h
    subst h; rfl
  | str s =>
    simp only [add, jsToString, pure, Except.pure, bind, Except.bind, Except.ok.injEq] at h
    subst h; rfl
  | seq xs =>
    simp only [add, bind, Except.bind] at h
    split at h
    · exact Except.noConfusion h
    · simp only [pure, Except.pure, Except.ok.injEq] at h
      subst h; rfl
  | map kvs =>
    simp only [add, bind, Except.bind] at h
    split at h
    · exact Except.noConfusion h
    · simp only [pure, Except.pure, Except.ok.injEq] at h
      subst h; rfl

theorem allKeysElems_replaceIndex {p : String → Bool} {v : Tree}
    (hv : v.allKeys p = true) : ∀ (xs : List Tree) (i : Nat) (key : String),
    allKeysElems p xs = true → allKeysElems p (replaceIndex xs i key v) = true := by
  intro xs
  induction xs with
  | nil => intro i key _; rfl
  | cons y ys ih =>
    intro i key h
    simp only [allKeysElems, Bool.and_eq_true] at h
    rw [replaceIndex]
    split
    · simp only [allKeysElems, Bool.and_eq_true]; exact ⟨hv, h.2⟩
    · simp only [allKeysElems, Bool.and_eq_true]; exact ⟨h.1, ih _ _ h.2⟩

theorem allKeysProps_replaceOwn {p : String → Bool} {v : Tree}
    (hv : v.allKeys p = true) : ∀ (kvs : List (String × Tree)) (key : String),
    allKeysProps p kvs = true → allKeysProps p (replaceOwn kvs key v) = true := by
  intro kvs
  induction kvs with
  | nil => intro key _; rfl
  | cons y ys ih =>
    intro key h
    obtain ⟨k, x⟩ := y
    simp only [allKeysProps, Bool.and_eq_true] at h
    rw [replaceOwn]
    split
    · simp only [allKeysProps, Bool.and_eq_true]; exact ⟨⟨h.1.1, hv⟩, h.2⟩
    · simp only [allKeysProps, Bool.and_eq_true]; exact ⟨h.1, ih _ h.2⟩

theorem assignOwn_allKeys {p : String → Bool} {v : Tree} (hv : v.allKeys p = true)
    (o : Tree) (key : String) (h : o.allKeys p = true) :
    (assignOwn o key v).allKeys p = true := by
  cases o with
  | num n => rfl
  | str s => rfl
  | seq xs =>
    simp only [Tree.allKeys] at h
    simp only [assignOwn, Tree.allKeys]
    exact allKeysElems_replaceIndex hv xs 0 key h
  | map kvs =>
    simp only [Tree.allKeys] at h
    simp only [assignOwn, Tree.allKeys]
    exact allKeysProps_replaceOwn hv kvs key h

theorem transposeLoop_total (diff : Int) : ∀ (es : List (String × Tree)) (o : Tree),
    (∀ e ∈ es, e.2.allKeys (fun k => k != "toString") = true) →
    o.allKeys (fun k => k != "toString") = true →
    ∃ o2, transposeLoop diff es o = Except.ok o2 ∧
      o2.allKeys (fun k => k != "toString") = true := by
  intro es
  induction es with
  | nil => intro o _ ho; exact ⟨o, rfl, ho⟩
  | cons e es ih =>
    intro o hes ho
    obtain ⟨key, val⟩ := e
    have hval : val.allKeys (fun k => k != "toString") = true :=
      hes (key, val) (List.mem_cons_self _ _)
    have hrest : ∀ e ∈ es, e.2.allKeys (fun k => k != "toString") = true :=
      fun e he => hes e (List.mem_cons_of_mem _ he)
    obtain ⟨b, hb⟩ := isNaN_total val hval
    obtain ⟨sum, hsum⟩ := add_total val diff hval
    simp only [transposeLoop, bind, Except.bind, hb]
    cases b with
    | true => exact ih o hrest ho
    | false =>
      simp only [Bool.not_false, if_true, hsum]
      exact ih _ hrest (assignOwn_allKeys (add_allKeys _ hsum) o key ho)

theorem entries_allKeys {p : String → Bool} {o : Tree} (h : o.allKeys p = true) :
    ∀ e ∈ entries o, e.2.allKeys p = true := by
  intro e he
  cases o with
  | num n => simp [entries] at he
  | str s =>
    simp only [entries] at he
    have := indexFrom_mem he
    obtain ⟨c, _, hc⟩ := List.mem_map.1 this
    rw [← hc]; rfl
  | seq xs =>
    simp only [entries] at he
    simp only [Tree.allKeys] at h
    exact allKeysElems_mem h (indexFrom_mem he)
  | map kvs =>
    simp only [entries] at he
    simp only [Tree.allKeys] at h
    exact (allKeysProps_mem h he).2

theorem applyChanges_total {tree : String} (key : Option String) {o : Tree}
    {struct : Structure} {mods : Mods} (hcov : Covered struct mods tree)
    (ho : o.allKeys (fun k => k != "toString") = true) :
    ∃ c, applyChanges tree key o struct = Except.ok c ∧
      c.returned.allKeys (fun k => k != "toString") = true := by
  have hl := covered_lookup hcov
  unfold applyChanges
  split
  · simp only [bind, Except.bind, hl]
    obtain ⟨o2, h2, hk2⟩ := transposeLoop_total mods.key_diff (entries o) o
      (entries_allKeys ho) ho
    rw [h2]
    exact ⟨_, rfl, hk2⟩
  · split
    · simp only [bind, Except.bind, hl]
      split
      · exact ⟨_, rfl, rfl⟩
      · exact ⟨_, rfl, ho⟩
    · exact ⟨_, rfl, ho⟩

/-- When the section of the path has a template entry and no object of the tree has an
own property `toString`, `parse` returns a result. -/
theorem parse_total (struct : Structure) (mods : Mods) : ∀ (n : Nat) (o : Tree)
    (key : Option String) (tree : String), o.height < n →
    Covered struct mods tree → o.allKeys (fun k => k != "toString") = true →
    ∃ r a, parse key o struct tree = Except.ok (r, a) := by
  intro n
  induction n with
  | zero => intro o key tree h; omega
  | succ n ih =>
    intro o key tree hh hcov ho
    obtain ⟨c, hc, hck⟩ := applyChanges_total key hcov ho
    have hret := applyChanges_returned hc
    rw [parse_eq]
    unfold parseStep
    rw [hc]
    simp only [bind, Except.bind]
    cases hr : c.returned with
    | num v => exact ⟨_, _, rfl⟩
    | str s => exact ⟨_, _, rfl⟩
    | seq xs =>
      rw [hr] at hret hck
      simp only [Tree.allKeys] at hck
      have htot : ∃ rs, parseEntries
          (fun k o => parse (some k) o struct (tree ++ "." ++ k)) (entries (Tree.seq xs))
          = Except.ok rs := by
        apply parseEntries_total
        intro e he
        simp only [entries] at he
        have hmem := indexFrom_mem he
        have hle := height_le_heightElems hmem
        rcases hret with hret | hret
        · simp only [Tree.height] at hret
          obtain ⟨r, a, hra⟩ := ih e.2 (some e.1) (tree ++ "." ++ e.1) (by omega)
            (covered_extend hcov e.1) (allKeysElems_mem hck hmem)
          exact ⟨(r, a), hra⟩
        · exact Tree.noConfusion hret
      obtain ⟨rs, hrs⟩ := htot
      simp only [hrs]
      exact ⟨_, _, rfl⟩
    | map kvs =>
      rw [hr] at hret hck
      simp only [Tree.allKeys] at hck
      have htot : ∃ rs, parseEntries
          (fun k o => parse (some k) o struct (tree ++ "." ++ k)) (entries (Tree.map kvs))
          = Except.ok rs := by
        apply parseEntries_total
        intro e he
        simp only [entries] at he
        have hle := height_le_heightProps he
        rcases hret with hret | hret
        · simp only [Tree.height] at hret
          obtain ⟨r, a, hra⟩ := ih e.2 (some e.1) (tree ++ "." ++ e.1) (by omega)
            (covered_extend hcov e.1) (allKeysProps_mem hck he).2
          exact ⟨(r, a), hra⟩
        · injection hret with hnil
          rw [hnil] at he
          simp at he
      obtain ⟨rs, hrs⟩ := htot
      simp only [hrs]
      exact ⟨_, _, rfl⟩

/-! ## Following a path through `parse` -/

theorem foldl_path_suffix : ∀ (keys : List String) (tree : String),
    ∃ suffix : String, keys.foldl (fun t k => t ++ "." ++ k) tree = tree ++ suffix ∧
      (suffix.data = [] ∨ ∃ t, suffix.data = '.' :: t) := by
  intro keys
  induction keys with
  | nil => intro tree; exact ⟨"", by simp, Or.inl rfl⟩
  | cons k ks ih =>
    intro tree
    obtain ⟨suffix, hs, _⟩ := ih (tree ++ "." ++ k)
    refine ⟨"." ++ k ++ suffix, ?_, Or.inr ⟨k.data ++ suffix.data, ?_⟩⟩
    · rw [List.foldl_cons, hs]
      simp [String.append_assoc]
    · simp [String.data_append]

/-- The path of section `i` is covered by the template entry of section `i`. -/
theorem covered_section {struct : Structure} {i : Nat} {mods : Mods} {rest : List Mods}
    (hs : struct.sections[i]? = some (mods :: rest)) :
    Covered struct mods ("" ++ "." ++ natToString i) := by
  intro keys
  obtain ⟨suffix, hsuf, hdot⟩ := foldl_path_suffix keys ("" ++ "." ++ natToString i)
  rw [hsuf]
  unfold lookupMods
  rw [splitDot_section i suffix hdot]
  simp only [Option.bind, parseInt_natToString, getIndex_natCast, hs,
    List.getElem?_cons_zero]
  rfl

theorem child_distinctKeys {o c : Tree} {s : Step} (h : o.child s = some c)
    (ho : o.distinctKeys = true) : c.distinctKeys = true := by
  cases o with
  | num n => cases s <;> simp [Tree.child] at h
  | str t => cases s <;> simp [Tree.child] at h
  | seq xs =>
    cases s with
    | key k => simp [Tree.child] at h
    | idx j =>
      simp only [Tree.child] at h
      simp only [Tree.distinctKeys] at ho
      exact distinctKeysElems_mem ho (List.getElem?_mem h)
  | map kvs =>
    cases s with
    | idx j => simp [Tree.child] at h
    | key k =>
      simp only [Tree.child] at h
      simp only [Tree.distinctKeys] at ho
      exact distinctKeysProps_mem ho (lookup_mem h)

theorem child_allKeys {p : String → Bool} {o c : Tree} {s : Step}
    (h : o.child s = some c) (ho : o.allKeys p = true) : c.allKeys p = true := by
  cases o with
  | num n => cases s <;> simp [Tree.child] at h
  | str t => cases s <;> simp [Tree.child] at h
  | seq xs =>
    cases s with
    | key k => simp [Tree.child] at h
    | idx j =>
      simp only [Tree.child] at h
      simp only [Tree.allKeys] at ho
      exact allKeysElems_mem ho (List.getElem?_mem h)
  | map kvs =>
    cases s with
    | idx j => simp [Tree.child] at h
    | key k =>
      simp only [Tree.child] at h
      simp only [Tree.allKeys] at ho
      exact (allKeysProps_mem ho (lookup_mem h)).2

theorem child_key {p : String → Bool} {o c : Tree} {k : String}
    (h : o.child (Step.key k) = some c) (ho : o.allKeys p = true) : p k = true := by
  cases o with
  | num n => simp [Tree.child] at h
  | str t => simp [Tree.child] at h
  | seq xs => simp [Tree.child] at h
  | map kvs =>
    simp only [Tree.child] at h
    simp only [Tree.allKeys] at ho
    exact (allKeysProps_mem ho (lookup_mem h)).1

theorem at?_append : ∀ (p q : List Step) (o c : Tree), o.at? (p ++ q) = some c →
    ∃ c0, o.at? p = some c0 ∧ c0.at? q = some c := by
  intro p
  induction p with
  | nil => intro q o c h; exact ⟨o, rfl, h⟩
  | cons s p ih =>
    intro q o c h
    rw [List.cons_append, Tree.at?] at h
    cases hc : o.child s with
    | none => rw [hc] at h; exact Option.noConfusion h
    | some c1 =>
      rw [hc] at h
      obtain ⟨c0, h0, h1⟩ := ih q c1 c h
      exact ⟨c0, by rw [Tree.at?, hc]; exact h0, h1⟩

theorem at?_append_of : ∀ (p q : List Step) (o c0 : Tree), o.at? p = some c0 →
    o.at? (p ++ q) = c0.at? q := by
  intro p
  induction p with
  | nil => intro q o c0 h; simp only [Tree.at?, Option.some.injEq] at h; subst h; rfl
  | cons s p ih =>
    intro q o c0 h
    rw [Tree.at?] at h
    rw [List.cons_append, Tree.at?]
    cases hc : o.child s with
    | none => rw [hc] at h; exact Option.noConfusion h
    | some c1 =>
      rw [hc] at h
      exact ih q c1 c0 h

/-- One step down from a node at which `applyChanges` changes nothing: the child of the
result is the result of the recursive call on the child. -/
theorem parse_child (struct : Structure) (mods : Mods) {key : Option String}
    {tree : String} {o : Tree} (ht : includes tree "nLibrary" = false)
    (hn : key ≠ some "nLibrary") (hq : key ≠ some "drums" ∨ mods.drums_delta ≠ 0)
    (hcov : Covered struct mods tree) (hdist : o.distinctKeys = true)
    (hplain : o.allKeys (fun k => k != "__proto__" && k != "toString") = true)
    (s : Step) (c : Tree) (hc : o.child s = some c) :
    ∃ r a rc ac, parse key o struct tree = Except.ok (r, a) ∧
      parse (endKey key [s]) c struct (endTree tree [s]) = Except.ok (rc, ac) ∧
      r.child s = some rc := by
  have hts : o.allKeys (fun k => k != "toString") = true :=
    allKeys_mono (by intro k hk; simp only [Bool.and_eq_true] at hk; exact hk.2) o hplain
  have hpr : o.allKeys (fun k => k != "__proto__") = true :=
    allKeys_mono (by intro k hk; simp only [Bool.and_eq_true] at hk; exact hk.1) o hplain
  have hcq : applyChanges tree key o struct = Except.ok ⟨o, none⟩ := by
    apply applyChanges_quiet o ht hn
    rcases hq with hq | hq
    · exact Or.inl hq
    · exact Or.inr ⟨mods, hcov, hq⟩
  rw [parse_eq, parseStep_quiet parse hcq]
  cases o with
  | num n => cases s <;> simp [Tree.child] at hc
  | str t => cases s <;> simp [Tree.child] at hc
  | seq xs =>
    cases s with
    | key k => simp [Tree.child] at hc
    | idx j =>
      simp only [Tree.child] at hc
      simp only [Tree.allKeys] at hts
      have htot : ∃ rs, parseEntries
          (fun k c => parse (some k) c struct (tree ++ "." ++ k)) (indexFrom 0 xs)
          = Except.ok rs := by
        apply parseEntries_total
        intro e he
        have hmem := indexFrom_mem he
        obtain ⟨r, a, hra⟩ := parse_total struct mods (e.2.height + 1) e.2 (some e.1)
          (tree ++ "." ++ e.1) (Nat.lt_succ_self _) (covered_extend hcov e.1)
          (allKeysElems_mem hts hmem)
        exact ⟨(r, a), hra⟩
      obtain ⟨rs, hrs⟩ := htot
      have hall := parseEntries_forall _ _ hrs
      have hget := indexFrom_getElem xs 0 j c hc
      rw [Nat.zero_add] at hget
      obtain ⟨rc, hrc, hres⟩ := forall2_getElem
        (f := fun k c => parse (some k) c struct (tree ++ "." ++ k)) hall hget
      simp only [hrs, Except.map]
      exact ⟨_, _, rc.1, rc.2, rfl, hrc, hres⟩
  | map kvs =>
    cases s with
    | idx j => simp [Tree.child] at hc
    | key k =>
      simp only [Tree.child] at hc
      simp only [Tree.allKeys] at hts hpr
      simp only [Tree.distinctKeys] at hdist
      have htot : ∃ rs, parseEntries
          (fun k c => parse (some k) c struct (tree ++ "." ++ k)) kvs
          = Except.ok rs := by
        apply parseEntries_total
        intro e he
        obtain ⟨r, a, hra⟩ := parse_total struct mods (e.2.height + 1) e.2 (some e.1)
          (tree ++ "." ++ e.1) (Nat.lt_succ_self _) (covered_extend hcov e.1)
          (allKeysProps_mem hts he).2
        exact ⟨(r, a), hra⟩
      obtain ⟨rs, hrs⟩ := htot
      have hall := parseEntries_forall _ _ hrs
      have hkeys := forall2_keys
        (f := fun k c => parse (some k) c struct (tree ++ "." ++ k)) hall
      obtain ⟨rc, hrc, hres⟩ := forall2_lookup
        (f := fun k c => parse (some k) c struct (tree ++ "." ++ k)) hall hc
      have hnd : (([] : List (String × Tree)).map Prod.fst ++ rs.map Prod.fst).Nodup := by
        rw [hkeys]
        simpa using distinctKeysProps_nodup hdist
      have hproto : ∀ r ∈ rs, r.1 ≠ "__proto__" := by
        intro r hr
        have hmem : r.1 ∈ rs.map Prod.fst := List.mem_map.2 ⟨r, hr, rfl⟩
        rw [hkeys] at hmem
        obtain ⟨e, he, hek⟩ := List.mem_map.1 hmem
        have := (allKeysProps_mem hpr he).1
        simp only [bne_iff_ne] at this
        rw [← hek]
        exact this
      simp only [hrs, Except.map]
      refine ⟨_, _, rc.1, rc.2, rfl, hrc, ?_⟩
      rw [foldl_assignProp _ _ hnd hproto]
      simpa [Tree.child] using hres

/-- What holds at the end of a path none of whose keys includes `nLibrary`. -/
theorem path_end (struct : Structure) (mods : Mods) : ∀ (p : List Step) (o : Tree)
    (key : Option String) (tree : String) (c : Tree),
    includes tree "nLibrary" = false → key ≠ some "nLibrary" →
    (key ≠ some "drums" ∨ mods.drums_delta ≠ 0) → Covered struct mods tree →
    o.distinctKeys = true →
    o.allKeys (fun k => k != "__proto__" && k != "toString") = true →
    (∀ k, Step.key k ∈ p →
      includes k "nLibrary" = false ∧ (k ≠ "drums" ∨ mods.drums_delta ≠ 0)) →
    o.at? p = some c →
    includes (endTree tree p) "nLibrary" = false ∧ endKey key p ≠ some "nLibrary" ∧
      (endKey key p ≠ some "drums" ∨ mods.drums_delta ≠ 0) ∧
      Covered struct mods (endTree tree p) ∧ c.distinctKeys = true ∧
      c.allKeys (fun k => k != "__proto__" && k != "toString") = true := by
  intro p
  induction p with
  | nil =>
    intro o key tree c ht hn hq hcov hdist hplain _ hc
    simp only [Tree.at?, Option.some.injEq] at hc
    subst hc
    exact ⟨ht, hn, hq, hcov, hdist, hplain⟩
  | cons s p ih =>
    intro o key tree c ht hn hq hcov hdist hplain hp hc
    rw [Tree.at?] at hc
    cases hch : o.child s with
    | none => rw [hch] at hc; exact Option.noConfusion hc
    | some c1 =>
      rw [hch] at hc
      have hp2 : ∀ k, Step.key k ∈ p →
          includes k "nLibrary" = false ∧ (k ≠ "drums" ∨ mods.drums_delta ≠ 0) :=
        fun k hk => hp k (List.mem_cons_of_mem _ hk)
      cases s with
      | key k =>
        obtain ⟨hk1, hk2⟩ := hp k (List.mem_cons_self _ _)
        simp only [endTree, endKey]
        apply ih c1 (some k) (tree ++ "." ++ k) c (includes_extend_false ht hk1)
          (by intro h; injection h with h; exact ne_nLibrary_of_includes hk1 h)
          _ (covered_extend hcov k) (child_distinctKeys hch hdist)
          (child_allKeys hch hplain) hp2 hc
        rcases hk2 with hk2 | hk2
        · left; intro h; injection h with h; exact hk2 h
        · right; exact hk2
      | idx j =>
        simp only [endTree, endKey]
        apply ih c1 (some (natToString j)) (tree ++ "." ++ natToString j) c
          (includes_extend_false ht (natToString_includes j))
          (by intro h; injection h with h; exact natToString_ne_nLibrary j h)
          _ (covered_extend hcov _) (child_distinctKeys hch hdist)
          (child_allKeys hch hplain) hp2 hc
        left; intro h; injection h with h; exact natToString_ne_drums j h

/-- Along a path none of whose keys includes `nLibrary` and on which no drums subtree is
deleted, the subtree of the result at the path is the result of the recursive call made
on the subtree of the input at that path. -/
theorem parse_at (struct : Structure) (mods : Mods) : ∀ (p : List Step) (o : Tree)
    (key : Option String) (tree : String) (c : Tree),
    includes tree "nLibrary" = false → key ≠ some "nLibrary" →
    (key ≠ some "drums" ∨ mods.drums_delta ≠ 0) → Covered struct mods tree →
    o.distinctKeys = true →
    o.allKeys (fun k => k != "__proto__" && k != "toString") = true →
    (∀ k, Step.key k ∈ p →
      includes k "nLibrary" = false ∧ (k ≠ "drums" ∨ mods.drums_delta ≠ 0)) →
    o.at? p = some c →
    ∃ r a rc ac, parse key o struct tree = Except.ok (r, a) ∧
      parse (endKey key p) c struct (endTree tree p) = Except.ok (rc, ac) ∧
      r.at? p = some rc := by
  intro p
  induction p with
  | nil =>
    intro o key tree c ht hn hq hcov hdist hplain _ hc
    simp only [Tree.at?, Option.some.injEq] at hc
    subst hc
    have hts : o.allKeys (fun k => k != "toString") = true :=
      allKeys_mono (by intro k hk; simp only [Bool.and_eq_true] at hk; exact hk.2) o hplain
    obtain ⟨r, a, hra⟩ := parse_total struct mods (o.height + 1) o key tree
      (Nat.lt_succ_self _) hcov hts
    exact ⟨r, a, r, a, hra, hra, rfl⟩
  | cons s p ih =>
    intro o key tree c ht hn hq hcov hdist hplain hp hc
    rw [Tree.at?] at hc
    cases hch : o.child s with
    | none => rw [hch] at hc; exact Option.noConfusion hc
    | some c1 =>
      rw [hch] at hc
      obtain ⟨r, a, r1, a1, hra, hr1, hrc⟩ :=
        parse_child struct mods ht hn hq hcov hdist hplain s c1 hch
      have hp1 : ∀ k, Step.key k ∈ [s] →
          includes k "nLibrary" = false ∧ (k ≠ "drums" ∨ mods.drums_delta ≠ 0) :=
        fun k hk => hp k (by
          rw [List.mem_singleton] at hk
          rw [hk]; exact List.mem_cons_self _ _)
      have hp2 : ∀ k, Step.key k ∈ p →
          includes k "nLibrary" = false ∧ (k ≠ "drums" ∨ mods.drums_delta ≠ 0) :=
        fun k hk => hp k (List.mem_cons_of_mem _ hk)
      have hch1 : o.at? [s] = some c1 := by simp [Tree.at?, hch]
      obtain ⟨e1, e2, e3, e4, e5, e6⟩ :=
        path_end struct mods [s] o key tree c1 ht hn hq hcov hdist hplain hp1 hch1
      obtain ⟨r2, a2, rc, ac, hra2, hrcc, hat⟩ :=
        ih c1 (endKey key [s]) (endTree tree [s]) c e1 e2 e3 e4 e5 e6 hp2 hc
      rw [hr1] at hra2
      injection hra2 with hpair
      injection hpair with h1 h2
      subst h1
      have hk : endKey (endKey key [s]) p = endKey key (s :: p) := by
        cases s <;> rfl
      have htr : endTree (endTree tree [s]) p = endTree tree (s :: p) := by
        cases s <;> rfl
      rw [hk, htr] at hrcc
      refine ⟨r, a, rc, ac, hra, hrcc, ?_⟩
      rw [Tree.at?, hrc]
      exact hat

mutual
theorem allKeys_and {p q : String → Bool} :
    ∀ (o : Tree), o.allKeys p = true → o.allKeys q = true →
      o.allKeys (fun k => p k && q k) = true
  | .num _, _, _ => rfl
  | .str _, _, _ => rfl
  | .seq xs, hp, hq => by
    simp only [Tree.allKeys] at hp hq ⊢
    exact allKeysElems_and xs hp hq
  | .map kvs, hp, hq => by
    simp only [Tree.allKeys] at hp hq ⊢
    exact allKeysProps_and kvs hp hq
theorem allKeysElems_and {p q : String → Bool} :
    ∀ (xs : List Tree), allKeysElems p xs = true → allKeysElems q xs = true →
      allKeysElems (fun k => p k && q k) xs = true
  | [], _, _ => rfl
  | x :: xs, hp, hq => by
    simp only [allKeysElems, Bool.and_eq_true] at hp hq ⊢
    exact ⟨allKeys_and x hp.1 hq.1, allKeysElems_and xs hp.2 hq.2⟩
theorem allKeysProps_and {p q : String → Bool} :
    ∀ (kvs : List (String × Tree)), allKeysProps p kvs = true →
      allKeysProps q kvs = true → allKeysProps (fun k => p k && q k) kvs = true
  | [], _, _ => rfl
  | (k, v) :: kvs, hp, hq => by
    simp only [allKeysProps, Bool.and_eq_true] at hp hq ⊢
    exact ⟨⟨⟨hp.1.1, hq.1.1⟩, allKeys_and v hp.1.2 hq.1.2⟩,
      allKeysProps_and kvs hp.2 hq.2⟩
end

/-- The call for a `drums` key on a path that does not include `nLibrary`, with a drums
delta of 0: the result is the empty mapping, the argument is left as it is. -/
theorem parse_drums_deleted {struct : Structure} {mods : Mods} {tree : String} (v : Tree)
    (ht : includes tree "nLibrary" = false)
    (hl : lookupMods struct tree = Except.ok mods) (hd : mods.drums_delta = 0) :
    parse (some "drums") v struct tree = Except.ok (Tree.map [], v) := by
  rw [parse_eq]
  unfold parseStep
  rw [applyChanges_drums v ht hl, if_pos hd]
  rfl

/-! ## The drums marker (C3, C4) -/

/-- C3, as stated, fails: with a drums delta of 0, the value under the key `drums` that
lies inside the `nLibrary` subtree is not replaced by an empty mapping; the whole section
is returned as it is. -/
theorem drums_inside_library_kept :
    parseSection 0
        (Tree.map [("nLibrary", Tree.map [("drums", Tree.map [("kick", Tree.str "x")])])])
        ⟨[], [[⟨0, 0⟩]]⟩
      = Except.ok
        (Tree.map [("nLibrary", Tree.map [("drums", Tree.map [("kick", Tree.str "x")])])],
         Tree.map [("nLibrary", Tree.map [("drums", Tree.map [("kick", Tree.str "x")])])]) ∧
    (Tree.map [("nLibrary", Tree.map [("drums", Tree.map [("kick", Tree.str "x")])])]).at?
        [Step.key "nLibrary", Step.key "drums"]
      = some (Tree.map [("kick", Tree.str "x")]) := by
  exact ⟨by rfl, by rfl⟩

/-- C3, amended: when the template entry of section `i` has a drums delta of 0, every
value stored under a key `drums` that is reached by a path none of whose keys contains
the text `nLibrary` or is itself `drums` is replaced by an empty mapping in the tree
`parse` returns, whatever the value contains (the tree being plain data: distinct keys,
none of them `__proto__` or `toString`). -/
theorem drums_deleted (struct : Structure) (i : Nat) (mods : Mods) (rest : List Mods)
    (hs : struct.sections[i]? = some (mods :: rest)) (hd : mods.drums_delta = 0)
    (o : Tree) (hdist : o.distinctKeys = true)
    (hplain : o.allKeys (fun k => k != "__proto__" && k != "toString") = true)
    (p : List Step)
    (hp : ∀ k, Step.key k ∈ p → includes k "nLibrary" = false ∧ k ≠ "drums")
    (v : Tree) (hv : o.at? (p ++ [Step.key "drums"]) = some v) :
    ∃ r a, parseSection i o struct = Except.ok (r, a) ∧
      r.at? (p ++ [Step.key "drums"]) = some (Tree.map []) := by
  have hcov := covered_section hs
  have ht := section_path_quiet i
  have hn : some (natToString i) ≠ some "nLibrary" := by
    intro h; injection h with h; exact natToString_ne_nLibrary i h
  have hq : some (natToString i) ≠ some "drums" ∨ mods.drums_delta ≠ 0 := by
    left; intro h; injection h with h; exact natToString_ne_drums i h
  have hp2 : ∀ k, Step.key k ∈ p →
      includes k "nLibrary" = false ∧ (k ≠ "drums" ∨ mods.drums_delta ≠ 0) :=
    fun k hk => ⟨(hp k hk).1, Or.inl (hp k hk).2⟩
  obtain ⟨c0, hc0, hv0⟩ := at?_append p [Step.key "drums"] o v hv
  have hchild : c0.child (Step.key "drums") = some v := by
    rw [Tree.at?] at hv0
    cases hch : c0.child (Step.key "drums") with
    | none => rw [hch] at hv0; exact Option.noConfusion hv0
    | some w =>
      rw [hch] at hv0
      simp only [Tree.at?] at hv0
      rw [hv0]
  obtain ⟨r, a, rc0, ac0, hra, hrc0, hat⟩ := parse_at struct mods p o
    (some (natToString i)) ("" ++ "." ++ natToString i) c0 ht hn hq hcov hdist hplain
    hp2 hc0
  obtain ⟨e1, e2, e3, e4, e5, e6⟩ := path_end struct mods p o
    (some (natToString i)) ("" ++ "." ++ natToString i) c0 ht hn hq hcov hdist hplain
    hp2 hc0
  obtain ⟨r0, a0, rc, ac, hra0, hrc, hch⟩ := parse_child struct mods e1 e2 e3 e4 e5 e6
    (Step.key "drums") v hchild
  rw [hrc0] at hra0
  injection hra0 with hpair
  injection hpair with h1 h2
  subst h1
  have hdel := parse_drums_deleted v
    (includes_extend_false e1 (by decide : includes "drums" "nLibrary" = false))
    (covered_lookup (covered_extend e4 "drums")) hd
  simp only [endKey, endTree] at hrc
  rw [hdel] at hrc
  injection hrc with hpair2
  injection hpair2 with h3 h4
  subst h3
  refine ⟨r, a, hra, ?_⟩
  rw [at?_append_of p [Step.key "drums"] r rc0 hat, Tree.at?, hch]
  rfl

/-- Witness for the amended C3: the drums of the first track of a section. -/
theorem drums_deleted_witness :
    ∃ r a,
      parseSection 0
        (Tree.map [("tracks", Tree.seq [Tree.map [("drums",
          Tree.map [("kick", Tree.str "x"), ("nLibrary", Tree.seq [Tree.num 36])])]])])
        ⟨[], [[⟨2, 0⟩]]⟩ = Except.ok (r, a) ∧
      r.at? ([Step.key "tracks", Step.idx 0] ++ [Step.key "drums"]) = some (Tree.map []) :=
  drums_deleted ⟨[], [[⟨2, 0⟩]]⟩ 0 ⟨2, 0⟩ [] (by rfl) (by rfl)
    (Tree.map [("tracks", Tree.seq [Tree.map [("drums",
      Tree.map [("kick", Tree.str "x"), ("nLibrary", Tree.seq [Tree.num 36])])]])])
    (by rfl) (by rfl) [Step.key "tracks", Step.idx 0]
    (by
      intro k hk
      simp at hk
      subst hk
      exact ⟨by decide, by decide⟩)
    (Tree.map [("kick", Tree.str "x"), ("nLibrary", Tree.seq [Tree.num 36])]) (by rfl)

/-- C4, as stated, fails: with a nonzero drums delta and `key_diff = 2`, the value under
`drums` contains a pitch library, and its number is transposed in the returned tree. -/
theorem drums_with_library_changed :
    parseSection 0
        (Tree.map [("drums", Tree.map [("nLibrary", Tree.map [("a", Tree.num 60)])])])
        ⟨[], [[⟨2, 1⟩]]⟩
      = Except.ok
        (Tree.map [("drums", Tree.map [("nLibrary", Tree.map [("a", Tree.num 62)])])],
         Tree.map [("drums", Tree.map [("nLibrary", Tree.map [("a", Tree.num 62)])])]) ∧
    Tree.map [("nLibrary", Tree.map [("a", Tree.num 62)])]
      ≠ Tree.map [("nLibrary", Tree.map [("a", Tree.num 60)])] := by
  refine ⟨by rfl, ?_⟩
  simp

/-- C4, amended: when the template entry of section `i` has a nonzero drums delta, the
value stored under a key `drums` in the tree `parse` returns is equal to the input value
under that key, provided no key on the path to it and no key inside it contains the text
`nLibrary` (the tree being plain data: distinct keys, none of them `__proto__` or
`toString`). -/
theorem drums_kept (struct : Structure) (i : Nat) (mods : Mods) (rest : List Mods)
    (hs : struct.sections[i]? = some (mods :: rest)) (hd : mods.drums_delta ≠ 0)
    (o : Tree) (hdist : o.distinctKeys = true)
    (hplain : o.allKeys (fun k => k != "__proto__" && k != "toString") = true)
    (p : List Step) (hp : ∀ k, Step.key k ∈ p → includes k "nLibrary" = false)
    (v : Tree) (hv : o.at? (p ++ [Step.key "drums"]) = some v)
    (hvk : v.allKeys (fun k => !includes k "nLibrary") = true) :
    ∃ r a, parseSection i o struct = Except.ok (r, a) ∧
      r.at? (p ++ [Step.key "drums"]) = some v := by
  have hcov := covered_section hs
  have ht := section_path_quiet i
  have hn : some (natToString i) ≠ some "nLibrary" := by
    intro h; injection h with h; exact natToString_ne_nLibrary i h
  have hq : some (natToString i) ≠ some "drums" ∨ mods.drums_delta ≠ 0 := Or.inr hd
  have hp2 : ∀ k, Step.key k ∈ p ++ [Step.key "drums"] →
      includes k "nLibrary" = false ∧ (k ≠ "drums" ∨ mods.drums_delta ≠ 0) := by
    intro k hk
    rw [List.mem_append] at hk
    rcases hk with hk | hk
    · exact ⟨hp k hk, Or.inr hd⟩
    · rw [List.mem_singleton] at hk
      injection hk with hk
      subst hk
      exact ⟨by decide, Or.inr hd⟩
  obtain ⟨r, a, rc, ac, hra, hrc, hat⟩ := parse_at struct mods (p ++ [Step.key "drums"]) o
    (some (natToString i)) ("" ++ "." ++ natToString i) v ht hn hq hcov hdist hplain
    hp2 hv
  obtain ⟨e1, e2, e3, e4, e5, e6⟩ := path_end struct mods (p ++ [Step.key "drums"]) o
    (some (natToString i)) ("" ++ "." ++ natToString i) v ht hn hq hcov hdist hplain
    hp2 hv
  have hproto : v.allKeys (fun k => k != "__proto__") = true :=
    allKeys_mono (by intro k hk; simp only [Bool.and_eq_true] at hk; exact hk.1) v e6
  have hid := parse_identity struct (v.height + 1) v
    (endKey (some (natToString i)) (p ++ [Step.key "drums"]))
    (endTree ("" ++ "." ++ natToString i) (p ++ [Step.key "drums"]))
    (Nat.lt_succ_self _) e1 e2 e5 (allKeys_and v hvk hproto) (Or.inr ⟨mods, e4, hd⟩)
  rw [hid] at hrc
  injection hrc with hpair
  injection hpair with h1 h2
  subst h1
  exact ⟨r, a, hra, hat⟩

/-- Witness for the amended C4: drums with nested content, next to a pitch library. -/
theorem drums_kept_witness :
    ∃ r a,
      parseSection 0
        (Tree.map [("nLibrary", Tree.map [("a", Tree.num 60)]),
          ("drums", Tree.map [("kick", Tree.seq [Tree.num 36, Tree.str "1"])])])
        ⟨[], [[⟨2, 1⟩]]⟩ = Except.ok (r, a) ∧
      r.at? ([] ++ [Step.key "drums"])
        = some (Tree.map [("kick", Tree.seq [Tree.num 36, Tree.str "1"])]) :=
  drums_kept ⟨[], [[⟨2, 1⟩]]⟩ 0 ⟨2, 1⟩ [] (by rfl) (by decide)
    (Tree.map [("nLibrary", Tree.map [("a", Tree.num 60)]),
      ("drums", Tree.map [("kick", Tree.seq [Tree.num 36, Tree.str "1"])])])
    (by rfl) (by rfl) [] (by intro k hk; simp at hk)
    (Tree.map [("kick", Tree.seq [Tree.num 36, Tree.str "1"])]) (by rfl) (by rfl)

/-! ## The pitch-library marker (C2, C5, C6, C7) -/

/-- C2 at its failing input: with `key_diff = 2`, the number 60 held in a one-element
sequence inside the `nLibrary` subtree is not returned as 62: `isNaN([60])` is false, so
the sequence is overwritten by `[60] + 2`, the string `602`. A number stored directly
under the key `nLibrary` is returned unchanged. -/
theorem parse_library_singleton :
    parseSection 0 (Tree.map [("nLibrary", Tree.map [("a", Tree.seq [Tree.num 60])])])
        ⟨[], [[⟨2, 1⟩]]⟩
      = Except.ok (Tree.map [("nLibrary", Tree.map [("a", Tree.str "602")])],
          Tree.map [("nLibrary", Tree.map [("a", Tree.str "602")])]) ∧
    parseSection 0 (Tree.map [("nLibrary", Tree.num 60)]) ⟨[], [[⟨2, 1⟩]]⟩
      = Except.ok (Tree.map [("nLibrary", Tree.num 60)],
          Tree.map [("nLibrary", Tree.num 60)]) := by
  exact ⟨by rfl, by rfl⟩

/-- C5 at its failing input: after `parse` with `key_diff = 2`, the input tree itself
holds 62 where it held 60: the second component of the result is the state of the
argument after the call, and it differs from the argument. -/
theorem parse_mutates_input :
    parseSection 0 (Tree.map [("nLibrary", Tree.map [("a", Tree.num 60)])])
        ⟨[], [[⟨2, 1⟩]]⟩
      = Except.ok (Tree.map [("nLibrary", Tree.map [("a", Tree.num 62)])],
          Tree.map [("nLibrary", Tree.map [("a", Tree.num 62)])]) ∧
    Tree.map [("nLibrary", Tree.map [("a", Tree.num 62)])]
      ≠ Tree.map [("nLibrary", Tree.map [("a", Tree.num 60)])] := by
  refine ⟨by rfl, ?_⟩
  simp

/-- C6 at its failing input: with `key_diff = 2`, the string leaves `60` and the empty
string inside the `nLibrary` subtree are returned as `602` and `2`; the string `c4`,
which is not a numeric literal, is returned unchanged. -/
theorem parse_library_strings :
    parseSection 0
        (Tree.map [("nLibrary",
          Tree.map [("a", Tree.str "60"), ("b", Tree.str ""), ("c", Tree.str "c4")])])
        ⟨[], [[⟨2, 1⟩]]⟩
      = Except.ok
        (Tree.map [("nLibrary",
          Tree.map [("a", Tree.str "602"), ("b", Tree.str "2"), ("c", Tree.str "c4")])],
         Tree.map [("nLibrary",
          Tree.map [("a", Tree.str "602"), ("b", Tree.str "2"), ("c", Tree.str "c4")])]) := by
  rfl

/-- C7 at its failing input: with `key_diff = 0` and a nonzero drums delta, `parse` is
not the identity: the one-element sequence `[60]` and the string `60` inside the
`nLibrary` subtree are both returned as the string `600`. -/
theorem parse_zero_diff_not_identity :
    parseSection 0
        (Tree.map [("nLibrary",
          Tree.map [("a", Tree.seq [Tree.num 60]), ("b", Tree.str "60")])])
        ⟨[], [[⟨0, 1⟩]]⟩
      = Except.ok
        (Tree.map [("nLibrary", Tree.map [("a", Tree.str "600"), ("b", Tree.str "600")])],
         Tree.map [("nLibrary", Tree.map [("a", Tree.str "600"), ("b", Tree.str "600")])]) := by
  rfl

/-! ## Errors of `parse`: never out of fuel -/

mutual
theorem jsToString_error : ∀ (v : Tree) (e : Error), jsToString v = Except.error e →
    e = Error.typeError
  | .num _, e, h => by simp [jsToString, pure, Except.pure] at h
  | .str _, e, h => by simp [jsToString, pure, Except.pure] at h
  | .seq xs, e, h => by
    simp only [jsToString] at h
    exact joinElems_error xs e h
  | .map kvs, e, h => by
    simp only [jsToString] at h
    split at h
    · simp only [throw, throwThe, MonadExceptOf.throw, Except.error.injEq] at h
      exact h.symm
    · simp [pure, Except.pure] at h
theorem joinElems_error : ∀ (xs : List Tree) (e : Error),
    joinElems xs = Except.error e → e = Error.typeError
  | [], e, h => by simp [joinElems, pure, Except.pure] at h
  | x :: xs, e, h => by
    simp only [joinElems, bind, Except.bind] at h
    cases hx : jsToString x with
    | error e2 =>
      rw [hx] at h
      simp only [Except.error.injEq] at h
      rw [← h]
      exact jsToString_error x e2 hx
    | ok a =>
      rw [hx] at h
      simp only at h
      cases hr : joinRest xs with
      | error e2 =>
        rw [hr] at h
        simp only [Except.error.injEq] at h
        rw [← h]
        exact joinRest_error xs e2 hr
      | ok b => rw [hr] at h; simp [pure, Except.pure] at h
theorem joinRest_error : ∀ (xs : List Tree) (e : Error),
    joinRest xs = Except.error e → e = Error.typeError
  | [], e, h => by simp [joinRest, pure, Except.pure] at h
  | x :: xs, e, h => by
    simp only [joinRest, bind, Except.bind] at h
    cases hx : jsToString x with
    | error e2 =>
      rw [hx] at h
      simp only [Except.error.injEq] at h
      rw [← h]
      exact jsToString_error x e2 hx
    | ok a =>
      rw [hx] at h
      simp only at h
      cases hr : joinRest xs with
      | error e2 =>
        rw [hr] at h
        simp only [Except.error.injEq] at h
        rw [← h]
        exact joinRest_error xs e2 hr
      | ok b => rw [hr] at h; simp [pure, Except.pure] at h
end

theorem isNaN_error {v : Tree} {e : Error} (h : isNaN v = Except.error e) :
    e = Error.typeError := by
  cases v with
  | num n => simp [isNaN, pure, Except.pure] at h
  | str s => simp [isNaN, jsToString, bind, Except.bind, pure, Except.pure] at h
  | seq xs =>
    simp only [isNaN, bind, Except.bind] at h
    cases hx : jsToString (Tree.seq xs) with
    | error e2 =>
      rw [hx] at h
      simp only [Except.error.injEq] at h
      rw [← h]; exact jsToString_error _ e2 hx
    | ok a => rw [hx] at h; simp [pure, Except.pure] at h
  | map kvs =>
    simp only [isNaN, bind, Except.bind] at h
    cases hx : jsToString (Tree.map kvs) with
    | error e2 =>
      rw [hx] at h
      simp only [Except.error.injEq] at h
      rw [← h]; exact jsToString_error _ e2 hx
    | ok a => rw [hx] at h; simp [pure, Except.pure] at h

theorem add_error {v : Tree} {diff : Int} {e : Error} (h : add v diff = Except.error e) :
    e = Error.typeError := by
  cases v with
  | num n => simp [add, pure, Except.pure] at h
  | str s => simp [add, jsToString, bind, Except.bind, pure, Except.pure] at h
  | seq xs =>
    simp only [add, bind, Except.bind] at h
    cases hx : jsToString (Tree.seq xs) with
    | error e2 =>
      rw [hx] at h
      simp only [Except.error.injEq] at h
      rw [← h]; exact jsToString_error _ e2 hx
    | ok a => rw [hx] at h; simp [pure, Except.pure] at h
  | map kvs =>
    simp only [add, bind, Except.bind] at h
    cases hx : jsToString (Tree.map kvs) with
    | error e2 =>
      rw [hx] at h
      simp only [Except.error.injEq] at h
      rw [← h]; exact jsToString_error _ e2 hx
    | ok a => rw [hx] at h; simp [pure, Except.pure] at h

theorem transposeLoop_error (diff : Int) : ∀ (es : List (String × Tree)) (o : Tree)
    (e : Error), transposeLoop diff es o = Except.error e → e = Error.typeError := by
  intro es
  induction es with
  | nil => intro o e h; simp [transposeLoop, pure, Except.pure] at h
  | cons x es ih =>
    intro o e h
    obtain ⟨key, val⟩ := x
    simp only [transposeLoop, bind, Except.bind] at h
    cases hn : isNaN val with
    | error e2 =>
      rw [hn] at h
      simp only [Except.error.injEq] at h
      rw [← h]; exact isNaN_error hn
    | ok b =>
      rw [hn] at h
      cases b with
      | true => exact ih _ _ h
      | false =>
        simp only [Bool.not_false, if_true] at h
        cases hs : add val diff with
        | error e2 =>
          rw [hs] at h
          simp only [Except.error.injEq] at h
          rw [← h]; exact add_error hs
        | ok sum =>
          rw [hs] at h
          exact ih _ _ h

theorem lookupMods_error {struct : Structure} {tree : String} {e : Error}
    (h : lookupMods struct tree = Except.error e) : e = Error.typeError := by
  unfold lookupMods at h
  split at h
  · simp only [throw, throwThe, MonadExceptOf.throw, Except.error.injEq] at h
    exact h.symm
  · split at h
    · simp only [throw, throwThe, MonadExceptOf.throw, Except.error.injEq] at h
      exact h.symm
    · split at h
      · simp only [throw, throwThe, MonadExceptOf.throw, Except.error.injEq] at h
        exact h.symm
      · simp [pure, Except.pure] at h

theorem applyChanges_error {tree : String} {key : Option String} {o : Tree}
    {struct : Structure} {e : Error}
    (h : applyChanges tree key o struct = Except.error e) : e = Error.typeError := by
  unfold applyChanges at h
  split at h
  · simp only [bind, Except.bind] at h
    cases hl : lookupMods struct tree with
    | error e2 =>
      rw [hl] at h
      simp only [Except.error.injEq] at h
      rw [← h]; exact lookupMods_error hl
    | ok mods =>
      rw [hl] at h
      simp only at h
      cases ht : transposeLoop mods.key_diff (entries o) o with
      | error e2 =>
        rw [ht] at h
        simp only [Except.error.injEq] at h
        rw [← h]; exact transposeLoop_error _ _ _ _ ht
      | ok m => rw [ht] at h; simp [pure, Except.pure] at h
  · split at h
    · simp only [bind, Except.bind] at h
      cases hl : lookupMods struct tree with
      | error e2 =>
        rw [hl] at h
        simp only [Except.error.injEq] at h
        rw [← h]; exact lookupMods_error hl
      | ok mods =>
        rw [hl] at h
        simp only at h
        split at h <;> simp [pure, Except.pure] at h
    · simp [pure, Except.pure] at h

theorem parseEntries_error {f : String → Tree → Except Error (Tree × Tree)} :
    ∀ (es : List (String × Tree)) (e : Error), parseEntries f es = Except.error e →
      ∃ x ∈ es, f x.1 x.2 = Except.error e := by
  intro es
  induction es with
  | nil => intro e h; simp [parseEntries, pure, Except.pure] at h
  | cons x es ih =>
    intro e h
    obtain ⟨k, v⟩ := x
    simp only [parseEntries, bind, Except.bind] at h
    cases hf : f k v with
    | error e2 =>
      rw [hf] at h
      simp only [Except.error.injEq] at h
      exact ⟨(k, v), List.mem_cons_self _ _, by rw [← h]; exact hf⟩
    | ok r =>
      rw [hf] at h
      simp only at h
      cases hr : parseEntries f es with
      | error e2 =>
        rw [hr] at h
        simp only [Except.error.injEq] at h
        obtain ⟨y, hy, hfy⟩ := ih e2 hr
        exact ⟨y, List.mem_cons_of_mem _ hy, by rw [← h]; exact hfy⟩
      | ok rs => rw [hr] at h; simp [pure, Except.pure] at h

/-- The recursion of `parse` never runs out of fuel: the only error `parse` returns is
a `TypeError`. -/
theorem parse_error_typeError (struct : Structure) : ∀ (n : Nat) (o : Tree)
    (key : Option String) (tree : String) (e : Error), o.height < n →
    parse key o struct tree = Except.error e → e = Error.typeError := by
  intro n
  induction n with
  | zero => intro o key tree e h; omega
  | succ n ih =>
    intro o key tree e hh h
    rw [parse_eq] at h
    unfold parseStep at h
    cases hc : applyChanges tree key o struct with
    | error e2 =>
      rw [hc] at h
      simp only [bind, Except.bind, Except.error.injEq] at h
      rw [← h]; exact applyChanges_error hc
    | ok c =>
      rw [hc] at h
      simp only [bind, Except.bind] at h
      have hret := applyChanges_returned hc
      cases hr : c.returned with
      | num v => rw [hr] at h; simp [pure, Except.pure] at h
      | str s => rw [hr] at h; simp [pure, Except.pure] at h
      | seq xs =>
        rw [hr] at h hret
        simp only at h
        cases hp : parseEntries (fun k o => parse (some k) o struct (tree ++ "." ++ k))
            (entries (Tree.seq xs)) with
        | ok rs => rw [hp] at h; simp [pure, Except.pure] at h
        | error e2 =>
          rw [hp] at h
          simp only [Except.error.injEq] at h
          obtain ⟨x, hx, hfx⟩ := parseEntries_error _ _ hp
          simp only [entries] at hx
          have hle := height_le_heightElems (indexFrom_mem hx)
          rcases hret with hret | hret
          · simp only [Tree.height] at hret
            rw [← h]
            exact ih x.2 (some x.1) _ e2 (by omega) hfx
          · exact Tree.noConfusion hret
      | map kvs =>
        rw [hr] at h hret
        simp only at h
        cases hp : parseEntries (fun k o => parse (some k) o struct (tree ++ "." ++ k))
            (entries (Tree.map kvs)) with
        | ok rs => rw [hp] at h; simp [pure, Except.pure] at h
        | error e2 =>
          rw [hp] at h
          simp only [Except.error.injEq] at h
          obtain ⟨x, hx, hfx⟩ := parseEntries_error _ _ hp
          simp only [entries] at hx
          have hle := height_le_heightProps hx
          rcases hret with hret | hret
          · simp only [Tree.height] at hret
            rw [← h]
            exact ih x.2 (some x.1) _ e2 (by omega) hfx
          · injection hret with hnil
            rw [hnil] at hx
            simp at hx

/-! ## The structured score shares its sections (C11, C12) -/

theorem getIndex_range {α : Type} (xs : List α) (i : Int) :
    getIndex xs i = (getIndex (List.range xs.length) i).bind (fun r => xs[r]?) := by
  unfold getIndex
  split
  · rfl
  · by_cases h : i.toNat < xs.length
    · rw [List.getElem?_range h]
      rfl
    · have h1 : xs[i.toNat]? = none := List.getElem?_eq_none (by omega)
      have h2 : (List.range xs.length)[i.toNat]? = none :=
        List.getElem?_eq_none (by simp; omega)
      rw [h1, h2]
      rfl

theorem pushed_range {α : Type} (xs : List α) (label : Label) (offset : Int) :
    pushed xs label offset
      = (pushed (List.range xs.length) label offset).bind (fun r => xs[r]?) := by
  unfold pushed
  simp only [List.length_range]
  split
  · exact getIndex_range xs 0
  · split
    · exact getIndex_range xs _
    · cases label.parseInt with
      | none => rfl
      | some l => exact getIndex_range xs _

/-- The sections `applyStructure` selects are the sections its selection of indices refers
to: selecting from the positions `0 .. length - 1` and then reading the sections gives
the same list. -/
theorem applyStructure_refs {α : Type} (scoreObject : List α) (labels : List Label) :
    applyStructure scoreObject labels
      = (applyStructure (List.range scoreObject.length) labels).map
          (fun ref => ref.bind (fun r => scoreObject[r]?)) := by
  apply List.ext_getElem?
  intro i
  rw [List.getElem?_map]
  by_cases hi : i < labels.length
  · have hget : labels[i]? = some labels[i] := List.getElem?_eq_getElem hi
    rw [applyStructure_getElem scoreObject labels i labels[i] hget,
      applyStructure_getElem (List.range scoreObject.length) labels i labels[i] hget,
      pushed_range]
    rfl
  · have h1 : (applyStructure scoreObject labels)[i]? = none :=
      List.getElem?_eq_none (by rw [applyStructure_length]; omega)
    have h2 : (applyStructure (List.range scoreObject.length) labels)[i]? = none :=
      List.getElem?_eq_none (by rw [applyStructure_length]; omega)
    rw [h1, h2]
    rfl

/-- C11 at its failing input: with `key_diff = 2`, the one-element sequence under `chord`
and the empty sequence under `rest`, both inside the `nLibrary` subtree, do not stay
sequences: `isNaN` is false on both and they are overwritten by the strings `602` and
`2`. No drums subtree is involved. -/
theorem parse_sequence_becomes_string :
    parseSection 0
        (Tree.map [("nLibrary",
          Tree.map [("chord", Tree.seq [Tree.num 60]), ("rest", Tree.seq [])])])
        ⟨[], [[⟨2, 1⟩]]⟩
      = Except.ok
        (Tree.map [("nLibrary",
          Tree.map [("chord", Tree.str "602"), ("rest", Tree.str "2")])],
         Tree.map [("nLibrary",
          Tree.map [("chord", Tree.str "602"), ("rest", Tree.str "2")])]) := by
  rfl

/-- C12 at its failing input: one raw section with the number 60 in its pitch library,
selected at positions 0 and 1 by the labels `['0', '0']`, with `key_diff` 2 for position 0
and 3 for position 1. Position 1 yields 65, not 60 + 3: the call for position 0 has
written 62 into the section itself, and the section ends with 65. -/
theorem getStructuredScore_accumulates :
    getStructuredScore [Tree.map [("nLibrary", Tree.map [("a", Tree.num 60)])]]
        ⟨[Label.str "0", Label.str "0"], [[⟨2, 1⟩], [⟨3, 1⟩]]⟩
      = Except.ok
        ([some (Tree.map [("nLibrary", Tree.map [("a", Tree.num 62)])]),
          some (Tree.map [("nLibrary", Tree.map [("a", Tree.num 65)])])],
         [Tree.map [("nLibrary", Tree.map [("a", Tree.num 65)])]]) := by
  rfl

/-! ## A section without template entry (C18) -/

/-- When `structure.sections` has no template entry for section `i`, every lookup made
below the path of section `i` is a `TypeError`. -/
theorem uncovered_section {struct : Structure} {i : Nat}
    (hno : struct.sections[i]? = none ∨ struct.sections[i]? = some []) :
    ∀ keys : List String,
      lookupMods struct (keys.foldl (fun t k => t ++ "." ++ k) ("" ++ "." ++ natToString i))
        = Except.error Error.typeError := by
  intro keys
  obtain ⟨suffix, hsuf, hdot⟩ := foldl_path_suffix keys ("" ++ "." ++ natToString i)
  rw [hsuf]
  unfold lookupMods
  rw [splitDot_section i suffix hdot]
  simp only [Option.bind, parseInt_natToString, getIndex_natCast]
  rcases hno with hno | hno
  · rw [hno]; rfl
  · rw [hno]; rfl

theorem includes_extend_key (tree : String) {key : String}
    (hk : includes key "nLibrary" = true) :
    includes (tree ++ "." ++ key) "nLibrary" = true := by
  rw [includes_iff] at hk ⊢
  obtain ⟨a, b, hab⟩ := hk
  refine ⟨tree.data ++ '.' :: a, b, ?_⟩
  have hd : (tree ++ "." ++ key).data = tree.data ++ '.' :: key.data := by
    simp [String.data_append]
  rw [hd, ← hab]
  simp

theorem parse_of_applyChanges_error {tree : String} {key : Option String} {o : Tree}
    {struct : Structure} {e : Error}
    (h : applyChanges tree key o struct = Except.error e) :
    parse key o struct tree = Except.error e := by
  rw [parse_eq]
  unfold parseStep
  rw [h]
  rfl

/-- At a marker (the key is `nLibrary`, the path includes `nLibrary`, or the key is
`drums`) `applyChanges` looks the template entry up first; without one it fails. -/
theorem applyChanges_marker_error {tree : String} {key : Option String} (o : Tree)
    {struct : Structure}
    (hl : lookupMods struct tree = Except.error Error.typeError)
    (hm : key = some "nLibrary" ∨ includes tree "nLibrary" = true ∨ key = some "drums") :
    applyChanges tree key o struct = Except.error Error.typeError := by
  unfold applyChanges
  by_cases h1 : (decide (key = some "nLibrary") || includes tree "nLibrary") = true
  · rw [if_pos h1]
    simp only [bind, Except.bind, hl]
  · rw [if_neg h1]
    have hd : key = some "drums" := by
      rcases hm with hm | hm | hm
      · exact absurd (by simp [hm]) h1
      · exact absurd (by simp [hm]) h1
      · exact hm
    rw [if_pos hd]
    simp only [bind, Except.bind, hl]

theorem parseEntries_fails {f : String → Tree → Except Error (Tree × Tree)} :
    ∀ (es : List (String × Tree)), (∃ x ∈ es, ∃ e, f x.1 x.2 = Except.error e) →
      ∃ e, parseEntries f es = Except.error e := by
  intro es
  induction es with
  | nil => rintro ⟨x, hx, _⟩; simp at hx
  | cons y es ih =>
    rintro ⟨x, hx, e, hfx⟩
    obtain ⟨k, v⟩ := y
    simp only [parseEntries, bind, Except.bind]
    cases hf : f k v with
    | error e2 => exact ⟨e2, rfl⟩
    | ok r =>
      simp only
      have hx2 : x ∈ es := by
        rcases List.mem_cons.1 hx with hx | hx
        · subst hx
          simp only at hfx
          rw [hf] at hfx
          exact Except.noConfusion hfx
        · exact hx
      obtain ⟨e3, he3⟩ := ih ⟨x, hx2, e, hfx⟩
      rw [he3]
      exact ⟨e3, rfl⟩

theorem child_entry {o c : Tree} {s : Step} (h : o.child s = some c) :
    ∃ name, (name, c) ∈ entries o ∧
      endKey none [s] = some name ∧ ∀ t, endTree t [s] = t ++ "." ++ name := by
  cases o with
  | num n => cases s <;> simp [Tree.child] at h
  | str t => cases s <;> simp [Tree.child] at h
  | seq xs =>
    cases s with
    | key k => simp [Tree.child] at h
    | idx j =>
      simp only [Tree.child] at h
      have := indexFrom_getElem xs 0 j c h
      rw [Nat.zero_add] at this
      exact ⟨natToString j, List.getElem?_mem this, rfl, fun _ => rfl⟩
  | map kvs =>
    cases s with
    | idx j => simp [Tree.child] at h
    | key k =>
      simp only [Tree.child] at h
      exact ⟨k, lookup_mem h, rfl, fun _ => rfl⟩

/-- Without a template entry for the section of the path, `parse` fails with a
`TypeError` on every tree that holds a marker key: a key that includes `nLibrary`, or the
key `drums`. -/
theorem parse_marker_fails (struct : Structure) : ∀ (p : List Step) (o : Tree)
    (key : Option String) (tree : String) (k : String) (v : Tree),
    (∀ keys : List String,
      lookupMods struct (keys.foldl (fun t k => t ++ "." ++ k) tree)
        = Except.error Error.typeError) →
    (includes k "nLibrary" = true ∨ k = "drums") →
    o.at? (p ++ [Step.key k]) = some v →
    parse key o struct tree = Except.error Error.typeError := by
  intro p
  induction p with
  | nil =>
    intro o key tree k v hun hk hv
    by_cases hm : key = some "nLibrary" ∨ includes tree "nLibrary" = true ∨
        key = some "drums"
    · exact parse_of_applyChanges_error (applyChanges_marker_error o (hun []) hm)
    · have hn : key ≠ some "nLibrary" := fun h => hm (Or.inl h)
      have ht : includes tree "nLibrary" = false := by
        cases hi : includes tree "nLibrary" with
        | false => rfl
        | true => exact absurd (Or.inr (Or.inl hi)) hm
      have hd : key ≠ some "drums" := fun h => hm (Or.inr (Or.inr h))
      have hc := applyChanges_other o struct ht hn hd
      simp only [List.nil_append, Tree.at?] at hv
      cases hch : o.child (Step.key k) with
      | none => rw [hch] at hv; exact Option.noConfusion hv
      | some c =>
        obtain ⟨name, hmem, hname, _⟩ := child_entry hch
        simp only [endKey, Option.some.injEq] at hname
        subst hname
        have hchild : parse (some k) c struct (tree ++ "." ++ k)
            = Except.error Error.typeError := by
          apply parse_of_applyChanges_error
          apply applyChanges_marker_error c (hun [k])
          rcases hk with hk | hk
          · exact Or.inr (Or.inl (includes_extend_key tree hk))
          · exact Or.inr (Or.inr (by rw [hk]))
        have hfail : ∃ e, parseEntries
            (fun k c => parse (some k) c struct (tree ++ "." ++ k)) (entries o)
            = Except.error e :=
          parseEntries_fails _ ⟨(k, c), hmem, Error.typeError, hchild⟩
        obtain ⟨e, he⟩ := hfail
        obtain ⟨x, _, hx⟩ := parseEntries_error _ _ he
        have hty := parse_error_typeError struct (x.2.height + 1) x.2 (some x.1) _ e
          (Nat.lt_succ_self _) hx
        subst hty
        rw [parse_eq, parseStep_quiet parse hc]
        cases o with
        | num n => simp [Tree.child] at hch
        | str s => simp [Tree.child] at hch
        | seq xs => simp [Tree.child] at hch
        | map kvs =>
          simp only [entries] at he
          simp only [he]
          rfl
  | cons s p ih =>
    intro o key tree k v hun hk hv
    by_cases hm : key = some "nLibrary" ∨ includes tree "nLibrary" = true ∨
        key = some "drums"
    · exact parse_of_applyChanges_error (applyChanges_marker_error o (hun []) hm)
    · have hn : key ≠ some "nLibrary" := fun h => hm (Or.inl h)
      have ht : includes tree "nLibrary" = false := by
        cases hi : includes tree "nLibrary" with
        | false => rfl
        | true => exact absurd (Or.inr (Or.inl hi)) hm
      have hd : key ≠ some "drums" := fun h => hm (Or.inr (Or.inr h))
      have hc := applyChanges_other o struct ht hn hd
      rw [List.cons_append, Tree.at?] at hv
      cases hch : o.child s with
      | none => rw [hch] at hv; exact Option.noConfusion hv
      | some c =>
        rw [hch] at hv
        obtain ⟨name, hmem, _, _⟩ := child_entry hch
        have hchild : parse (some name) c struct (tree ++ "." ++ name)
            = Except.error Error.typeError :=
          ih c (some name) (tree ++ "." ++ name) k v (fun keys => hun (name :: keys)) hk hv
        have hfail : ∃ e, parseEntries
            (fun k c => parse (some k) c struct (tree ++ "." ++ k)) (entries o)
            = Except.error e :=
          parseEntries_fails _ ⟨(name, c), hmem, Error.typeError, hchild⟩
        obtain ⟨e, he⟩ := hfail
        obtain ⟨x, _, hx⟩ := parseEntries_error _ _ he
        have hty := parse_error_typeError struct (x.2.height + 1) x.2 (some x.1) _ e
          (Nat.lt_succ_self _) hx
        subst hty
        rw [parse_eq, parseStep_quiet parse hc]
        cases o with
        | num n => cases s <;> simp [Tree.child] at hch
        | str t => cases s <;> simp [Tree.child] at hch
        | seq xs =>
          simp only [entries] at he
          simp only [he]
          rfl
        | map kvs =>
          simp only [entries] at he
          simp only [he]
          rfl

/-- C18, as stated, fails: the structure has no template entry at all, the labels select
the one section of the score, which holds no marker key, and the transform returns the
section, it raises no error. -/
theorem getStructuredScore_without_entry_returns :
    getStructuredScore [Tree.map [("r", Tree.str "1234"), ("bass", Tree.seq [Tree.num 36])]]
        ⟨[Label.str "0"], []⟩
      = Except.ok
        ([some (Tree.map [("r", Tree.str "1234"), ("bass", Tree.seq [Tree.num 36])])],
         [Tree.map [("r", Tree.str "1234"), ("bass", Tree.seq [Tree.num 36])]]) := by
  rfl

/-- C18, amended: when `structure.sections` has no template entry for section position
`i`, the transform of that section fails with a `TypeError` if the section holds a marker
key anywhere (a key that contains the text `nLibrary`, or the key `drums`): the entry is
looked up at the marker, not on entering the section. A section without marker key (and
without key `__proto__`) is returned as it is, without error. -/
theorem parse_missing_entry (struct : Structure) (i : Nat)
    (hno : struct.sections[i]? = none ∨ struct.sections[i]? = some []) (o : Tree) :
    (∀ (p : List Step) (k : String) (v : Tree),
      (includes k "nLibrary" = true ∨ k = "drums") →
      o.at? (p ++ [Step.key k]) = some v →
      parseSection i o struct = Except.error Error.typeError) ∧
    (o.distinctKeys = true →
      o.allKeys
        (fun k => !includes k "nLibrary" && k != "drums" && k != "__proto__") = true →
      parseSection i o struct = Except.ok (o, o)) := by
  refine ⟨?_, ?_⟩
  · intro p k v hk hv
    unfold parseSection
    exact parse_marker_fails struct p o _ _ k v (uncovered_section hno) hk hv
  · intro hdist hkeys
    have h1 : o.allKeys (fun k => !includes k "nLibrary" && k != "__proto__") = true := by
      refine allKeys_mono ?_ o hkeys
      intro k hk
      simp only [Bool.and_eq_true] at hk ⊢
      exact ⟨hk.1.1, hk.2⟩
    have h2 : o.allKeys (fun k => k != "drums") = true := by
      refine allKeys_mono ?_ o hkeys
      intro k hk
      simp only [Bool.and_eq_true] at hk
      exact hk.1.2
    unfold parseSection
    apply parse_identity struct (o.height + 1) o _ _ (Nat.lt_succ_self _)
      (section_path_quiet i) _ hdist h1
    · left
      exact ⟨by intro h; injection h with h; exact natToString_ne_drums i h, h2⟩
    · intro h; injection h with h; exact natToString_ne_nLibrary i h

/-- Witness for the amended C18: section 1 of a structure with a single template entry;
the section holds a pitch library in its second track. -/
theorem parse_missing_entry_witness :
    parseSection 1
        (Tree.map [("tracks", Tree.seq [Tree.map [("r", Tree.str "1234")],
          Tree.map [("nLibrary", Tree.map [("a", Tree.num 60)])]])])
        ⟨[], [[⟨2, 1⟩]]⟩
      = Except.error Error.typeError :=
  (parse_missing_entry ⟨[], [[⟨2, 1⟩]]⟩ 1 (Or.inl (by rfl))
    (Tree.map [("tracks", Tree.seq [Tree.map [("r", Tree.str "1234")],
      Tree.map [("nLibrary", Tree.map [("a", Tree.num 60)])]])])).1
    [Step.key "tracks", Step.idx 1] "nLibrary" (Tree.map [("a", Tree.num 60)])
    (Or.inl (by decide)) (by rfl)

/-! ## A flat pitch library (C17) -/

theorem natToString_injective {a b : Nat} (h : natToString a = natToString b) : a = b := by
  have ha := parseInt_natToString a
  rw [h, parseInt_natToString b] at ha
  injection ha with ha
  exact (Int.ofNat.inj ha).symm

theorem replaceIndex_at (x v : Tree) (rest : List Tree) : ∀ (done : List Tree) (start : Nat),
    replaceIndex (done ++ x :: rest) start (natToString (start + done.length)) v
      = done ++ v :: rest := by
  intro done
  induction done with
  | nil =>
    intro start
    simp [replaceIndex]
  | cons y ys ih =>
    intro start
    have hne : natToString start ≠ natToString (start + (y :: ys).length) := by
      intro h
      have := natToString_injective h
      simp at this
    rw [List.cons_append, replaceIndex, if_neg hne]
    have hlen : start + (y :: ys).length = (start + 1) + ys.length := by
      simp; omega
    rw [hlen, ih]
    rfl

theorem replaceOwn_at (k : String) (x v : Tree) (rest : List (String × Tree)) :
    ∀ (done : List (String × Tree)), k ∉ done.map Prod.fst →
    replaceOwn (done ++ (k, x) :: rest) k v = done ++ (k, v) :: rest := by
  intro done
  induction done with
  | nil => intro _; simp [replaceOwn]
  | cons y ys ih =>
    intro hk
    obtain ⟨k2, w⟩ := y
    have hne : k2 ≠ k := by
      intro h
      apply hk
      simp [h]
    have hk2 : k ∉ ys.map Prod.fst := by
      intro h
      apply hk
      simp only [List.map_cons, List.mem_cons]
      exact Or.inr h
    rw [List.cons_append, replaceOwn, if_neg hne, ih hk2]
    rfl

/-- The loop of `applyChanges` on a sequence of numbers adds `diff` to each of them. -/
theorem transposeLoop_numbers_seq (diff : Int) : ∀ (suffix : List Int) (done : List Tree),
    transposeLoop diff (indexFrom done.length (suffix.map Tree.num))
        (Tree.seq (done ++ suffix.map Tree.num))
      = Except.ok (Tree.seq (done ++ suffix.map (fun n => Tree.num (n + diff)))) := by
  intro suffix
  induction suffix with
  | nil => intro done; rfl
  | cons n ns ih =>
    intro done
    simp only [List.map_cons, indexFrom, transposeLoop, isNaN, add, bind, Except.bind, pure,
      Except.pure, Bool.not_false, if_true, assignOwn]
    have h := replaceIndex_at (Tree.num n) (Tree.num (n + diff)) (ns.map Tree.num) done 0
    rw [Nat.zero_add] at h
    rw [h]
    have h2 := ih (done ++ [Tree.num (n + diff)])
    simp only [List.length_append, List.length_singleton, List.append_assoc,
      List.singleton_append] at h2
    exact h2

/-- The loop of `applyChanges` on a mapping of numbers with distinct keys adds `diff` to
each of them and keeps the keys. -/
theorem transposeLoop_numbers_map (diff : Int) : ∀ (suffix : List (String × Int))
    (done : List (String × Tree)),
    (done.map Prod.fst ++ suffix.map Prod.fst).Nodup →
    transposeLoop diff (suffix.map (fun e => (e.1, Tree.num e.2)))
        (Tree.map (done ++ suffix.map (fun e => (e.1, Tree.num e.2))))
      = Except.ok
        (Tree.map (done ++ suffix.map (fun e => (e.1, Tree.num (e.2 + diff))))) := by
  intro suffix
  induction suffix with
  | nil => intro done _; rfl
  | cons e es ih =>
    intro done hnd
    obtain ⟨k, n⟩ := e
    have hk : k ∉ done.map Prod.fst := by
      intro hmem
      rw [List.nodup_append] at hnd
      exact hnd.2.2 hmem (by simp)
    simp only [List.map_cons, transposeLoop, isNaN, add, bind, Except.bind, pure,
      Except.pure, Bool.not_false, if_true, assignOwn]
    rw [replaceOwn_at k (Tree.num n) (Tree.num (n + diff)) _ done hk]
    have h2 := ih (done ++ [(k, Tree.num (n + diff))])
      (by simpa [List.append_assoc] using hnd)
    simp only [List.append_assoc, List.singleton_append] at h2
    exact h2

theorem applyChanges_marked {tree : String} {key : Option String} (o : Tree)
    {struct : Structure} {mods : Mods}
    (hm : key = some "nLibrary" ∨ includes tree "nLibrary" = true)
    (hl : lookupMods struct tree = Except.ok mods) :
    applyChanges tree key o struct
      = (transposeLoop mods.key_diff (entries o) o).map (fun m => ⟨m, none⟩) := by
  unfold applyChanges
  have h1 : (decide (key = some "nLibrary") || includes tree "nLibrary") = true := by
    rcases hm with hm | hm
    · simp [hm]
    · simp [hm]
  rw [if_pos h1]
  simp only [bind, Except.bind, hl]
  cases transposeLoop mods.key_diff (entries o) o <;> rfl

/-- A number on a path that includes `nLibrary` is returned as it is: it has no entries. -/
theorem parse_number_marked {struct : Structure} {mods : Mods} {tree : String}
    (key : Option String) (n : Int) (hcov : Covered struct mods tree)
    (ht : includes tree "nLibrary" = true) :
    parse key (Tree.num n) struct tree = Except.ok (Tree.num n, Tree.num n) := by
  rw [parse_eq]
  unfold parseStep
  rw [applyChanges_marked (Tree.num n) (Or.inr ht) (covered_lookup hcov)]
  rfl

/-- A sequence of numbers under the key `nLibrary`: every number gets `key_diff` added,
in place and in the returned sequence; length and order are kept. -/
theorem parse_flat_library_seq {struct : Structure} {mods : Mods} {tree : String}
    (hcov : Covered struct mods (tree ++ "." ++ "nLibrary")) (ns : List Int) :
    parse (some "nLibrary") (Tree.seq (ns.map Tree.num)) struct (tree ++ "." ++ "nLibrary")
      = Except.ok (Tree.seq (ns.map (fun n => Tree.num (n + mods.key_diff))),
          Tree.seq (ns.map (fun n => Tree.num (n + mods.key_diff)))) := by
  have ht : includes (tree ++ "." ++ "nLibrary") "nLibrary" = true :=
    includes_extend_key tree includes_nLibrary_self
  have hloop := transposeLoop_numbers_seq mods.key_diff ns []
  simp only [List.length_nil, List.nil_append] at hloop
  rw [parse_eq]
  unfold parseStep
  rw [applyChanges_marked _ (Or.inr ht) (covered_lookup hcov)]
  simp only [entries, hloop, Except.map, bind, Except.bind, Changed.returned,
    Option.getD_none]
  rw [parseEntries_id]
  · simp only [pure, Except.pure, Option.isSome_none, List.map_map]
    have h1 : (List.map ((fun r : String × Tree × Tree => r.2.1) ∘
        fun e : String × Tree => (e.1, e.2, e.2))
        (indexFrom 0 (ns.map (fun n => Tree.num (n + mods.key_diff)))))
        = ns.map (fun n => Tree.num (n + mods.key_diff)) := by
      have := indexFrom_map_snd (ns.map (fun n => Tree.num (n + mods.key_diff))) 0
      simpa [Function.comp] using this
    have h2 : (List.map ((fun r : String × Tree × Tree => r.2.2) ∘
        fun e : String × Tree => (e.1, e.2, e.2))
        (indexFrom 0 (ns.map (fun n => Tree.num (n + mods.key_diff)))))
        = ns.map (fun n => Tree.num (n + mods.key_diff)) := by
      have := indexFrom_map_snd (ns.map (fun n => Tree.num (n + mods.key_diff))) 0
      simpa [Function.comp] using this
    rw [h1, h2]
    rfl
  · intro e he
    obtain ⟨n, _, hn⟩ := List.mem_map.1 (indexFrom_mem he)
    rw [← hn]
    exact parse_number_marked (some e.1) _ (covered_extend hcov e.1)
      (includes_extend_true _ (includes_extend_true "." ht))

/-- A mapping of numbers under the key `nLibrary`, with distinct keys none of which is
`__proto__`: every number gets `key_diff` added, in place and in the returned mapping;
the keys and their order are kept. -/
theorem parse_flat_library_map {struct : Structure} {mods : Mods} {tree : String}
    (hcov : Covered struct mods (tree ++ "." ++ "nLibrary")) (es : List (String × Int))
    (hnd : (es.map Prod.fst).Nodup) (hproto : "__proto__" ∉ es.map Prod.fst) :
    parse (some "nLibrary") (Tree.map (es.map (fun e => (e.1, Tree.num e.2)))) struct
        (tree ++ "." ++ "nLibrary")
      = Except.ok (Tree.map (es.map (fun e => (e.1, Tree.num (e.2 + mods.key_diff)))),
          Tree.map (es.map (fun e => (e.1, Tree.num (e.2 + mods.key_diff))))) := by
  have ht : includes (tree ++ "." ++ "nLibrary") "nLibrary" = true :=
    includes_extend_key tree includes_nLibrary_self
  have hloop := transposeLoop_numbers_map mods.key_diff es [] (by simpa using hnd)
  simp only [List.nil_append] at hloop
  rw [parse_eq]
  unfold parseStep
  rw [applyChanges_marked _ (Or.inr ht) (covered_lookup hcov)]
  simp only [entries, hloop, Except.map, bind, Except.bind, Changed.returned,
    Option.getD_none]
  rw [parseEntries_id]
  · simp only [pure, Except.pure, Option.isSome_none]
    have hnd2 : (([] : List (String × Tree)).map Prod.fst ++
        ((es.map (fun e => (e.1, Tree.num (e.2 + mods.key_diff)))).map
          (fun e => (e.1, e.2, e.2))).map Prod.fst).Nodup := by
      simpa [Function.comp] using hnd
    have hp2 : ∀ r ∈ (es.map (fun e => (e.1, Tree.num (e.2 + mods.key_diff)))).map
        (fun e : String × Tree => (e.1, e.2, e.2)), r.1 ≠ "__proto__" := by
      intro r hr hrk
      apply hproto
      simp only [List.map_map, List.mem_map, Function.comp] at hr
      obtain ⟨e, he, hre⟩ := hr
      rw [← hre] at hrk
      exact List.mem_map.2 ⟨e, he, hrk⟩
    rw [foldl_assignProp _ _ hnd2 hp2]
    simp [Function.comp]
  · intro e he
    obtain ⟨x, _, hx⟩ := List.mem_map.1 he
    rw [← hx]
    exact parse_number_marked (some x.1) _ (covered_extend hcov x.1)
      (includes_extend_true _ (includes_extend_true "." ht))

theorem covered_above {struct : Structure} {mods : Mods} {tree : String}
    (h : Covered struct mods tree) (above : List String) :
    Covered struct mods (above.foldl (fun t k => t ++ "." ++ k) tree) := by
  intro keys
  have := h (above ++ keys)
  rwa [List.foldl_append] at this

/-- The call of `parse` for section `i` on a section that holds one value, under the key
`nLibrary`: the section itself is not changed, and its value is what the recursive call
returns for it. -/
theorem parseSection_library (struct : Structure) (i : Nat) (library changed : Tree)
    (h : parse (some "nLibrary") library struct
        ("" ++ "." ++ natToString i ++ "." ++ "nLibrary") = Except.ok (changed, changed)) :
    parseSection i (Tree.map [("nLibrary", library)]) struct
      = Except.ok (Tree.map [("nLibrary", changed)], Tree.map [("nLibrary", changed)]) := by
  have hn : (some (natToString i) : Option String) ≠ some "nLibrary" := by
    intro h; injection h with h; exact natToString_ne_nLibrary i h
  have hd : (some (natToString i) : Option String) ≠ some "drums" := by
    intro h; injection h with h; exact natToString_ne_drums i h
  unfold parseSection
  rw [parse_eq]
  unfold parseStep
  rw [applyChanges_other _ struct (section_path_quiet i) hn hd]
  simp only [bind, Except.bind, Changed.returned, Option.getD_none, entries, parseEntries,
    h, pure, Except.pure, List.foldl_cons, List.foldl_nil, List.map_cons, List.map_nil,
    Option.isSome_none]
  rfl

/-- C17: under section `i`, whose template entry has `key_diff = d`, the call of `parse`
on a flat pitch library, a mapping or a sequence of numbers under the key `nLibrary`,
returns a mapping with the same keys in the same order, or a sequence of the same length
and order, in which every entry is the input entry plus `d`; the library in the input ends
in the same state. This holds wherever the library lies under the section (the keys
`above` it), and the section that holds the library directly is returned with the
transposed library in it. The library is a JavaScript object literal (distinct keys, none
of them `__proto__`), and the numbers are integers of at most `2^52` in absolute value,
on which the additions of the source are exact. -/
theorem parse_flat_library (struct : Structure) (i : Nat) (mods : Mods) (rest : List Mods)
    (hs : struct.sections[i]? = some (mods :: rest)) :
    mods.key_diff.natAbs ≤ 2 ^ 52 →
    (∀ (above : List String) (es : List (String × Int)),
      (es.map Prod.fst).Nodup → "__proto__" ∉ es.map Prod.fst →
      (∀ e ∈ es, e.2.natAbs ≤ 2 ^ 52) →
      parse (some "nLibrary") (Tree.map (es.map (fun e => (e.1, Tree.num e.2)))) struct
          (above.foldl (fun t k => t ++ "." ++ k) ("" ++ "." ++ natToString i)
            ++ "." ++ "nLibrary")
        = Except.ok (Tree.map (es.map (fun e => (e.1, Tree.num (e.2 + mods.key_diff)))),
            Tree.map (es.map (fun e => (e.1, Tree.num (e.2 + mods.key_diff)))))) ∧
    (∀ (above : List String) (ns : List Int), (∀ n ∈ ns, n.natAbs ≤ 2 ^ 52) →
      parse (some "nLibrary") (Tree.seq (ns.map Tree.num)) struct
          (above.foldl (fun t k => t ++ "." ++ k) ("" ++ "." ++ natToString i)
            ++ "." ++ "nLibrary")
        = Except.ok (Tree.seq (ns.map (fun n => Tree.num (n + mods.key_diff))),
            Tree.seq (ns.map (fun n => Tree.num (n + mods.key_diff))))) ∧
    (∀ es : List (String × Int),
      (es.map Prod.fst).Nodup → "__proto__" ∉ es.map Prod.fst →
      (∀ e ∈ es, e.2.natAbs ≤ 2 ^ 52) →
      parseSection i
          (Tree.map [("nLibrary", Tree.map (es.map (fun e => (e.1, Tree.num e.2))))]) struct
        = Except.ok
          (Tree.map [("nLibrary",
              Tree.map (es.map (fun e => (e.1, Tree.num (e.2 + mods.key_diff)))))],
            Tree.map [("nLibrary",
              Tree.map (es.map (fun e => (e.1, Tree.num (e.2 + mods.key_diff)))))])) ∧
    (∀ ns : List Int, (∀ n ∈ ns, n.natAbs ≤ 2 ^ 52) →
      parseSection i (Tree.map [("nLibrary", Tree.seq (ns.map Tree.num))]) struct
        = Except.ok
          (Tree.map [("nLibrary", Tree.seq (ns.map (fun n => Tree.num (n + mods.key_diff))))],
            Tree.map [("nLibrary",
              Tree.seq (ns.map (fun n => Tree.num (n + mods.key_diff))))])) := by
  have hcov := covered_section hs
  intro _
  refine ⟨?_, ?_, ?_, ?_⟩
  · intro above es hnd hproto _
    exact parse_flat_library_map (covered_extend (covered_above hcov above) "nLibrary") es
      hnd hproto
  · intro above ns _
    exact parse_flat_library_seq (covered_extend (covered_above hcov above) "nLibrary") ns
  · intro es hnd hproto _
    exact parseSection_library struct i _ _
      (parse_flat_library_map (covered_extend hcov "nLibrary") es hnd hproto)
  · intro ns _
    exact parseSection_library struct i _ _
      (parse_flat_library_seq (covered_extend hcov "nLibrary") ns)

/-- Witness for C17: section 0 holds the library `{ a: 60, b: 62 }` under `nLibrary`, and
`key_diff` is 2. -/
theorem parse_flat_library_witness :
    parseSection 0
        (Tree.map [("nLibrary", Tree.map [("a", Tree.num 60), ("b", Tree.num 62)])])
        ⟨[], [[⟨2, 1⟩]]⟩
      = Except.ok
        (Tree.map [("nLibrary", Tree.map [("a", Tree.num 62), ("b", Tree.num 64)])],
          Tree.map [("nLibrary", Tree.map [("a", Tree.num 62), ("b", Tree.num 64)])]) :=
  (parse_flat_library ⟨[], [[⟨2, 1⟩]]⟩ 0 ⟨2, 1⟩ [] (by rfl) (by decide)).2.2.1
    [("a", 60), ("b", 62)] (by decide) (by decide) (by decide)

/-! ## Termination and results (C19) -/

/-- When section `i` has a template entry and no object of the tree has an own property
`toString`, the call of `parse` for section `i` returns a result. -/
theorem parseSection_total (struct : Structure) (i : Nat) (mods : Mods) (rest : List Mods)
    (hs : struct.sections[i]? = some (mods :: rest)) (o : Tree)
    (hplain : o.allKeys (fun k => k != "toString") = true) :
    ∃ r a, parseSection i o struct = Except.ok (r, a) :=
  parse_total struct mods (o.height + 1) o _ _ (Nat.lt_succ_self _) (covered_section hs)
    hplain

/-- Whatever the tree and the structure, the call of `parse` for section `i` does not run
out of fuel: it returns a result or raises a `TypeError`. -/
theorem parseSection_terminates (struct : Structure) (i : Nat) (o : Tree) :
    (∃ r a, parseSection i o struct = Except.ok (r, a)) ∨
      parseSection i o struct = Except.error Error.typeError := by
  cases h : parseSection i o struct with
  | ok ra => exact Or.inl ⟨ra.1, ra.2, rfl⟩
  | error e =>
    right
    unfold parseSection at h
    rw [parse_error_typeError struct (o.height + 1) o _ _ e (Nat.lt_succ_self _) h]
/-- A library read by `JSON.parse` can hold an own property `__proto__`, which an object
literal cannot. With the keys `__proto__` and `a` and `key_diff = 2`, both numbers are
transposed in the input, but the returned mapping has lost the key `__proto__`:
`returnValue['__proto__'] = 62` runs the inherited setter and creates no property. -/
theorem parse_library_key_lost :
    parseSection 0
        (Tree.map [("nLibrary", Tree.map [("__proto__", Tree.num 60), ("a", Tree.num 62)])])
        ⟨[], [[⟨2, 1⟩]]⟩
      = Except.ok
        (Tree.map [("nLibrary", Tree.map [("a", Tree.num 64)])],
         Tree.map [("nLibrary",
          Tree.map [("__proto__", Tree.num 62), ("a", Tree.num 64)])]) := by
  rfl

/-- C19 at its failing input: the structure covers section 0, the tree is finite, and
`parse` raises a `TypeError`: the entry `a` of the pitch library is an object with an own
property `toString` that is not a function, and `isNaN` cannot convert it to a number.
The recursion itself always ends (`parseSection_terminates`), and without such a property
`parse` returns a result (`parseSection_total`). -/
theorem parse_raises_on_toString :
    parseSection 0
        (Tree.map [("nLibrary", Tree.map [("a", Tree.map [("toString", Tree.num 1)])])])
        ⟨[], [[⟨2, 1⟩]]⟩
      = Except.error Error.typeError := by
  rfl

/-! ## Numeric labels: `parseInt` of a number -/

theorem bitLength_le : ∀ (fuel n k : Nat), n < 2 ^ k → bitLength fuel n ≤ k := by
  intro fuel
  induction fuel with
  | zero => intro n k _; simp [bitLength]
  | succ f ih =>
    intro n k h
    unfold bitLength
    split
    · exact Nat.zero_le _
    · rename_i hn
      cases k with
      | zero =>
        rw [pow_zero] at h
        exact absurd (by omega) hn
      | succ k =>
        have h2 : n / 2 < 2 ^ k := by rw [pow_succ] at h; omega
        have := ih (n / 2) k h2
        omega

theorem bitLength_ge : ∀ (fuel n k : Nat), n ≤ fuel → 2 ^ k ≤ n →
    k + 1 ≤ bitLength fuel n := by
  intro fuel
  induction fuel with
  | zero =>
    intro n k hn h
    have hpos : 0 < 2 ^ k := by positivity
    omega
  | succ f ih =>
    intro n k hn h
    have hpos : 0 < 2 ^ k := by positivity
    unfold bitLength
    rw [if_neg (by omega)]
    cases k with
    | zero => omega
    | succ k =>
      rw [pow_succ] at h
      have h2 : 2 ^ k ≤ n / 2 := by omega
      have h3 : n / 2 ≤ f := by omega
      have := ih (n / 2) k h3 h2
      omega

theorem pow_bitLength_le : ∀ (fuel n : Nat), n ≠ 0 → 2 ^ (bitLength fuel n - 1) ≤ n := by
  intro fuel
  induction fuel with
  | zero =>
    intro n hn
    simp only [bitLength, Nat.zero_sub, pow_zero]
    omega
  | succ f ih =>
    intro n hn
    unfold bitLength
    rw [if_neg hn, Nat.add_sub_cancel]
    by_cases h0 : bitLength f (n / 2) = 0
    · rw [h0, pow_zero]; omega
    · have hhalf : n / 2 ≠ 0 := by
        intro hz
        apply h0
        rw [hz]
        cases f <;> simp [bitLength]
      have h1 := ih (n / 2) hhalf
      have h2 : bitLength f (n / 2) = (bitLength f (n / 2) - 1) + 1 := by omega
      rw [h2, pow_succ]
      omega

/-- An integer below `2^53` is a Number value. -/
theorem toNumber_small {n : Nat} (h : n < 2 ^ 53) : toNumber n = some n := by
  have hb := bitLength_le n n 53 h
  have he : bitLength n n - 53 = 0 := by omega
  unfold toNumber
  simp only [he, pow_zero, Nat.div_one, Nat.mod_one, Nat.mul_zero, Nat.mul_one,
    Nat.add_zero]
  have hc : ¬ (1 < 0 ∨ (0 = 1 ∧ n % 2 = 1)) := by omega
  rw [if_neg hc, if_pos (by omega)]

/-- The Number value of an integer from `2^53` on is at least `2^53`. -/
theorem toNumber_large {n y : Nat} (h : 2 ^ 53 ≤ n) (hy : toNumber n = some y) :
    2 ^ 53 ≤ y := by
  have hb := bitLength_ge n n 53 (le_refl _) h
  have hn : n ≠ 0 := by
    have : 0 < 2 ^ 53 := by positivity
    omega
  have hlow := pow_bitLength_le n n hn
  unfold toNumber at hy
  simp only at hy
  generalize hbl : bitLength n n = b at hb hlow hy
  obtain ⟨e, rfl⟩ : ∃ e, b = e + 54 := ⟨b - 54, by omega⟩
  have he : e + 54 - 53 = e + 1 := by omega
  have he2 : e + 54 - 1 = 52 + (e + 1) := by omega
  rw [he] at hy
  rw [he2, pow_add] at hlow
  have hm : 2 ^ 52 ≤ n / 2 ^ (e + 1) := by
    rw [Nat.le_div_iff_mul_le (by positivity)]
    exact hlow
  have h2e : 2 ≤ 2 ^ (e + 1) := by
    rw [pow_succ]
    have : 0 < 2 ^ e := by positivity
    omega
  have hr : 2 ^ 52 ≤ (if 2 ^ (e + 1) < 2 * (n % 2 ^ (e + 1)) ∨
      (2 * (n % 2 ^ (e + 1)) = 2 ^ (e + 1) ∧ n / 2 ^ (e + 1) % 2 = 1)
      then n / 2 ^ (e + 1) + 1 else n / 2 ^ (e + 1)) := by
    split <;> omega
  generalize (if 2 ^ (e + 1) < 2 * (n % 2 ^ (e + 1)) ∨
      (2 * (n % 2 ^ (e + 1)) = 2 ^ (e + 1) ∧ n / 2 ^ (e + 1) % 2 = 1)
      then n / 2 ^ (e + 1) + 1 else n / 2 ^ (e + 1)) = rounded at hy hr
  split at hy
  · injection hy with hy
    rw [← hy]
    calc 2 ^ 53 = 2 ^ 52 * 2 := by norm_num
      _ ≤ _ := Nat.mul_le_mul hr h2e
  · exact Option.noConfusion hy

theorem toNumber_ne_of_lt {x hi : Nat} (hx : x < 2 ^ 53) (h : x < hi) :
    toNumber hi ≠ some x := by
  intro heq
  by_cases hs : hi < 2 ^ 53
  · rw [toNumber_small hs] at heq
    injection heq with heq
    omega
  · have := toNumber_large (Nat.le_of_not_lt hs) heq
    omega

/-- A Number value below `2^53` is written with all its digits. -/
theorem shortestDecimal_small {x : Nat} (hx : x < 2 ^ 53) :
    ∀ j, shortestDecimal x j = x := by
  intro j
  induction j with
  | zero => rfl
  | succ j ih =>
    have hp : 0 < 10 ^ (j + 1) := by positivity
    have hlo : x / 10 ^ (j + 1) * 10 ^ (j + 1) ≤ x := Nat.div_mul_le_self _ _
    have hhi : x < x / 10 ^ (j + 1) * 10 ^ (j + 1) + 10 ^ (j + 1) :=
      Nat.lt_div_mul_add hp
    have h1 : toNumber (x / 10 ^ (j + 1) * 10 ^ (j + 1))
        = some (x / 10 ^ (j + 1) * 10 ^ (j + 1)) :=
      toNumber_small (Nat.lt_of_le_of_lt hlo hx)
    have h2 := toNumber_ne_of_lt hx hhi
    unfold shortestDecimal
    simp only [if_neg h2, h1]
    by_cases heq : x / 10 ^ (j + 1) * 10 ^ (j + 1) = x
    · rw [if_pos (by rw [heq])]
      exact heq
    · rw [if_neg (by intro h; injection h with h; exact heq h)]
      exact ih

theorem unsignedToString_small {x : Nat} (hx : x < 2 ^ 53) :
    unsignedToString x = natToString x := by
  unfold unsignedToString
  simp only [shortestDecimal_small hx]
  have h21 : x < 10 ^ 21 := Nat.lt_trans hx (by norm_num)
  rw [if_pos h21]
  rfl

/-- The string of an integer below `2^53` in absolute value is its decimal form. -/
theorem numberToString_small {n : Int} (h : n.natAbs < 2 ^ 53) :
    numberToString n = intToString n := by
  unfold numberToString
  rw [toNumber_small h]
  cases n with
  | ofNat k =>
    have hk : ¬ (Int.ofNat k < 0) := by
      simp only [Int.ofNat_eq_coe]; omega
    simp only [if_neg hk]
    exact unsignedToString_small h
  | negSucc k =>
    have hk : Int.negSucc k < 0 := Int.negSucc_lt_zero k
    simp only [if_pos hk]
    have h2 : (Int.negSucc k).natAbs = k + 1 := rfl
    rw [h2] at h ⊢
    rw [unsignedToString_small h]
    rfl

theorem parseInt_neg_natToString (i : Nat) :
    parseInt ("-" ++ natToString i) = some (-(i : Int)) := by
  have hne := natDigits_ne_nil i i
  have hdig := natDigits_digit i i
  have hval := parseDigits_natDigits i i (le_refl _) [] none
  have hdata : ("-" ++ natToString i).data = '-' :: natDigits i i := by
    simp [String.data_append, natToString]
  unfold parseInt
  simp only [hdata]
  have hdrop : List.dropWhile isStrWhiteSpaceChar ('-' :: natDigits i i)
      = '-' :: natDigits i i := by
    rw [List.dropWhile_cons]
    rfl
  rw [hdrop]
  have hsign : stripSign ('-' :: natDigits i i) = (-1, natDigits i i) := rfl
  rw [hsign]
  simp only
  generalize natDigits i i = ds at hne hdig hval
  cases ds with
  | nil => exact absurd rfl hne
  | cons c cs =>
    obtain ⟨d, hd, hcd⟩ := hdig c (List.mem_cons_self _ _)
    have hhex : stripHexPrefix (c :: cs) = (10, c :: cs) := by
      cases cs with
      | nil => rw [hcd]; interval_cases d <;> rfl
      | cons c2 cs2 =>
        obtain ⟨d2, hd2, hcd2⟩ := hdig c2 (by simp)
        rw [hcd, hcd2]
        interval_cases d <;> interval_cases d2 <;> rfl
    rw [hhex]
    simp only
    rw [List.append_nil] at hval
    rw [hval]
    simp [parseDigits]

theorem parseInt_intToString (n : Int) : parseInt (intToString n) = some n := by
  cases n with
  | ofNat k => exact parseInt_natToString k
  | negSucc k =>
    have h := parseInt_neg_natToString (k + 1)
    rw [show intToString (Int.negSucc k) = "-" ++ natToString (k + 1) from rfl, h]
    rfl

/-- A numeric label below `2^53` in absolute value is read as itself. -/
theorem parseInt_num_label {n : Int} (h : n.natAbs < 2 ^ 53) :
    (Label.num n).parseInt = some n := by
  unfold Label.parseInt
  simp only
  rw [numberToString_small h, parseInt_intToString]

/-- The strings of the numbers `1e21`, `-1e21`, `1e23` (written in full, its Number value is
just below) and `2^70`, and of an integer too large for a Number. -/
theorem numberToString_exponent :
    numberToString (10 ^ 21) = "1e+21" ∧
    numberToString (-(10 ^ 21)) = "-1e+21" ∧
    numberToString (10 ^ 23) = "1e+23" ∧
    numberToString (2 ^ 70) = "1.1805916207174113e+21" ∧
    numberToString 123456789012345678901 = "123456789012345680000" := by
  refine ⟨by rfl, by rfl, by rfl, by rfl, by rfl⟩

/-- The label `1e21` is read as 1, so on the sections `[10, 11]` it selects `sections[1]`;
after an intro the label `-1e21` selects `sections[-1 + 1]`. -/
theorem applyStructure_exponent_label :
    (Label.num (10 ^ 21)).parseInt = some 1 ∧
    applyStructure [Tree.num 10, Tree.num 11] [Label.num (10 ^ 21)]
      = [some (Tree.num 11)] ∧
    applyStructure [Tree.num 10, Tree.num 11]
        [Label.str "unique_intro", Label.num (-(10 ^ 21))]
      = [some (Tree.num 10), some (Tree.num 10)] := by
  refine ⟨by rfl, by rfl, by rfl⟩

end ApplyStructure

/-! ## Properties of the value normaliser (C13, C14) -/

namespace converters

theorem isDigitRun_iff (cs : List Char) :
    isDigitRun cs = true ↔ cs ≠ [] ∧ ∀ c ∈ cs, isDigit c = true := by
  unfold isDigitRun
  cases cs with
  | nil => simp
  | cons c cs => simp

theorem takeWhile_stop (p : Char → Bool) : ∀ (a rest : List Char),
    (∀ c ∈ a, p c = true) → (rest = [] ∨ ∃ c t, rest = c :: t ∧ p c = false) →
    (a ++ rest).takeWhile p = a ∧ (a ++ rest).dropWhile p = rest := by
  intro a
  induction a with
  | nil =>
    intro rest _ hr
    rcases hr with hr | ⟨c, t, hr, hc⟩
    · subst hr; exact ⟨rfl, rfl⟩
    · subst hr
      simp [List.takeWhile_cons, List.dropWhile_cons, hc]
  | cons x xs ih =>
    intro rest ha hr
    have hx : p x = true := ha x (List.mem_cons_self _ _)
    obtain ⟨h1, h2⟩ := ih rest (fun c hc => ha c (List.mem_cons_of_mem _ hc)) hr
    simp [List.takeWhile_cons, List.dropWhile_cons, hx, h1, h2]

theorem matchFraction_of_runs {a b : List Char} (ha : isDigitRun a = true)
    (hb : isDigitRun b = true) :
    matchFraction (a ++ '/' :: b) = some (decimalValue a, decimalValue b) := by
  have ha2 := (isDigitRun_iff a).1 ha
  obtain ⟨h1, h2⟩ := takeWhile_stop isDigit a ('/' :: b) ha2.2
    (Or.inr ⟨'/', b, rfl, by decide⟩)
  unfold matchFraction
  simp only [h1, h2, ha, hb, Bool.and_self, if_true]

theorem matchFraction_some {cs : List Char} {x y : Nat}
    (h : matchFraction cs = some (x, y)) :
    ∃ a b, isDigitRun a = true ∧ isDigitRun b = true ∧ cs = a ++ '/' :: b ∧
      x = decimalValue a ∧ y = decimalValue b := by
  unfold matchFraction at h
  simp only at h
  split at h
  · rename_i b hb
    split at h
    · rename_i hruns
      simp only [Bool.and_eq_true] at hruns
      simp only [Option.some.injEq, Prod.mk.injEq] at h
      refine ⟨cs.takeWhile isDigit, b, hruns.1, hruns.2, ?_, h.1.symm, h.2.symm⟩
      rw [← hb, List.takeWhile_append_dropWhile]
    · exact Option.noConfusion h
  · exact Option.noConfusion h

theorem matchFraction_none {s : String}
    (h : ∀ a b : List Char, isDigitRun a = true → isDigitRun b = true →
      s.data ≠ a ++ '/' :: b) : matchFraction s.data = none := by
  cases hmf : matchFraction s.data with
  | none => rfl
  | some xy =>
    obtain ⟨x, y⟩ := xy
    obtain ⟨a, b, ha, hb, hcs, _, _⟩ := matchFraction_some hmf
    exact absurd hcs (h a b ha hb)

/-- C14: `valueToWholeNotes` returns every number unchanged, returns the rational `a/b`
for every string `a/b` of two decimal-digit runs (`1/4`, `1/12`, `1/32`), returns the
table value `1/2^n` for every named duration (`quarter` gives 1/4, `sixteenth` gives
1/16), and fails on every other string (such as `Hi!`). The table is the seven names the
spec lists, followed by whatever entries `more` its list leaves out: the seven yield their
values whatever `more` is, and a name of the whole table yields the value the table has
for it. -/
theorem valueToWholeNotes_values (more : List (String × Nat)) :
    (∀ q : Rat, valueToWholeNotes more (Value.num q) = Except.ok q) ∧
    (∀ a b : List Char, isDigitRun a = true → isDigitRun b = true →
      valueToWholeNotes more (Value.str ⟨a ++ '/' :: b⟩)
        = Except.ok ((decimalValue a : Rat) / (decimalValue b : Rat))) ∧
    (∀ (name : String) (n : Nat), (name, n) ∈ durationTable [] →
      valueToWholeNotes more (Value.str name) = Except.ok (1 / 2 ^ n)) ∧
    (∀ (name : String) (n : Nat),
      (∀ a b : List Char, isDigitRun a = true → isDigitRun b = true →
        name.data ≠ a ++ '/' :: b) →
      (durationTable more).lookup name = some n →
      valueToWholeNotes more (Value.str name) = Except.ok (1 / 2 ^ n)) ∧
    (∀ s : String,
      (∀ a b : List Char, isDigitRun a = true → isDigitRun b = true →
        s.data ≠ a ++ '/' :: b) →
      (durationTable more).lookup s = none →
      valueToWholeNotes more (Value.str s) = Except.error (ConvertError.invalidDuration s)) ∧
    valueToWholeNotes more (Value.str "1/4") = Except.ok (1 / 4) ∧
    valueToWholeNotes more (Value.str "1/12") = Except.ok (1 / 12) ∧
    valueToWholeNotes more (Value.str "1/32") = Except.ok (1 / 32) ∧
    valueToWholeNotes more (Value.str "quarter") = Except.ok (1 / 4) ∧
    valueToWholeNotes more (Value.str "sixteenth") = Except.ok (1 / 16) ∧
    (more.lookup "Hi!" = none →
      valueToWholeNotes more (Value.str "Hi!")
        = Except.error (ConvertError.invalidDuration "Hi!")) := by
  have hfrac : ∀ (x y : Nat) (s : String), matchFraction s.data = some (x, y) →
      valueToWholeNotes more (Value.str s) = Except.ok ((x : Rat) / (y : Rat)) := by
    intro x y s h
    simp only [valueToWholeNotes, h]
    rfl
  have hname : ∀ (s : String) (n : Nat), matchFraction s.data = none →
      (durationTable more).lookup s = some n →
      valueToWholeNotes more (Value.str s) = Except.ok (1 / 2 ^ n) := by
    intro s n h1 h2
    simp only [valueToWholeNotes, h1, h2]
    rfl
  refine ⟨fun _ => rfl, ?_, ?_, ?_, ?_, ?_, ?_, ?_, ?_, ?_, ?_⟩
  · intro a b ha hb
    exact hfrac _ _ _ (matchFraction_of_runs ha hb)
  · intro name n hmem
    simp only [durationTable, List.append_nil, List.mem_cons, Prod.mk.injEq,
      List.mem_singleton, List.not_mem_nil, or_false] at hmem
    rcases hmem with h | h | h | h | h | h | h <;>
      (obtain ⟨h1, h2⟩ := h; subst h1; subst h2; exact hname _ _ (by rfl) (by rfl))
  · intro name n hno hl
    exact hname _ _ (matchFraction_none hno) hl
  · intro s hno hl
    simp only [valueToWholeNotes, matchFraction_none hno, hl]
    rfl
  · rw [hfrac 1 4 "1/4" (by rfl)]; norm_num
  · rw [hfrac 1 12 "1/12" (by rfl)]; norm_num
  · rw [hfrac 1 32 "1/32" (by rfl)]; norm_num
  · rw [hname "quarter" 2 (by rfl) (by rfl)]; norm_num
  · rw [hname "sixteenth" 4 (by rfl) (by rfl)]; norm_num
  · intro hl
    have h2 : (durationTable more).lookup "Hi!" = none := by
      simp only [durationTable, List.cons_append, List.nil_append, List.lookup_cons]
      exact hl
    simp only [valueToWholeNotes, show matchFraction "Hi!".data = none from rfl, h2]
    rfl

/-- Witness for C14: the string `3/8`, with no further names in the table. -/
theorem valueToWholeNotes_values_witness :
    valueToWholeNotes [] (Value.str ⟨['3'] ++ '/' :: ['8']⟩)
      = Except.ok ((decimalValue ['3'] : Rat) / (decimalValue ['8'] : Rat)) :=
  (valueToWholeNotes_values []).2.1 ['3'] ['8'] (by rfl) (by rfl)

end converters

namespace converters

theorem isAccidental_iff (c : Char) : isAccidental c = true ↔ c = '#' ∨ c = 'b' := by
  unfold isAccidental
  simp

theorem not_accidental_of_digit {c : Char} (h : isDigit c = true) :
    isAccidental c = false := by
  cases ha : isAccidental c with
  | false => rfl
  | true =>
    rcases (isAccidental_iff c).1 ha with hc | hc
    · subst hc; exact absurd h (by decide)
    · subst hc; exact absurd h (by decide)

theorem not_sign_of_digit {c : Char} (h : isDigit c = true) : c ≠ '-' ∧ c ≠ '+' := by
  constructor
  · intro hc; subst hc; exact absurd h (by decide)
  · intro hc; subst hc; exact absurd h (by decide)

/-- The value of a sign and a run of digits. -/
theorem parseOctave_of_runs {sign digits : List Char}
    (hs : sign = [] ∨ sign = ['-'] ∨ sign = ['+']) (hd : isDigitRun digits = true) :
    parseOctave (sign ++ digits)
      = some (if sign = ['-'] then -(decimalValue digits : Int)
          else (decimalValue digits : Int)) := by
  rcases hs with hs | hs | hs
  · subst hs
    obtain ⟨hne, hall⟩ := (isDigitRun_iff digits).1 hd
    cases digits with
    | nil => exact absurd rfl hne
    | cons c r =>
      obtain ⟨h1, h2⟩ := not_sign_of_digit (hall c (List.mem_cons_self _ _))
      simp only [List.nil_append, parseOctave, if_neg h1, if_neg h2, hd, if_true]
      simp
  · subst hs
    simp only [List.singleton_append, parseOctave, if_true, hd]
  · subst hs
    have hne : ¬ ('+' = '-') := by decide
    simp only [List.singleton_append, parseOctave, if_neg hne, if_true, hd]
    simp

theorem parseOctave_some {cs : List Char} {octave : Int}
    (h : parseOctave cs = some octave) :
    ∃ sign digits, (sign = [] ∨ sign = ['-'] ∨ sign = ['+']) ∧
      isDigitRun digits = true ∧ cs = sign ++ digits := by
  cases cs with
  | nil => simp [parseOctave] at h
  | cons c r =>
    simp only [parseOctave] at h
    split at h
    · rename_i hc
      split at h
      · rename_i hr
        exact ⟨['-'], r, Or.inr (Or.inl rfl), hr, by rw [hc]; rfl⟩
      · exact Option.noConfusion h
    · split at h
      · rename_i hc
        split at h
        · rename_i hr
          exact ⟨['+'], r, Or.inr (Or.inr rfl), hr, by rw [hc]; rfl⟩
        · exact Option.noConfusion h
      · split at h
        · rename_i hr
          exact ⟨[], c :: r, Or.inl rfl, hr, rfl⟩
        · exact Option.noConfusion h

theorem baseSemitone_isSome (letter : Char) :
    (baseSemitone letter).isSome = true ↔ letter ∈ "cdefgabCDEFGAB".data := by
  have hdata : "cdefgabCDEFGAB".data
      = ['c', 'd', 'e', 'f', 'g', 'a', 'b', 'C', 'D', 'E', 'F', 'G', 'A', 'B'] := rfl
  rw [hdata]
  unfold baseSemitone
  simp only [List.mem_cons, List.mem_singleton, List.not_mem_nil, or_false]
  constructor
  · intro h
    by_contra hn
    simp only [not_or] at hn
    obtain ⟨n1, n2, n3, n4, n5, n6, n7, n8, n9, n10, n11, n12, n13, n14⟩ := hn
    simp [n1, n2, n3, n4, n5, n6, n7, n8, n9, n10, n11, n12, n13, n14] at h
  · intro h
    rcases h with h | h | h | h | h | h | h | h | h | h | h | h | h | h <;>
      (subst h; rfl)

/-- C13: `valueToMidiNoteNumber` returns every number unchanged; for every string made of
a letter in `{c,d,e,f,g,a,b}` (either case), zero or more `#`/`b` accidentals and a signed
integer octave it returns `baseSemitone(letter) + (number of #) - (number of b) +
(octave + 1) * 12`, so `c4` gives 60 and `c##4` gives 62; and a string on which it does
not fail has that form, so it fails on every other string, such as `invalid` and `##`. -/
theorem valueToMidiNoteNumber_values :
    (∀ q : Rat, valueToMidiNoteNumber (Value.num q) = Except.ok q) ∧
    (∀ (letter : Char) (accidentals sign digits : List Char),
      letter ∈ "cdefgabCDEFGAB".data →
      (∀ c ∈ accidentals, c = '#' ∨ c = 'b') →
      (sign = [] ∨ sign = ['-'] ∨ sign = ['+']) → isDigitRun digits = true →
      ∃ base : Int, baseSemitone letter = some base ∧
        valueToMidiNoteNumber (Value.str ⟨letter :: (accidentals ++ (sign ++ digits))⟩)
          = Except.ok (((base + (accidentals.count '#' : Int)
              - (accidentals.count 'b' : Int)
              + ((if sign = ['-'] then -(decimalValue digits : Int)
                  else (decimalValue digits : Int)) + 1) * 12 : Int) : Rat))) ∧
    (∀ (s : String) (x : Rat), valueToMidiNoteNumber (Value.str s) = Except.ok x →
      ∃ (letter : Char) (accidentals sign digits : List Char),
        letter ∈ "cdefgabCDEFGAB".data ∧ (∀ c ∈ accidentals, c = '#' ∨ c = 'b') ∧
        (sign = [] ∨ sign = ['-'] ∨ sign = ['+']) ∧ isDigitRun digits = true ∧
        s.data = letter :: (accidentals ++ (sign ++ digits))) ∧
    valueToMidiNoteNumber (Value.str "c4") = Except.ok 60 ∧
    valueToMidiNoteNumber (Value.str "c##4") = Except.ok 62 ∧
    valueToMidiNoteNumber (Value.num 58) = Except.ok 58 ∧
    valueToMidiNoteNumber (Value.str "invalid")
      = Except.error (ConvertError.invalidNoteName "invalid") ∧
    valueToMidiNoteNumber (Value.str "##")
      = Except.error (ConvertError.invalidNoteName "##") := by
  refine ⟨fun _ => rfl, ?_, ?_, by rfl, by rfl, by rfl, by rfl, by rfl⟩
  · intro letter accidentals sign digits hl hacc hs hd
    have hsome := (baseSemitone_isSome letter).2 hl
    obtain ⟨base, hbase⟩ := Option.isSome_iff_exists.1 hsome
    refine ⟨base, hbase, ?_⟩
    have hstop : sign ++ digits = [] ∨
        ∃ c t, sign ++ digits = c :: t ∧ isAccidental c = false := by
      right
      obtain ⟨hne, hall⟩ := (isDigitRun_iff digits).1 hd
      rcases hs with hs | hs | hs
      · subst hs
        cases digits with
        | nil => exact absurd rfl hne
        | cons c r =>
          exact ⟨c, r, rfl, not_accidental_of_digit (hall c (List.mem_cons_self _ _))⟩
      · subst hs; exact ⟨'-', digits, rfl, by decide⟩
      · subst hs; exact ⟨'+', digits, rfl, by decide⟩
    obtain ⟨h1, h2⟩ := takeWhile_stop isAccidental accidentals (sign ++ digits)
      (fun c hc => (isAccidental_iff c).2 (hacc c hc)) hstop
    simp only [valueToMidiNoteNumber, hbase, h1, h2, parseOctave_of_runs hs hd]
    rfl
  · intro s x h
    unfold valueToMidiNoteNumber at h
    simp only at h
    split at h
    · exact Except.noConfusion h
    · rename_i letter rest hdata
      split at h
      · exact Except.noConfusion h
      · rename_i base hbase
        split at h
        · exact Except.noConfusion h
        · rename_i octave hoct
          obtain ⟨sign, digits, hs, hd, hcs⟩ := parseOctave_some hoct
          refine ⟨letter, rest.takeWhile isAccidental, sign, digits, ?_, ?_, hs, hd, ?_⟩
          · exact (baseSemitone_isSome letter).1 (by rw [hbase]; rfl)
          · intro c hc
            exact (isAccidental_iff c).1 (List.mem_takeWhile_imp hc)
          · rw [hdata, ← hcs, List.takeWhile_append_dropWhile]

/-- Witness for C13: the string `Bb-1`, letter `B`, one flat, octave -1. -/
theorem valueToMidiNoteNumber_values_witness :
    ∃ base : Int, baseSemitone 'B' = some base ∧
      valueToMidiNoteNumber (Value.str ⟨'B' :: (['b'] ++ (['-'] ++ ['1']))⟩)
        = Except.ok (((base + ((['b'] : List Char).count '#' : Int)
            - ((['b'] : List Char).count 'b' : Int)
            + ((if (['-'] : List Char) = ['-'] then -(decimalValue ['1'] : Int)
                else (decimalValue ['1'] : Int)) + 1) * 12 : Int) : Rat)) :=
  valueToMidiNoteNumber_values.2.1 'B' ['b'] ['-'] ['1'] (by decide)
    (by intro c hc; simp at hc; exact Or.inr hc) (Or.inr (Or.inl rfl)) (by rfl)

end converters

/-! ## Properties of the message compiler (C15, C16) -/

namespace fluid

/-- C15: for every pitch, start and length in whole notes, `midiclip.note` returns one
message with address `/midiclip/n` and args exactly `[integer pitch, float start * 4,
float length * 4]` when no velocity is supplied, and those three followed by one
`integer velocity` when one is; in particular `note(60, 0.375, 0.125)` has the args
`[integer 60, float 1.5, float 0.5]`, and velocity 64 appends `integer 64`. -/
theorem midiclip_note_message (pitch : Int) (startWhole lengthWhole : Rat) :
    midiclip.note pitch startWhole lengthWhole none
      = ⟨"/midiclip/n",
          [Arg.integer pitch, Arg.float (startWhole * 4), Arg.float (lengthWhole * 4)]⟩ ∧
    (∀ velocity : Int,
      midiclip.note pitch startWhole lengthWhole (some velocity)
        = ⟨"/midiclip/n",
            [Arg.integer pitch, Arg.float (startWhole * 4), Arg.float (lengthWhole * 4),
              Arg.integer velocity]⟩) ∧
    midiclip.note 60 (3 / 8) (1 / 8) none
      = ⟨"/midiclip/n", [Arg.integer 60, Arg.float (3 / 2), Arg.float (1 / 2)]⟩ ∧
    midiclip.note 60 (3 / 8) (1 / 8) (some 64)
      = ⟨"/midiclip/n",
          [Arg.integer 60, Arg.float (3 / 2), Arg.float (1 / 2), Arg.integer 64]⟩ := by
  refine ⟨rfl, fun _ => rfl, ?_, ?_⟩
  · simp only [midiclip.note, List.append_nil, Message.mk.injEq, true_and]
    norm_num
  · simp only [midiclip.note, List.cons_append, List.nil_append, Message.mk.injEq,
      true_and]
    norm_num

theorem noteMessages_raw : ∀ (position : Nat) (notes : List Note),
    noteMessages position (notes.map Note.raw)
      = Except.ok (notes.map (fun x => midiclip.note x.n x.s x.l x.v)) := by
  intro position notes
  induction notes generalizing position with
  | nil => rfl
  | cons x xs ih =>
    simp only [List.map_cons, noteMessages, Note.raw, ih, bind, Except.bind, pure,
      Except.pure]

/-- C16: for every track name, clip name, start, end and list of `n` notes,
`midiclip.create` returns a batch of exactly `n + 3` messages: `/audiotrack/select` with
the track name, `/midiclip/select` with `[clip name, start, end]`, `/midiclip/clear`, then
one `/midiclip/n` message per note in the order given, the `k`-th carrying the `k`-th
note's pitch and its start and length multiplied by 4. The notes are not sorted: the
second part gives notes that start at 1, 0 and 1/2 whole notes in that order; the third is
the batch of the tests, with starts 0, 2, 4 and lengths 1, 1, 1 in quarter notes. -/
theorem midiclip_create_batch (trackName clipName : String) (startBeats endBeats : Rat)
    (notes : List Note) :
    (∃ batch : List Message,
      midiclip.create trackName clipName startBeats endBeats (notes.map Note.raw)
        = Except.ok batch ∧
      batch.length = notes.length + 3 ∧
      batch[0]? = some ⟨"/audiotrack/select", [Arg.string trackName]⟩ ∧
      batch[1]? = some ⟨"/midiclip/select",
        [Arg.string clipName, Arg.float startBeats, Arg.float endBeats]⟩ ∧
      batch[2]? = some ⟨"/midiclip/clear", []⟩ ∧
      ∀ (k : Nat) (note : Note), notes[k]? = some note →
        batch[k + 3]? = some ⟨"/midiclip/n",
          [Arg.integer note.n, Arg.float (note.s * 4), Arg.float (note.l * 4)] ++
            (match note.v with
             | some v => [Arg.integer v]
             | none => [])⟩) ∧
    midiclip.create "track1" "clip1" 1 2
        [⟨some 67, some 1, some (1 / 4), none⟩, ⟨some 60, some 0, some (1 / 4), none⟩,
          ⟨some 64, some (1 / 2), some (1 / 4), none⟩]
      = Except.ok
        [⟨"/audiotrack/select", [Arg.string "track1"]⟩,
          ⟨"/midiclip/select", [Arg.string "clip1", Arg.float 1, Arg.float 2]⟩,
          ⟨"/midiclip/clear", []⟩,
          ⟨"/midiclip/n", [Arg.integer 67, Arg.float 4, Arg.float 1]⟩,
          ⟨"/midiclip/n", [Arg.integer 60, Arg.float 0, Arg.float 1]⟩,
          ⟨"/midiclip/n", [Arg.integer 64, Arg.float 2, Arg.float 1]⟩] ∧
    midiclip.create "track1" "clip1" 1 2
        [⟨some 60, some 0, some (1 / 4), none⟩, ⟨some 64, some (1 / 2), some (1 / 4), none⟩,
          ⟨some 67, some 1, some (1 / 4), none⟩]
      = Except.ok
        [⟨"/audiotrack/select", [Arg.string "track1"]⟩,
          ⟨"/midiclip/select", [Arg.string "clip1", Arg.float 1, Arg.float 2]⟩,
          ⟨"/midiclip/clear", []⟩,
          ⟨"/midiclip/n", [Arg.integer 60, Arg.float 0, Arg.float 1]⟩,
          ⟨"/midiclip/n", [Arg.integer 64, Arg.float 2, Arg.float 1]⟩,
          ⟨"/midiclip/n", [Arg.integer 67, Arg.float 4, Arg.float 1]⟩] := by
  refine ⟨⟨audiotrack.select trackName ::
    midiclip.select clipName startBeats endBeats :: midiclip.clear ::
    notes.map (fun x : Note => midiclip.note x.n x.s x.l x.v), ?_, ?_, ?_, ?_, ?_, ?_⟩, ?_,
    ?_⟩
  · simp only [midiclip.create, noteMessages_raw, bind, Except.bind, pure, Except.pure]
  · simp
  · simp [audiotrack.select]
  · simp [midiclip.select]
  · simp [midiclip.clear]
  · intro k note hk
    simp only [List.getElem?_cons_succ, List.getElem?_map, hk, Option.map_some']
    rfl
  · simp only [midiclip.create, noteMessages, midiclip.note, audiotrack.select,
      midiclip.select, midiclip.clear, bind, Except.bind, pure, Except.pure,
      List.append_nil]
    norm_num
  · simp only [midiclip.create, noteMessages, midiclip.note, audiotrack.select,
      midiclip.select, midiclip.clear, bind, Except.bind, pure, Except.pure,
      List.append_nil]
    norm_num

end fluid
